import Mathlib

/-!
# Electorium (Go): delegative vote counting

A shallow embedding of `vote.go` and a verification of its specification.

Modelling conventions.

* A Go `string` is an immutable byte sequence: `List Nat`.
* A `uint64` is a `Nat`; every addition of the source is followed by `% 2^64`.
* The candidate arena `cands []candidate` is a `List candidate`; it is allocated with
  capacity `len(votes)`, so it never moves and a `*candidate` is an index into it
  (`Option Nat` where the source pointer may be `nil`).
* A `*Vote` points into the caller's slice, which the engine never writes: the
  pointer is modelled by the record it points to.
* `sort.Slice` and `blake2b` are library code: the first is any function that meets
  the contract of `sort.Slice` (not required to be stable), the second is an
  arbitrary function on byte sequences.
* Loops whose termination is not structural carry fuel; running out of fuel, a
  `panic`, a `nil` dereference and an index out of range are `Fault`s. A read through a
  non-nil pointer cannot fail in Go; `getC` reads the arena at the index, and the indices
  stored in a built counter are shown to be in range (`Counted.edge_lt`,
  `Counted.vfm_mem`, `Counted.chain`).
* The `verbose` flag only prints; it is omitted.
* The functions of the value model take and return slices as lists. The writes of
  `FindWinner` and of the functions it calls are followed in a second model, over a memory
  in which a `[]*candidate` is a slice header on a backing array (`Mem`, `FindWinnerM`);
  it returns the results of the value model (`FindWinnerM_spec`).
-/

namespace Electorium

/-- Two to the sixty-four: the modulus of `uint64` arithmetic. -/
def u64 : Nat := 18446744073709551616

structure Vote where
  VoterId : List Nat
  VoteFor : List Nat
  NumberOfVotes : Nat
  WillingCandidate : Bool
deriving DecidableEq, Repr, Inhabited

structure candidate where
  vote : Vote
  voteFor : Option Nat
  totalIndirectVotes : Nat
  votedForMe : List Nat
  willingCandidate : Bool
  nextByTotalIndirectVotes : Option Nat
deriving DecidableEq, Repr, Inhabited

inductive Fault where
  | panic (msg : String)
  | nilDereference
  | indexOutOfRange
  | outOfFuel
deriving DecidableEq, Repr

/-- Read through a non-nil `*candidate`. -/
def getC (cand : List candidate) (p : Nat) : candidate := cand.getD p default

/-- Write through a non-nil `*candidate`. -/
def updC (cand : List candidate) (p : Nat) (f : candidate → candidate) : List candidate :=
  cand.set p (f (getC cand p))

/-! ## The contract of `sort.Slice` -/

/-- A `less` function that `sort.Slice` accepts: a strict weak ordering. -/
structure StrictWeak {α : Type} (less : α → α → Bool) : Prop where
  irrefl : ∀ a, less a a = false
  trans : ∀ a b c, less a b = true → less b c = true → less a c = true
  incomp : ∀ a b c, less a b = false → less b c = false → less a c = false

/-- Any implementation of `sort.Slice`: it permutes the slice, and the result is sorted
when `less` is a strict weak ordering. Stability is not promised. -/
structure SortSlice where
  run : {α : Type} → (α → α → Bool) → List α → List α
  perm : ∀ {α : Type} (less : α → α → Bool) (xs : List α), (run less xs).Perm xs
  sorted : ∀ {α : Type} (less : α → α → Bool) (xs : List α), StrictWeak less →
    (run less xs).Pairwise (fun a b => less b a = false)

/-! ## `mkCandidates` -/

structure mkState where
  cands : List candidate
  candidateIdxByName : List (List Nat × Nat)
  totalWilling : Nat
deriving Repr

/-- The body of the inner loop of `mkCandidates` for one vote `v` in the pass `willing`. -/
def mkCandidates.admitVote (willing : Bool) (st : mkState) (v : Vote) : mkState :=
  if v.WillingCandidate != willing then st
  else if (st.candidateIdxByName.lookup v.VoterId).isSome then st
  else
    { cands := st.cands ++ [{ vote := v, voteFor := none,
                              totalIndirectVotes := v.NumberOfVotes, votedForMe := [],
                              willingCandidate := willing,
                              nextByTotalIndirectVotes := none }]
      candidateIdxByName := (v.VoterId, st.cands.length) :: st.candidateIdxByName
      totalWilling := if willing then st.totalWilling + 1 else st.totalWilling }

/-- The two admission passes of `mkCandidates`. -/
def mkCandidates.passes (votes : List Vote) : mkState :=
  [true, false].foldl (fun st willing => votes.foldl (mkCandidates.admitVote willing) st)
    { cands := [], candidateIdxByName := [], totalWilling := 0 }

/-- The body of the edge-resolution loop of `mkCandidates`. -/
def mkCandidates.resolve (m : List (List Nat × Nat)) (c : candidate) : candidate :=
  if c.vote.VoteFor = c.vote.VoterId then c
  else { c with voteFor := m.lookup c.vote.VoteFor }

def mkCandidates (votes : List Vote) : List candidate × Nat :=
  let st := mkCandidates.passes votes
  (st.cands.map (mkCandidates.resolve st.candidateIdxByName), st.totalWilling)

/-! ## `computeDelegatedVotes` -/

/-- The inner loop `for voteFor != nil` of `computeDelegatedVotes`. -/
def delegateWalk : Nat → List candidate → List Nat → Option Nat → Nat →
    Except Fault (List candidate)
  | _, cand, _, none, _ => .ok cand
  | 0, _, _, some _, _ => .error .outOfFuel
  | fuel + 1, cand, delegationPath, some voteFor, votes =>
    if delegationPath.contains voteFor then .ok cand
    else
      let cand1 := updC cand voteFor
        (fun c => { c with totalIndirectVotes := (c.totalIndirectVotes + votes) % u64 })
      delegateWalk fuel cand1 (delegationPath ++ [voteFor]) (getC cand1 voteFor).voteFor votes

/-- The body of the outer loop of `computeDelegatedVotes` for index `i`. -/
def delegateOne (cand : List candidate) (i : Nat) : Except Fault (List candidate) :=
  let c := getC cand i
  let voteFor := c.voteFor
  let votes := c.vote.NumberOfVotes
  let cand1 := match voteFor with
    | some vf => updC cand vf (fun d => { d with votedForMe := d.votedForMe ++ [i] })
    | none => cand
  delegateWalk cand1.length cand1 [i] voteFor votes

def computeDelegatedVotes (cand : List candidate) : Except Fault (List candidate) :=
  (List.range cand.length).foldlM delegateOne cand

/-! ## `orderByTotalIndirect` -/

/-- The first loop of `orderByTotalIndirect`: collect `&cand[i]` for `i < totalWillingCandidates`. -/
def orderByTotalIndirect.collect (cand : List candidate) (totalWillingCandidates : Nat) :
    Except Fault (List Nat) :=
  (List.range totalWillingCandidates).foldlM (fun sortable i =>
    if cand.length ≤ i then .error .indexOutOfRange
    else if !(getC cand i).willingCandidate then
      .error (.panic "Non-willing candidate in beginning of list")
    else .ok (sortable ++ [i])) []

/-- The last loop of `orderByTotalIndirect`: link each element to the one visited before. -/
def orderByTotalIndirect.link (cand : List candidate) (sortable : List Nat) :
    List candidate × Option Nat :=
  sortable.foldl (fun st c =>
    (updC st.1 c (fun d => { d with nextByTotalIndirectVotes := st.2 }), some c)) (cand, none)

def orderByTotalIndirect (S : SortSlice) (cand : List candidate) (totalWillingCandidates : Nat) :
    Except Fault (List candidate × Option Nat) := do
  let sortable ← orderByTotalIndirect.collect cand totalWillingCandidates
  let sorted := S.run
    (fun a b => decide ((getC cand a).totalIndirectVotes < (getC cand b).totalIndirectVotes))
    sortable
  pure (orderByTotalIndirect.link cand sorted)

/-! ## Ring decomposition -/

structure ringComputer where
  rings : List (List Nat)
  unorganized : List Nat
deriving Repr, DecidableEq

def ringComputer.removeFromUnorganized (rc : ringComputer) (cand : Nat) : ringComputer × Bool :=
  match rc.unorganized.indexOf? cand with
  | some i =>
    let last := rc.unorganized.getD (rc.unorganized.length - 1) 0
    let moved := rc.unorganized.set i last
    ({ rc with unorganized := moved.take (rc.unorganized.length - 1) }, true)
  | none => (rc, false)

/-- The statement `rc.rings[ringN] = append(rc.rings[ringN], cand)`. -/
def ringComputer.appendToRing (rc : ringComputer) (ringN : Nat) (cand : Nat) :
    Except Fault ringComputer :=
  if ringN < rc.rings.length then
    .ok { rc with rings := rc.rings.set ringN (rc.rings.getD ringN [] ++ [cand]) }
  else .error .indexOutOfRange

def ringComputer.addToRingReverse (heap : List candidate) (ringN : Nat) :
    Nat → Nat → ringComputer → Except Fault ringComputer
  | 0, _, _ => .error .outOfFuel
  | fuel + 1, cand, rc =>
    (getC heap cand).votedForMe.foldlM (fun rc c =>
      match rc.removeFromUnorganized c with
      | (rc1, true) => do
        let rc2 ← rc1.appendToRing ringN c
        ringComputer.addToRingReverse heap ringN fuel c rc2
      | (rc1, false) => .ok rc1) rc

def ringComputer.addToRingForward (heap : List candidate) (ringN : Nat) :
    Nat → Option Nat → ringComputer → Except Fault ringComputer
  | _, none, rc => .ok rc
  | 0, some _, _ => .error .outOfFuel
  | fuel + 1, some cand, rc =>
    match rc.removeFromUnorganized cand with
    | (rc1, false) => .ok rc1
    | (rc1, true) => do
      let rc2 ← rc1.addToRingReverse heap ringN (fuel + 1) cand
      let rc3 ← rc2.appendToRing ringN cand
      ringComputer.addToRingForward heap ringN fuel (getC heap cand).voteFor rc3

/-- The loop `for len(rc.unorganized) > 0` of `computeRingMembers`. -/
def computeRingMembers.loop (heap : List candidate) : Nat → ringComputer → Except Fault ringComputer
  | fuel, rc =>
    match rc.unorganized with
    | [] => .ok rc
    | c :: _ =>
      match fuel with
      | 0 => .error .outOfFuel
      | fuel + 1 => do
        let n := rc.rings.length
        let rc1 := { rc with rings := rc.rings ++ [[]] }
        let rc2 ← rc1.addToRingForward heap n (rc1.unorganized.length + 1) (some c)
        computeRingMembers.loop heap fuel rc2

def computeRingMembers (heap : List candidate) (ring : List Nat) : Except Fault (List (List Nat)) := do
  let rc ← computeRingMembers.loop heap (ring.length + 1) { rings := [], unorganized := ring }
  pure rc.rings

/-! ## Top tier and best of ring -/

/-- The loop `for nextC != nil && nextC.totalIndirectVotes == score` of `getBestCandidates`. -/
def getBestCandidates.loop (cand : List candidate) (score : Nat) :
    Nat → Option Nat → List Nat → Except Fault (List Nat)
  | _, none, bestRing => .ok bestRing
  | 0, some _, _ => .error .outOfFuel
  | fuel + 1, some nextC, bestRing =>
    if (getC cand nextC).totalIndirectVotes = score then
      getBestCandidates.loop cand score fuel (getC cand nextC).nextByTotalIndirectVotes
        (bestRing ++ [nextC])
    else .ok bestRing

def getBestCandidates (cand : List candidate) (best : Option Nat) :
    Except Fault (List Nat × Nat) :=
  match best with
  | none => .error .nilDereference
  | some b => do
    let score := (getC cand b).totalIndirectVotes
    let bestRing ← getBestCandidates.loop cand score (cand.length + 1) (some b) []
    let members ← computeRingMembers cand bestRing
    pure (bestRing, members.length)

/-- The score that `bestOfRing` gives to `c`: its own votes plus the totals of the voters
that are not in `ring`. -/
def bestOfRing.score (cand : List candidate) (ring : List Nat) (c : Nat) : Nat :=
  (getC cand c).votedForMe.foldl (fun score vfm =>
    if !ring.contains vfm then (score + (getC cand vfm).totalIndirectVotes) % u64 else score)
    (getC cand c).vote.NumberOfVotes

/-- The second loop of `bestOfRing`, over the pairs (candidate, score). -/
def bestOfRing.select (scores : List (Nat × Nat)) : List Nat :=
  (scores.foldl (fun (st : Nat × List Nat) cs =>
    if cs.2 ≥ st.1 then
      let st1 := if cs.2 > st.1 then (cs.2, []) else st
      (st1.1, st1.2 ++ [cs.1])
    else st) (0, [])).2

def bestOfRing (cand : List candidate) (ring : List Nat) : List Nat :=
  bestOfRing.select (ring.map (fun c => (c, bestOfRing.score cand ring c)))

/-! ## Patron promotion -/

/-- The loop of `getRunnerUp`. -/
def getRunnerUp.loop (cand : List candidate) (excludeRing : List Nat) :
    Nat → Option Nat → Except Fault (Option Nat)
  | _, none => .ok none
  | 0, some _ => .error .outOfFuel
  | fuel + 1, some ru =>
    if !excludeRing.contains ru then .ok (some ru)
    else getRunnerUp.loop cand excludeRing fuel (getC cand ru).nextByTotalIndirectVotes

def getRunnerUp (cand : List candidate) (tenativeWinner : Nat) (excludeRing : List Nat) :
    Except Fault (Option Nat) :=
  getRunnerUp.loop cand excludeRing (cand.length + 1)
    (getC cand tenativeWinner).nextByTotalIndirectVotes

def getPotentialPatron (cand : List candidate) (current : Nat) (excludeRing : List Nat) :
    Option Nat :=
  ((getC cand current).votedForMe.foldl (fun (st : Nat × Option Nat) vfm =>
    if excludeRing.contains vfm then st
    else if (getC cand vfm).totalIndirectVotes > st.1 then
      ((getC cand vfm).totalIndirectVotes, some vfm)
    else st) (0, none)).2

def isValidPatron (cand : List candidate) (tenativeWinner : Nat) (patron : Nat)
    (runnerUp : Option Nat) : Bool :=
  let markToBeat := (getC cand tenativeWinner).totalIndirectVotes / 2
  if !(getC cand patron).willingCandidate then false
  else if (getC cand patron).totalIndirectVotes ≤ markToBeat then false
  else
    match runnerUp with
    | some ru =>
      if (getC cand patron).totalIndirectVotes ≤ (getC cand ru).totalIndirectVotes then false
      else true
    | none => true

/-- The statement `if runnerUp == potentialPatron { runnerUp = runnerUp.next }` of
`getPatron`; `potentialPatron` is not nil there. -/
def getPatron.advance (cand : List candidate) (runnerUp : Option Nat) (potentialPatron : Nat) :
    Option Nat :=
  match runnerUp with
  | some ru => if ru = potentialPatron then (getC cand ru).nextByTotalIndirectVotes else some ru
  | none => none

/-- The loop `for { ... }` of `getPatron`. -/
def getPatron.loop (cand : List candidate) (tenativeWinner : Nat) (excludeRing : List Nat) :
    Nat → Option Nat → Nat → Option Nat → Except Fault (Option Nat)
  | 0, _, _, _ => .error .outOfFuel
  | fuel + 1, runnerUp, potentialPatron, patron =>
    let runnerUp1 := getPatron.advance cand runnerUp potentialPatron
    if !isValidPatron cand tenativeWinner potentialPatron runnerUp1 then .ok patron
    else
      match getPotentialPatron cand potentialPatron excludeRing with
      | none => .ok (some potentialPatron)
      | some next => getPatron.loop cand tenativeWinner excludeRing fuel runnerUp1 next
          (some potentialPatron)

def getPatron (cand : List candidate) (tenativeWinner : Nat) (excludeRing : List Nat) :
    Except Fault (Option Nat) := do
  let runnerUp ← getRunnerUp cand tenativeWinner excludeRing
  match getPotentialPatron cand tenativeWinner excludeRing with
  | none => pure none
  | some potentialPatron =>
    getPatron.loop cand tenativeWinner excludeRing cand.length runnerUp potentialPatron none

def solveWinner (cand : List candidate) (tenativeWinners : List Nat) (bestRing : List Nat) :
    Except Fault (List Nat) :=
  match tenativeWinners with
  | [w] => do
    let patron ← getPatron cand w bestRing
    match patron with
    | none => pure [w]
    | some p => pure [p]
  | _ => pure tenativeWinners

/-! ## Tie break -/

/-- The eight bytes written by `binary.LittleEndian.PutUint64`. -/
def putUint64 (v : Nat) : List Nat :=
  (List.range 8).map (fun i => v / 256 ^ i % 256)

def tieBreakerHash (hash : List Nat → List Nat) (cand : List candidate) (c : Nat) : List Nat :=
  hash ((getC cand c).vote.VoterId ++ putUint64 (getC cand c).totalIndirectVotes)

/-- The lexicographic three-way comparison `slices.Compare` on byte slices. -/
def slicesCompare : List Nat → List Nat → Int
  | [], [] => 0
  | [], _ :: _ => -1
  | _ :: _, [] => 1
  | a :: as, b :: bs => if a < b then -1 else if b < a then 1 else slicesCompare as bs

def tieBreaker (S : SortSlice) (hash : List Nat → List Nat) (cand : List candidate)
    (winners : List Nat) : Except Fault (Option Nat) :=
  match winners with
  | [] => .ok none
  | [w] => .ok (some w)
  | _ =>
    let hashes := winners.map (fun c => (tieBreakerHash hash cand c, c))
    let sorted := S.run (fun a b => decide (slicesCompare a.1 b.1 < 0)) hashes
    match sorted with
    | hc :: _ => .ok (some hc.2)
    | [] => .error .indexOutOfRange

/-! ## The vote counter -/

structure VoteCounter where
  cand : List candidate
  totalWillingCandidates : Nat
  best : Option Nat
deriving Repr, DecidableEq

def MkVoteCounter (S : SortSlice) (votes : List Vote) : Except Fault VoteCounter := do
  let (cand, totalWillingCandidates) := mkCandidates votes
  let cand1 ← computeDelegatedVotes cand
  let (cand2, best) ← orderByTotalIndirect S cand1 totalWillingCandidates
  pure { cand := cand2, totalWillingCandidates := totalWillingCandidates, best := best }

def VoteCounter.FindWinner (S : SortSlice) (hash : List Nat → List Nat) (vc : VoteCounter) :
    Except Fault (Option Vote) :=
  match vc.best with
  | none => .ok none
  | some best => do
    let (bestRing, ringCount) ← getBestCandidates vc.cand (some best)
    let tenativeWinners := bestOfRing vc.cand bestRing
    let tenativeWinners1 ←
      if ringCount < 2 then solveWinner vc.cand tenativeWinners bestRing
      else pure tenativeWinners
    let winner ← tieBreaker S hash vc.cand tenativeWinners1
    match winner with
    | none => pure none
    | some w => pure (some (getC vc.cand w).vote)

/-- The election: build the counter and ask it for the winner. -/
def election (S : SortSlice) (hash : List Nat → List Nat) (votes : List Vote) :
    Except Fault (Option Vote) := do
  let vc ← MkVoteCounter S votes
  vc.FindWinner S hash

/-! ## The engine over a memory of slices

`FindWinner` and the functions it calls write to slices of candidate pointers
(`bestRing`, `rc.unorganized`, `rc.rings[ringN]`, `out`). To follow these writes the
candidates are laid out in a memory: a `[]*candidate` is a slice header (backing array,
length, capacity), the backing arrays are in a store, and `append`, an indexed store and
a reslice act on the store as in Go. Slices of other element types (`scores`, `hashes`,
`rc.rings` itself) cannot share a backing array with a `[]*candidate` and stay values. -/

/-- The header of a slice of candidate pointers. -/
structure Slice where
  arr : Nat
  len : Nat
  cap : Nat
deriving DecidableEq, Repr, Inhabited

/-- The nil slice, also the value of `make([]*candidate, 0)`: no backing array. -/
def Slice.empty : Slice := { arr := 0, len := 0, cap := 0 }

/-- The struct `candidate` in memory: `votedForMe` is a slice header. -/
structure candidateM where
  vote : Vote
  voteFor : Option Nat
  totalIndirectVotes : Nat
  votedForMe : Slice
  willingCandidate : Bool
  nextByTotalIndirectVotes : Option Nat
deriving DecidableEq, Repr, Inhabited

/-- The memory: the struct `VoteCounter` with its candidate arena, and the store of the
backing arrays of the slices of candidate pointers. An allocation adds an array at the
end of the store. -/
structure Mem where
  cand : List candidateM
  totalWillingCandidates : Nat
  best : Option Nat
  arrays : List (List Nat)
deriving DecidableEq, Repr

/-- The backing array with the identifier `a`. -/
def Mem.array (m : Mem) (a : Nat) : List Nat := m.arrays.getD a []

/-- The elements `s[0], ..., s[len(s) - 1]`. -/
def Mem.elems (m : Mem) (s : Slice) : List Nat := (m.array s.arr).take s.len

/-- The read `s[i]`. -/
def Mem.index (m : Mem) (s : Slice) (i : Nat) : Except Fault Nat :=
  if i < s.len then .ok ((m.array s.arr).getD i 0) else .error .indexOutOfRange

/-- The write `s[i] = v`. -/
def Mem.store (m : Mem) (s : Slice) (i : Nat) (v : Nat) : Except Fault Mem :=
  if i < s.len then .ok { m with arrays := m.arrays.set s.arr ((m.array s.arr).set i v) }
  else .error .indexOutOfRange

/-- The call `append(s, vs...)`: within the capacity the values are written behind the
elements of `s` in its backing array; otherwise a new array is allocated, with the
elements of `s`, the values, and `grow n` spare slots for the new length `n` (the growth
policy of the runtime). -/
def Mem.appendAll (grow : Nat → Nat) (m : Mem) (s : Slice) (vs : List Nat) : Slice × Mem :=
  let n := s.len + vs.length
  if n ≤ s.cap then
    let written := (m.array s.arr).take s.len ++ vs ++ (m.array s.arr).drop n
    ({ s with len := n }, { m with arrays := m.arrays.set s.arr written })
  else
    let fresh := m.elems s ++ vs ++ List.replicate (grow n) 0
    ({ arr := m.arrays.length, len := n, cap := n + grow n },
      { m with arrays := m.arrays ++ [fresh] })

/-- The call `append(s, v)`. -/
def Mem.append (grow : Nat → Nat) (m : Mem) (s : Slice) (v : Nat) : Slice × Mem :=
  m.appendAll grow s [v]

/-- The candidate at index `p` of the arena. -/
def Mem.getM (m : Mem) (p : Nat) : candidateM := m.cand.getD p default

/-- The candidate `c` of the memory as a value: its `votedForMe` read out of the store. -/
def Mem.value (m : Mem) (c : candidateM) : candidate :=
  { vote := c.vote, voteFor := c.voteFor, totalIndirectVotes := c.totalIndirectVotes,
    votedForMe := m.elems c.votedForMe, willingCandidate := c.willingCandidate,
    nextByTotalIndirectVotes := c.nextByTotalIndirectVotes }

/-- The candidates of the memory as values. -/
def Mem.heap (m : Mem) : List candidate := m.cand.map m.value

/-- The counter of the memory as a value. -/
def Mem.counter (m : Mem) : VoteCounter :=
  { cand := m.heap, totalWillingCandidates := m.totalWillingCandidates, best := m.best }

/-- A memory that holds the counter `vc`: the `votedForMe` of the candidate at index `i`
has the backing array `i`, filled to its capacity. -/
def Mem.load (vc : VoteCounter) : Mem :=
  { cand := (List.range vc.cand.length).map (fun i =>
      { vote := (getC vc.cand i).vote, voteFor := (getC vc.cand i).voteFor,
        totalIndirectVotes := (getC vc.cand i).totalIndirectVotes,
        votedForMe :=
          { arr := i, len := (getC vc.cand i).votedForMe.length,
            cap := (getC vc.cand i).votedForMe.length },
        willingCandidate := (getC vc.cand i).willingCandidate,
        nextByTotalIndirectVotes := (getC vc.cand i).nextByTotalIndirectVotes }),
    totalWillingCandidates := vc.totalWillingCandidates,
    best := vc.best,
    arrays := vc.cand.map (fun c => c.votedForMe) }

/-- The slice `s` lies in the memory, in an array allocated at `b` or later: it has no
capacity, or its backing array is allocated and holds its capacity. -/
def Mem.Holds (m : Mem) (b : Nat) (s : Slice) : Prop :=
  s.len ≤ s.cap ∧
    (s.cap = 0 ∨ (b ≤ s.arr ∧ s.arr < m.arrays.length ∧ s.cap ≤ (m.array s.arr).length))

/-- Every `votedForMe` of the arena lies in the memory. -/
def Mem.WellFormed (m : Mem) : Prop := ∀ c ∈ m.cand, m.Holds 0 c.votedForMe

/-- The memory `m1` keeps what `m` holds below `b`: the counter and the arena are the
same, the arrays allocated before `b` are unchanged, and no array is freed or shortened. -/
structure Mem.Keeps (b : Nat) (m m1 : Mem) : Prop where
  cand : m1.cand = m.cand
  tw : m1.totalWillingCandidates = m.totalWillingCandidates
  best : m1.best = m.best
  size : m.arrays.length ≤ m1.arrays.length
  grows : ∀ a, (m.array a).length ≤ (m1.array a).length
  old : ∀ a, a < b → m1.array a = m.array a

/-- Two slices that do not share a backing array. -/
def Slice.Apart (s t : Slice) : Prop := s.cap = 0 ∨ t.cap = 0 ∨ s.arr ≠ t.arr

/-- The loop of `getBestCandidates`, appending to `bestRing` in memory. -/
def getBestCandidatesM.loop (grow : Nat → Nat) (score : Nat) :
    Nat → Option Nat → Slice → Mem → Except Fault (Slice × Mem)
  | _, none, bestRing, m => .ok (bestRing, m)
  | 0, some _, _, _ => .error .outOfFuel
  | fuel + 1, some nextC, bestRing, m =>
    if (m.getM nextC).totalIndirectVotes = score then
      let r := m.append grow bestRing nextC
      getBestCandidatesM.loop grow score fuel (r.2.getM nextC).nextByTotalIndirectVotes r.1 r.2
    else .ok (bestRing, m)

/-- The struct `ringComputer` in memory: `rings` holds the headers of the rings. -/
structure ringComputerM where
  rings : List Slice
  unorganized : Slice
deriving Repr, DecidableEq

/-- The ring computer `rc` in the memory `m` stands for the ring computer `val` of the
value model: same pool, as many rings, each ring in an array allocated at `b` or later
that it does not share with the pool. -/
structure ringComputerM.Models (b : Nat) (m : Mem) (rc : ringComputerM) (val : ringComputer) :
    Prop where
  pool : m.Holds b rc.unorganized
  elems : m.elems rc.unorganized = val.unorganized
  count : rc.rings.length = val.rings.length
  rings : ∀ R ∈ rc.rings, m.Holds b R ∧ R.Apart rc.unorganized

/-- The method `removeFromUnorganized`: the loop reads `rc.unorganized` up to the first
element equal to `cand`, without a write; the element found is overwritten by the last
one and `rc.unorganized` is resliced to one element less. -/
def ringComputerM.removeFromUnorganized (rc : ringComputerM) (cand : Nat) (m : Mem) :
    Except Fault (ringComputerM × Bool × Mem) :=
  match (m.elems rc.unorganized).indexOf? cand with
  | some i => do
    let last ← m.index rc.unorganized (rc.unorganized.len - 1)
    let m1 ← m.store rc.unorganized i last
    pure ({ rc with unorganized := { rc.unorganized with len := rc.unorganized.len - 1 } },
      true, m1)
  | none => pure (rc, false, m)

/-- The statement `rc.rings[ringN] = append(rc.rings[ringN], cand)`. -/
def ringComputerM.appendToRing (grow : Nat → Nat) (rc : ringComputerM) (ringN : Nat)
    (cand : Nat) (m : Mem) : Except Fault (ringComputerM × Mem) :=
  if ringN < rc.rings.length then
    let r := m.append grow (rc.rings.getD ringN Slice.empty) cand
    .ok ({ rc with rings := rc.rings.set ringN r.1 }, r.2)
  else .error .indexOutOfRange

/-- The method `addToRingReverse`: the header of `cand.votedForMe` is read once, its
elements are read from the memory as the loop goes. -/
def ringComputerM.addToRingReverse (grow : Nat → Nat) (ringN : Nat) :
    Nat → Nat → ringComputerM → Mem → Except Fault (ringComputerM × Mem)
  | 0, _, _, _ => .error .outOfFuel
  | fuel + 1, cand, rc, m =>
    (List.range (m.getM cand).votedForMe.len).foldlM (fun (st : ringComputerM × Mem) i => do
      let c ← st.2.index (m.getM cand).votedForMe i
      let r ← st.1.removeFromUnorganized c st.2
      if r.2.1 then do
        let r2 ← r.1.appendToRing grow ringN c r.2.2
        ringComputerM.addToRingReverse grow ringN fuel c r2.1 r2.2
      else pure (r.1, r.2.2)) (rc, m)

/-- The method `addToRingForward`. -/
def ringComputerM.addToRingForward (grow : Nat → Nat) (ringN : Nat) :
    Nat → Option Nat → ringComputerM → Mem → Except Fault (ringComputerM × Mem)
  | _, none, rc, m => .ok (rc, m)
  | 0, some _, _, _ => .error .outOfFuel
  | fuel + 1, some cand, rc, m => do
    let r ← rc.removeFromUnorganized cand m
    if r.2.1 then do
      let r2 ← ringComputerM.addToRingReverse grow ringN (fuel + 1) cand r.1 r.2.2
      let r3 ← r2.1.appendToRing grow ringN cand r2.2
      ringComputerM.addToRingForward grow ringN fuel (r3.2.getM cand).voteFor r3.1 r3.2
    else pure (r.1, r.2.2)

/-- The loop of `computeRingMembers`. -/
def computeRingMembersM.loop (grow : Nat → Nat) :
    Nat → ringComputerM → Mem → Except Fault (ringComputerM × Mem)
  | fuel, rc, m =>
    if rc.unorganized.len = 0 then .ok (rc, m)
    else
      match fuel with
      | 0 => .error .outOfFuel
      | fuel + 1 => do
        let n := rc.rings.length
        let rc1 := { rc with rings := rc.rings ++ [Slice.empty] }
        let c ← m.index rc1.unorganized 0
        let r ← ringComputerM.addToRingForward grow n (rc1.unorganized.len + 1) (some c) rc1 m
        computeRingMembersM.loop grow fuel r.1 r.2

/-- The function `computeRingMembers`: `rc.unorganized` is a copy of `ring`, made by
`append` to the nil slice. -/
def computeRingMembersM (grow : Nat → Nat) (m : Mem) (ring : Slice) :
    Except Fault (List Slice × Mem) := do
  let r := m.appendAll grow Slice.empty (m.elems ring)
  let out ← computeRingMembersM.loop grow (ring.len + 1)
    { rings := [], unorganized := r.1 } r.2
  pure (out.1.rings, out.2)

def getBestCandidatesM (grow : Nat → Nat) (m : Mem) (best : Option Nat) :
    Except Fault (Slice × Nat × Mem) :=
  match best with
  | none => .error .nilDereference
  | some b => do
    let score := (m.getM b).totalIndirectVotes
    let r ← getBestCandidatesM.loop grow score (m.cand.length + 1) (some b) Slice.empty m
    let members ← computeRingMembersM grow r.2 r.1
    pure (r.1, members.1.length, members.2)

/-- The function `bestOfRing`: the first loop only reads; the second appends to `out`
and reslices it with `out[:0]`. -/
def bestOfRingM (grow : Nat → Nat) (m : Mem) (ring : Slice) : Slice × Mem :=
  let scores := (m.elems ring).map (fun c => (c, bestOfRing.score m.heap (m.elems ring) c))
  let st := scores.foldl (fun (st : Nat × Slice × Mem) cs =>
    if cs.2 ≥ st.1 then
      let st1 : Nat × Slice := if cs.2 > st.1 then (cs.2, { st.2.1 with len := 0 })
        else (st.1, st.2.1)
      let r := st.2.2.append grow st1.2 cs.1
      (st1.1, r.1, r.2)
    else st) (0, Slice.empty, m)
  (st.2.1, st.2.2)

/-- The function `solveWinner`; the literal `[]*candidate{patron}` is a new array of
one element. -/
def solveWinnerM (m : Mem) (tenativeWinners : Slice) (bestRing : Slice) :
    Except Fault (Slice × Mem) :=
  if tenativeWinners.len ≠ 1 then .ok (tenativeWinners, m)
  else do
    let w ← m.index tenativeWinners 0
    let patron ← getPatron m.heap w (m.elems bestRing)
    let p := match patron with
      | none => w
      | some p => p
    pure ({ arr := m.arrays.length, len := 1, cap := 1 },
      { m with arrays := m.arrays ++ [[p]] })

/-- The method `FindWinner` on the memory: the result and the memory after the call. -/
def FindWinnerM (grow : Nat → Nat) (S : SortSlice) (hash : List Nat → List Nat) (m : Mem) :
    Except Fault (Option Vote × Mem) :=
  match m.best with
  | none => .ok (none, m)
  | some best => do
    let r ← getBestCandidatesM grow m (some best)
    let tw := bestOfRingM grow r.2.2 r.1
    let tw1 ←
      if r.2.1 < 2 then solveWinnerM tw.2 tw.1 r.1
      else pure tw
    let winner ← tieBreaker S hash tw1.2.heap (tw1.2.elems tw1.1)
    match winner with
    | none => pure (none, tw1.2)
    | some w => pure (some (tw1.2.getM w).vote, tw1.2)

/-! ## A concrete `sort.Slice` and test data -/

/-- Insertion of `a` before the first element that it is less than. -/
def insertSorted {α : Type} (less : α → α → Bool) (a : α) : List α → List α
  | [] => [a]
  | b :: bs => if less a b then a :: b :: bs else b :: insertSorted less a bs

/-- Insertion sort. -/
def insertionSort {α : Type} (less : α → α → Bool) : List α → List α
  | [] => []
  | a :: as => insertSorted less a (insertionSort less as)

/-- Insertion sort as an implementation of `sort.Slice`. -/
def insertionSortSlice : SortSlice where
  run := fun less xs => insertionSort less xs
  perm := by
    intro α less xs
    have hins : ∀ (a : α) (l : List α), (insertSorted less a l).Perm (a :: l) := by
      intro a l
      induction l with
      | nil => exact List.Perm.refl _
      | cons b bs ih =>
        unfold insertSorted
        split
        · exact List.Perm.refl _
        · exact (List.Perm.cons b ih).trans (List.Perm.swap a b bs)
    induction xs with
    | nil => exact List.Perm.refl _
    | cons a as ih =>
      unfold insertionSort
      exact (hins a _).trans (List.Perm.cons a ih)
  sorted := by
    intro α less xs hw
    have hins : ∀ (a : α) (l : List α), (insertSorted less a l).Perm (a :: l) := by
      intro a l
      induction l with
      | nil => exact List.Perm.refl _
      | cons b bs ih =>
        unfold insertSorted
        split
        · exact List.Perm.refl _
        · exact (List.Perm.cons b ih).trans (List.Perm.swap a b bs)
    have hsorted : ∀ (a : α) (l : List α), l.Pairwise (fun x y => less y x = false) →
        (insertSorted less a l).Pairwise (fun x y => less y x = false) := by
      intro a l hl
      induction l with
      | nil => simp [insertSorted]
      | cons b bs ih =>
        rw [List.pairwise_cons] at hl
        unfold insertSorted
        split
        · rename_i hab
          refine List.Pairwise.cons ?_ (List.Pairwise.cons hl.1 hl.2)
          intro x hx
          rcases List.mem_cons.1 hx with rfl | hx
          · cases hxa : less x a with
            | false => rfl
            | true => have := hw.trans _ _ _ hab hxa; rw [hw.irrefl] at this; cases this
          · cases hxa : less x a with
            | false => rfl
            | true => have := hw.trans _ _ _ hxa hab; rw [hl.1 x hx] at this; cases this
        · rename_i hab
          refine List.Pairwise.cons ?_ (ih hl.2)
          intro x hx
          rcases List.mem_cons.1 ((hins a bs).subset hx) with rfl | hx
          · simpa using hab
          · exact hl.1 x hx
    induction xs with
    | nil => simp [insertionSort]
    | cons a as ih =>
      unfold insertionSort
      exact hsorted a _ ih

/-! ## Specification-side definitions -/

/-- The candidate record that `mkCandidates` appends for the vote `v` in the pass `willing`. -/
def mkCand (willing : Bool) (v : Vote) : candidate :=
  { vote := v, voteFor := none, totalIndirectVotes := v.NumberOfVotes, votedForMe := [],
    willingCandidate := willing, nextByTotalIndirectVotes := none }

/-- The votes that one pass admits, given the identities `seen` so far. -/
def admitted (willing : Bool) : List (List Nat) → List Vote → List Vote
  | _, [] => []
  | seen, v :: vs =>
    if v.WillingCandidate = willing ∧ v.VoterId ∉ seen then
      v :: admitted willing (v.VoterId :: seen) vs
    else admitted willing seen vs

/-- The map entries written for the admitted votes `vs`, the first at index `n`. -/
def entries : Nat → List Vote → List (List Nat × Nat)
  | _, [] => []
  | n, v :: vs => (v.VoterId, n) :: entries (n + 1) vs

/-- The votes that become candidates, in candidate order: the willing pass, then the
unwilling pass. -/
def admittedVotes (votes : List Vote) : List Vote :=
  admitted true [] votes ++
    admitted false ((admitted true [] votes).map (fun v => v.VoterId)).reverse votes

/-- The relation "`c` is reached from `d` by following zero or more delegation edges" for
the edge function `e`. -/
def Reach (e : Nat → Option Nat) (d c : Nat) : Prop :=
  Relation.ReflTransGen (fun x y => e x = some y) d c

/-- The resolved delegation edge `voteFor` of the arena `H`, as a function of the index. -/
def edge (H : List candidate) (a : Nat) : Option Nat := (getC H a).voteFor

/-- The own weight `vote.NumberOfVotes` of the candidate at index `a`. -/
def own (H : List candidate) (a : Nat) : Nat := (getC H a).vote.NumberOfVotes

/-- The list `l` is what following `nextByTotalIndirectVotes` from `p` until `nil` visits. -/
def ChainFrom (H : List candidate) : Option Nat → List Nat → Prop
  | p, [] => p = none
  | p, a :: l => p = some a ∧ ChainFrom H (getC H a).nextByTotalIndirectVotes l

/-- The total `totalIndirectVotes` of the candidate at index `a`. -/
def total (H : List candidate) (a : Nat) : Nat := (getC H a).totalIndirectVotes

open Classical in
/-- What `MkVoteCounter` establishes for the counter `vc` built from `votes`. -/
structure Counted (votes : List Vote) (vc : VoteCounter) : Prop where
  len : vc.cand.length = (admittedVotes votes).length
  tw : vc.totalWillingCandidates = (admitted true [] votes).length
  vote : ∀ i, i < vc.cand.length → (getC vc.cand i).vote = (admittedVotes votes).getD i default
  willing : ∀ i, (getC vc.cand i).willingCandidate = true ↔ i < vc.totalWillingCandidates
  edge_eq : ∀ a, edge vc.cand a = edge (mkCandidates votes).1 a
  vfm : ∀ c, (getC vc.cand c).votedForMe =
    (List.range vc.cand.length).filter (fun j => decide (edge vc.cand j = some c))
  chain : ∃ L, L.Perm (List.range vc.totalWillingCandidates) ∧ ChainFrom vc.cand vc.best L ∧
    L.Pairwise (fun a b => total vc.cand b ≤ total vc.cand a)
  total_eq : ∀ c, c < vc.cand.length → total vc.cand c =
    if (List.range vc.cand.length).filter
        (fun j => decide (c ≠ j ∧ Reach (edge vc.cand) j c)) = [] then own vc.cand c
    else (own vc.cand c + (((List.range vc.cand.length).filter
        (fun j => decide (c ≠ j ∧ Reach (edge vc.cand) j c))).map (own vc.cand)).sum) % u64

/-- The potential patrons `t` met so far by the climb of `getPatron`, latest first: each
delegates to the one met before it, and the first one met delegates to the tentative
winner `W`. -/
def Trail (e : Nat → Option Nat) (W : Nat) : List Nat → Prop
  | [] => True
  | p :: t => e p = some (t.headD W) ∧ Trail e W t

/-- The vote that the candidate for the identity `id` is derived from, by the two passes
of `mkCandidates`: the first willing vote that carries `id` if there is one, and otherwise
the first vote that carries `id`. -/
def firstFor (votes : List Vote) (id : List Nat) : Option Vote :=
  match votes.find? (fun v => decide (v.WillingCandidate = true) && decide (v.VoterId = id)) with
  | some v => some v
  | none => votes.find? (fun v => decide (v.VoterId = id))

/-- The candidates that the loop of `getPatron` examines as `potentialPatron`, in order:
the loop `getPatron.loop`, collecting `potentialPatron` at each iteration. -/
def getPatron.visited (cand : List candidate) (tenativeWinner : Nat) (excludeRing : List Nat) :
    Nat → Option Nat → Nat → List Nat
  | 0, _, _ => []
  | fuel + 1, runnerUp, potentialPatron =>
    let runnerUp1 := getPatron.advance cand runnerUp potentialPatron
    potentialPatron ::
      (if !isValidPatron cand tenativeWinner potentialPatron runnerUp1 then []
      else
        match getPotentialPatron cand potentialPatron excludeRing with
        | none => []
        | some next => getPatron.visited cand tenativeWinner excludeRing fuel runnerUp1 next)

/-! ## Test data -/

/-- A stand-in for the hash, to evaluate the engine on test data: the identity. -/
def idHash : List Nat → List Nat := fun b => b

/-- A hash that keeps the first byte of its input: not injective, and free of collisions
on keys that differ in their first byte. -/
def firstByteHash : List Nat → List Nat := fun b => b.take 1

/-- The voter "Alice" of `TestSimple`. -/
def voteAlice : Vote :=
  { VoterId := [65, 108, 105, 99, 101], VoteFor := [66, 111, 98], NumberOfVotes := 1,
    WillingCandidate := false }

/-- The voter "Bob" of `TestSimple`. -/
def voteBob : Vote :=
  { VoterId := [66, 111, 98], VoteFor := [], NumberOfVotes := 0, WillingCandidate := true }

/-- Two votes with the same `VoterId`, the unwilling one first. -/
def votesDuplicate : List Vote :=
  [{ VoterId := [65], VoteFor := [], NumberOfVotes := 1, WillingCandidate := false },
   { VoterId := [65], VoteFor := [], NumberOfVotes := 2, WillingCandidate := true }]

/-- Two willing voters whose weights add up to 2^64: A (weight 2^64 - 1) votes for B
(weight 1). -/
def votesOverflow : List Vote :=
  [{ VoterId := [65], VoteFor := [66], NumberOfVotes := 18446744073709551615,
     WillingCandidate := true },
   { VoterId := [66], VoteFor := [], NumberOfVotes := 1, WillingCandidate := true }]

/-- Scenario S3 of the specification: A (unwilling, 1) votes for B, B (willing, 5) votes
for C, C (willing, 1) votes for no one. -/
def votesPatron : List Vote :=
  [{ VoterId := [65], VoteFor := [66], NumberOfVotes := 1, WillingCandidate := false },
   { VoterId := [66], VoteFor := [67], NumberOfVotes := 5, WillingCandidate := true },
   { VoterId := [67], VoteFor := [], NumberOfVotes := 1, WillingCandidate := true }]

/-- Scenario S2 of the specification: A and B, both willing with weight 10, vote for each
other. -/
def votesTie : List Vote :=
  [{ VoterId := [65], VoteFor := [66], NumberOfVotes := 10, WillingCandidate := true },
   { VoterId := [66], VoteFor := [65], NumberOfVotes := 10, WillingCandidate := true }]

/-- The index in `B` of the element that `A` holds at index `i`: the renumbering of the
candidates when the input is permuted. -/
def renumber (A B : List Vote) (i : Nat) : Nat := B.indexOf (A.getD i default)

/-- The counter `vc1` is the counter `vc` with its candidates renumbered by `σ` (with
inverse `τ`): same votes, same delegation edges. -/
structure Iso (vc vc1 : VoteCounter) (σ τ : Nat → Nat) : Prop where
  len : vc1.cand.length = vc.cand.length
  tw : vc1.totalWillingCandidates = vc.totalWillingCandidates
  σ_lt : ∀ i, i < vc.cand.length → σ i < vc.cand.length
  τ_lt : ∀ j, j < vc.cand.length → τ j < vc.cand.length
  τσ : ∀ i, i < vc.cand.length → τ (σ i) = i
  στ : ∀ j, j < vc.cand.length → σ (τ j) = j
  vote_eq : ∀ i, i < vc.cand.length → (getC vc1.cand (σ i)).vote = (getC vc.cand i).vote
  edge_map : ∀ i, i < vc.cand.length → edge vc1.cand (σ i) = (edge vc.cand i).map σ

/-- The top tier `T` of the counter `vc` (the willing candidates with the highest total,
in chain order) and the rest `E` of the descending chain. -/
structure TopTier (vc : VoteCounter) (T E : List Nat) : Prop where
  ne : T ≠ []
  nodupT : T.Nodup
  memT : ∀ x, x ∈ T ↔ x < vc.totalWillingCandidates ∧
    ∀ y, y < vc.totalWillingCandidates → total vc.cand y ≤ total vc.cand x
  nodupE : E.Nodup
  memE : ∀ x, x ∈ E ↔ x < vc.totalWillingCandidates ∧ x ∉ T
  sortedE : E.Pairwise (fun a b => total vc.cand b ≤ total vc.cand a)
  chainE : ChainFrom vc.cand E.head? E
  runnerUp : ∀ W, W ∈ T → getRunnerUp vc.cand W T = .ok E.head?

/-- The potential patron `pp` is valid, said without the runner-up pointer: it is willing,
beats the mark, and beats every willing candidate outside the top tier `T` other than
itself and the patrons `trail` promoted before it. -/
def PatronOK (H : List candidate) (tw : Nat) (T trail : List Nat) (W pp : Nat) : Prop :=
  (getC H pp).willingCandidate = true ∧ total H W / 2 < total H pp ∧
  ∀ x, x < tw → x ∉ T → x ∉ trail → x ≠ pp → total H x < total H pp

/-- The runner-up pointer `ru` of the climb of `getPatron` heads the descending chain `E`
of the willing candidates that are neither in the top tier `T` nor in `trail`. -/
structure RunnerInv (vc : VoteCounter) (T trail : List Nat) (ru : Option Nat) (E : List Nat) :
    Prop where
  chain : ChainFrom vc.cand ru E
  sorted : E.Pairwise (fun a b => total vc.cand b ≤ total vc.cand a)
  nodup : E.Nodup
  mem : ∀ x, x ∈ E ↔ x < vc.totalWillingCandidates ∧ x ∉ T ∧ x ∉ trail

/-- The climb of `getPatron` from the potential patron `pp`, said without the runner-up
pointer: `r` is the patron returned when the climb starts at `pp` with the patrons
`trail` promoted so far and the current patron `patron`. -/
inductive Climb (H : List candidate) (tw : Nat) (T : List Nat) (W : Nat) :
    List Nat → Nat → Option Nat → Option Nat → Prop
  | stop (trail : List Nat) (pp : Nat) (patron : Option Nat) :
      ¬ PatronOK H tw T trail W pp → Climb H tw T W trail pp patron patron
  | last (trail : List Nat) (pp : Nat) (patron : Option Nat) :
      PatronOK H tw T trail W pp → getPotentialPatron H pp T = none →
      Climb H tw T W trail pp patron (some pp)
  | next (trail : List Nat) (pp : Nat) (patron : Option Nat) (q : Nat) (r : Option Nat) :
      PatronOK H tw T trail W pp → getPotentialPatron H pp T = some q →
      Climb H tw T W (pp :: trail) q (some pp) r → Climb H tw T W trail pp patron r

/-- Two counters built from two vote lists, the second a renumbering of the first by `σ`,
with their top tiers. -/
structure TwoRuns (votes votes1 : List Vote) (vc vc1 : VoteCounter) (σ τ : Nat → Nat)
    (T E T1 E1 : List Nat) : Prop where
  hc : Counted votes vc
  hc1 : Counted votes1 vc1
  iso : Iso vc vc1 σ τ
  tt : TopTier vc T E
  tt1 : TopTier vc1 T1 E1

/-- Two members of `T` are adjacent when one delegates to the other. -/
def Adj (H : List candidate) (T : List Nat) (a b : Nat) : Prop :=
  a ∈ T ∧ b ∈ T ∧ (edge H a = some b ∨ edge H b = some a)

/-- Connected by an undirected path of delegation edges all of whose nodes are in `T`. -/
def ConnIn (H : List candidate) (T : List Nat) (a b : Nat) : Prop :=
  Relation.ReflTransGen (Adj H T) a b

/-- No voter of `x` and no delegate of `x` is left in the pool `U`. -/
def Sealed (H : List candidate) (U : List Nat) (x : Nat) : Prop :=
  (∀ v ∈ (getC H x).votedForMe, v ∉ U) ∧ (∀ y, edge H x = some y → y ∉ U)

/-- A willing voter A who votes for the unwilling voter B. -/
def votesWillingToUnwilling : List Vote :=
  [{ VoterId := [65], VoteFor := [66], NumberOfVotes := 1, WillingCandidate := true },
   { VoterId := [66], VoteFor := [], NumberOfVotes := 1, WillingCandidate := false }]

/-- Every vote names X, who is not willing; the voter A is willing. -/
def votesAllForUnwilling : List Vote :=
  [{ VoterId := [65], VoteFor := [88], NumberOfVotes := 1, WillingCandidate := true },
   { VoterId := [88], VoteFor := [88], NumberOfVotes := 1, WillingCandidate := false }]

/-- A top tier of two rings: X (willing, 1) stands alone with the tributary P (willing, 3),
and V and Y (both willing, 2) vote for each other. X, V and Y all total 4. -/
def votesTwoRings : List Vote :=
  [{ VoterId := [88], VoteFor := [], NumberOfVotes := 1, WillingCandidate := true },
   { VoterId := [80], VoteFor := [88], NumberOfVotes := 3, WillingCandidate := true },
   { VoterId := [86], VoteFor := [89], NumberOfVotes := 2, WillingCandidate := true },
   { VoterId := [89], VoteFor := [86], NumberOfVotes := 2, WillingCandidate := true }]

/-- The external score of `c` relative to `ring`, in the words of the specification: the
own votes of `c` plus the totals of the candidates in `votedForMe` of `c` that are not in
`ring`, in 64-bit arithmetic. -/
def externalScore (cand : List candidate) (ring : List Nat) (c : Nat) : Nat :=
  ((getC cand c).vote.NumberOfVotes +
    (((getC cand c).votedForMe.filter (fun v => decide (v ∉ ring))).map
      (fun v => (getC cand v).totalIndirectVotes)).sum) % u64

/-- The counter of `TestSimple` laid out in a memory: Bob, then Alice, and the backing
arrays of their `votedForMe`. -/
def memSimple : Mem :=
  { cand := [{ vote := voteBob, voteFor := none, totalIndirectVotes := 1,
               votedForMe := { arr := 0, len := 1, cap := 1 }, willingCandidate := true,
               nextByTotalIndirectVotes := none },
             { vote := voteAlice, voteFor := some 0, totalIndirectVotes := 1,
               votedForMe := { arr := 1, len := 0, cap := 0 }, willingCandidate := false,
               nextByTotalIndirectVotes := none }],
    totalWillingCandidates := 1, best := some 0, arrays := [[1], []] }

/-! # Verification -/

theorem lookup_isSome_iff (m : List (List Nat × Nat)) (k : List Nat) :
    (m.lookup k).isSome = true ↔ k ∈ m.map Prod.fst := by
  induction m with
  | nil => simp
  | cons e m ih =>
    obtain ⟨k', v⟩ := e
    simp only [List.lookup_cons, List.map_cons, List.mem_cons]
    by_cases h : k = k'
    · subst h; simp
    · have : (k == k') = false := by simpa using h
      simp [this, ih, h]

theorem pass_fold_eq (w : Bool) (votes : List Vote) (st : mkState) :
    votes.foldl (mkCandidates.admitVote w) st =
      { cands := st.cands ++ (admitted w (st.candidateIdxByName.map Prod.fst) votes).map (mkCand w)
        candidateIdxByName :=
          (entries st.cands.length
            (admitted w (st.candidateIdxByName.map Prod.fst) votes)).reverse ++
            st.candidateIdxByName
        totalWilling := st.totalWilling +
          (if w then (admitted w (st.candidateIdxByName.map Prod.fst) votes).length else 0) } := by
  induction votes generalizing st with
  | nil => simp [admitted, entries]
  | cons v vs ih =>
    rw [List.foldl_cons, ih]
    unfold mkCandidates.admitVote
    by_cases h1 : v.WillingCandidate = w
    · by_cases h2 : v.VoterId ∈ st.candidateIdxByName.map Prod.fst
      · have h3 := (lookup_isSome_iff _ _).2 h2
        simp [admitted, h1, h2, h3]
      · have h3 : (List.lookup v.VoterId st.candidateIdxByName).isSome = false := by
          rw [Bool.eq_false_iff]; intro h; exact h2 ((lookup_isSome_iff _ _).1 h)
        have h2' : ¬ ∃ x, (v.VoterId, x) ∈ st.candidateIdxByName := by
          intro ⟨x, hx⟩; exact h2 (List.mem_map.2 ⟨_, hx, rfl⟩)
        cases w <;> simp_all [admitted, entries, mkCand, Nat.add_assoc, Nat.add_comm]
    · have h1' : (v.WillingCandidate != w) = true := by simpa using h1
      simp [admitted, h1, h1']

theorem lookup_mem (m : List (List Nat × Nat)) (k : List Nat) (i : Nat)
    (h : m.lookup k = some i) : (k, i) ∈ m := by
  induction m with
  | nil => simp at h
  | cons e m ih =>
    obtain ⟨k', v⟩ := e
    rw [List.lookup_cons] at h
    by_cases hk : k = k'
    · subst hk; simp at h; simp [h]
    · have : (k == k') = false := by simpa using hk
      rw [this] at h
      exact List.mem_cons_of_mem _ (ih h)

theorem lookup_of_mem (m : List (List Nat × Nat)) (hm : (m.map Prod.fst).Nodup) (k : List Nat)
    (i : Nat) (h : (k, i) ∈ m) : m.lookup k = some i := by
  induction m with
  | nil => simp at h
  | cons e m ih =>
    obtain ⟨k', v⟩ := e
    rw [List.map_cons, List.nodup_cons] at hm
    rw [List.lookup_cons]
    rcases List.mem_cons.1 h with h1 | h1
    · cases h1; simp
    · have hk : k ≠ k' := by
        intro hk; subst hk; exact hm.1 (List.mem_map.2 ⟨_, h1, rfl⟩)
      have : (k == k') = false := by simpa using hk
      rw [this]; exact ih hm.2 h1

theorem lookup_eq_none (m : List (List Nat × Nat)) (k : List Nat) :
    m.lookup k = none ↔ k ∉ m.map Prod.fst := by
  induction m with
  | nil => simp
  | cons e m ih =>
    obtain ⟨k', v⟩ := e
    simp only [List.lookup_cons, List.map_cons, List.mem_cons]
    by_cases h : k = k'
    · subst h; simp
    · have : (k == k') = false := by simpa using h
      simp [this, ih, h]

theorem entries_append (n : Nat) (a b : List Vote) :
    entries n (a ++ b) = entries n a ++ entries (n + a.length) b := by
  induction a generalizing n with
  | nil => simp [entries]
  | cons v vs ih => simp [entries, ih, Nat.add_assoc, Nat.add_comm 1]

theorem entries_map_fst (n : Nat) (a : List Vote) :
    (entries n a).map Prod.fst = a.map (fun v => v.VoterId) := by
  induction a generalizing n with
  | nil => simp [entries]
  | cons v vs ih => simp [entries, ih]

theorem mem_entries (n : Nat) (a : List Vote) (k : List Nat) (i : Nat) :
    (k, i) ∈ entries n a ↔ ∃ j, j < a.length ∧ i = n + j ∧
      (a.getD j default).VoterId = k := by
  induction a generalizing n with
  | nil => simp [entries]
  | cons v vs ih =>
    simp only [entries, List.mem_cons, ih, Prod.mk.injEq]
    constructor
    · rintro (⟨rfl, rfl⟩ | ⟨j, h2, h3, h4⟩)
      · exact ⟨0, by simp, by simp, by simp⟩
      · exact ⟨j + 1, by simpa using h2, by omega, by simpa using h4⟩
    · rintro ⟨j, h2, h3, h4⟩
      cases j with
      | zero => left; simp at h4; exact ⟨h4.symm, by omega⟩
      | succ j =>
        right
        exact ⟨j, by simpa using h2, by omega, by simpa using h4⟩

theorem mem_admitted (w : Bool) (seen : List (List Nat)) (vs : List Vote) (a : Vote)
    (h : a ∈ admitted w seen vs) : a ∈ vs ∧ a.WillingCandidate = w ∧ a.VoterId ∉ seen := by
  induction vs generalizing seen with
  | nil => simp [admitted] at h
  | cons v vs ih =>
    unfold admitted at h
    split at h
    · rename_i hc
      rcases List.mem_cons.1 h with rfl | h
      · exact ⟨List.mem_cons_self _ _, hc.1, hc.2⟩
      · have := ih _ h
        exact ⟨List.mem_cons_of_mem _ this.1, this.2.1, fun hs => this.2.2 (List.mem_cons_of_mem _ hs)⟩
    · have := ih _ h
      exact ⟨List.mem_cons_of_mem _ this.1, this.2⟩

theorem admitted_nodup (w : Bool) (seen : List (List Nat)) (vs : List Vote) :
    ((admitted w seen vs).map (fun v => v.VoterId)).Nodup := by
  induction vs generalizing seen with
  | nil => simp [admitted]
  | cons v vs ih =>
    unfold admitted
    split
    · rw [List.map_cons, List.nodup_cons]
      refine ⟨?_, ih _⟩
      intro h
      obtain ⟨a, ha, hid⟩ := List.mem_map.1 h
      exact (mem_admitted _ _ _ _ ha).2.2 (by simp [hid])
    · exact ih _

/-- Every vote of the pass whose identity is new has a candidate with its identity. -/
theorem admitted_covers (w : Bool) (seen : List (List Nat)) (vs : List Vote) (v : Vote)
    (hv : v ∈ vs) (hw : v.WillingCandidate = w) (hs : v.VoterId ∉ seen) :
    ∃ a ∈ admitted w seen vs, a.VoterId = v.VoterId := by
  induction vs generalizing seen with
  | nil => simp at hv
  | cons u vs ih =>
    unfold admitted
    split
    · rename_i hc
      by_cases hid : u.VoterId = v.VoterId
      · exact ⟨u, List.mem_cons_self _ _, hid⟩
      · rcases List.mem_cons.1 hv with rfl | hv
        · exact absurd rfl hid
        · obtain ⟨a, ha, h⟩ := ih (u.VoterId :: seen) hv
            (by simp only [List.mem_cons, not_or]; exact ⟨fun h => hid h.symm, hs⟩)
          exact ⟨a, List.mem_cons_of_mem _ ha, h⟩
    · rename_i hc
      rcases List.mem_cons.1 hv with rfl | hv
      · exact absurd ⟨hw, hs⟩ hc
      · exact ih seen hv hs

/-- An admitted vote is the first vote of its pass with its identity. -/
theorem admitted_first (w : Bool) (seen : List (List Nat)) (vs : List Vote) (a : Vote)
    (h : a ∈ admitted w seen vs) :
    vs.find? (fun v => decide (v.WillingCandidate = w) && decide (v.VoterId = a.VoterId)) =
      some a := by
  induction vs generalizing seen with
  | nil => simp [admitted] at h
  | cons u vs ih =>
    unfold admitted at h
    rw [List.find?_cons]
    split at h
    · rename_i hc
      rcases List.mem_cons.1 h with rfl | h
      · simp [hc.1]
      · have hne : u.VoterId ≠ a.VoterId := fun he =>
          (mem_admitted _ _ _ _ h).2.2 (by simp [he])
        simp [hne, ih _ h]
    · rename_i hc
      have hm := mem_admitted _ _ _ _ h
      have hn : ¬ (u.WillingCandidate = w ∧ u.VoterId = a.VoterId) := by
        rintro ⟨h1, h2⟩; exact hc ⟨h1, h2 ▸ hm.2.2⟩
      have hb : (decide (u.WillingCandidate = w) && decide (u.VoterId = a.VoterId)) = false := by
        simpa using hn
      rw [hb]; exact ih _ h

theorem passes_eq (votes : List Vote) :
    mkCandidates.passes votes =
      { cands := (admittedVotes votes).map (fun v => mkCand v.WillingCandidate v)
        candidateIdxByName := (entries 0 (admittedVotes votes)).reverse
        totalWilling := (admitted true [] votes).length } := by
  unfold mkCandidates.passes
  simp only [List.foldl_cons, List.foldl_nil]
  rw [pass_fold_eq, pass_fold_eq]
  have h1 : (admitted true [] votes).map (mkCand true) =
      (admitted true [] votes).map (fun v => mkCand v.WillingCandidate v) := by
    apply List.map_congr_left
    intro v hv; rw [(mem_admitted _ _ _ _ hv).2.1]
  have h2 : ∀ seen, (admitted false seen votes).map (mkCand false) =
      (admitted false seen votes).map (fun v => mkCand v.WillingCandidate v) := by
    intro seen
    apply List.map_congr_left
    intro v hv; rw [(mem_admitted _ _ _ _ hv).2.1]
  simp only [admittedVotes, List.map_nil, List.nil_append, List.append_nil, List.length_nil,
    List.map_append, List.map_reverse, entries_map_fst, entries_append, List.reverse_append,
    List.length_append, List.length_map, Nat.zero_add, h1, h2, if_true, Bool.false_eq_true,
    if_false, Nat.add_zero]

theorem mkCandidates_fst (votes : List Vote) :
    (mkCandidates votes).1 = (admittedVotes votes).map (fun v =>
      mkCandidates.resolve (entries 0 (admittedVotes votes)).reverse
        (mkCand v.WillingCandidate v)) := by
  unfold mkCandidates
  simp only [passes_eq, List.map_map]
  rfl

theorem mkCandidates_snd (votes : List Vote) :
    (mkCandidates votes).2 = (admitted true [] votes).length := by
  unfold mkCandidates
  simp only [passes_eq]

theorem admittedVotes_nodup (votes : List Vote) :
    ((admittedVotes votes).map (fun v => v.VoterId)).Nodup := by
  unfold admittedVotes
  rw [List.map_append, List.nodup_append]
  refine ⟨admitted_nodup _ _ _, admitted_nodup _ _ _, ?_⟩
  intro k hk1 hk2
  obtain ⟨a, ha, rfl⟩ := List.mem_map.1 hk2
  exact (mem_admitted _ _ _ _ ha).2.2 (List.mem_reverse.2 hk1)

/-- The map built by `mkCandidates` sends an identity to the index of its candidate. -/
theorem lookup_entries (A : List Vote) (hA : (A.map (fun v => v.VoterId)).Nodup) (k : List Nat)
    (i : Nat) : (entries 0 A).reverse.lookup k = some i ↔
      i < A.length ∧ (A.getD i default).VoterId = k := by
  have hn : (((entries 0 A).reverse).map Prod.fst).Nodup := by
    rw [List.map_reverse, List.nodup_reverse, entries_map_fst]; exact hA
  constructor
  · intro h
    have := lookup_mem _ _ _ h
    rw [List.mem_reverse, mem_entries] at this
    obtain ⟨j, h1, h2, h3⟩ := this
    simp only [Nat.zero_add] at h2
    subst h2; exact ⟨h1, h3⟩
  · rintro ⟨h1, h2⟩
    apply lookup_of_mem _ hn
    rw [List.mem_reverse, mem_entries]
    exact ⟨i, h1, by simp, h2⟩

theorem lookup_entries_none (A : List Vote) (k : List Nat) :
    (entries 0 A).reverse.lookup k = none ↔ ∀ v ∈ A, v.VoterId ≠ k := by
  rw [lookup_eq_none, List.map_reverse, List.mem_reverse, entries_map_fst]
  simp

theorem length_updC (H : List candidate) (p : Nat) (f : candidate → candidate) :
    (updC H p f).length = H.length := by
  simp [updC]

theorem getC_updC (H : List candidate) (p : Nat) (f : candidate → candidate) (i : Nat) :
    getC (updC H p f) i = if i = p ∧ p < H.length then f (getC H p) else getC H i := by
  unfold getC updC
  simp only [List.getD_eq_getElem?_getD, List.getElem?_set]
  by_cases h : p = i
  · subst h
    by_cases h2 : p < H.length
    · simp [h2, getC, List.getD_eq_getElem?_getD]
    · have h3 : H.length ≤ p := Nat.le_of_not_lt h2
      simp [h2, List.getElem?_eq_none h3]
  · have : ¬ i = p := fun h' => h h'.symm
    simp [h, this]

theorem getC_of_le (H : List candidate) (i : Nat) (h : H.length ≤ i) : getC H i = default := by
  unfold getC
  simp [List.getD_eq_getElem?_getD, List.getElem?_eq_none h]

theorem length_le_of_nodup_lt (l : List Nat) (n : Nat) (hn : l.Nodup) (hl : ∀ x ∈ l, x < n) :
    l.length ≤ n := by
  have h : l ⊆ List.range n := fun x hx => List.mem_range.2 (hl x hx)
  have := (List.subperm_of_subset hn h).length_le
  simpa using this

theorem Reach.step_iff (e : Nat → Option Nat) (v i : Nat) (hne : i ≠ v) :
    Reach e v i ↔ ∃ w, e v = some w ∧ Reach e w i := by
  constructor
  · intro h
    rcases Relation.ReflTransGen.cases_head h with h | ⟨w, hw, h⟩
    · exact absurd h.symm hne
    · exact ⟨w, hw, h⟩
  · rintro ⟨w, hw, h⟩
    exact Relation.ReflTransGen.head hw h

open Classical in
theorem delegateWalk_spec (e : Nat → Option Nat) (votes : Nat) :
    ∀ (fuel : Nat) (H : List candidate) (path : List Nat) (next : Option Nat),
      (∀ i, (getC H i).voteFor = e i) →
      (∀ i j, e i = some j → j < H.length) →
      (∀ p ∈ path, p < H.length) → path.Nodup → H.length + 1 ≤ fuel + path.length →
      (∀ v, next = some v → v < H.length) →
      (∀ p ∈ path, ∀ q, e p = some q → q ∈ path ∨ next = some q) →
      ∃ H', delegateWalk fuel H path next votes = .ok H' ∧ H'.length = H.length ∧
        ∀ i, getC H' i = { getC H i with
          totalIndirectVotes :=
            if i ∉ path ∧ ∃ v, next = some v ∧ Reach e v i then
              ((getC H i).totalIndirectVotes + votes) % u64
            else (getC H i).totalIndirectVotes } := by
  intro fuel
  induction fuel with
  | zero =>
    intro H path next he hedge hlt hnd hfuel hnext hclosed
    have := length_le_of_nodup_lt path H.length hnd hlt
    omega
  | succ fuel ih =>
    intro H path next he hedge hlt hnd hfuel hnext hclosed
    cases next with
    | none =>
      refine ⟨H, ?_, rfl, ?_⟩
      · simp [delegateWalk]
      · intro i; simp
    | some v =>
      have hv : v < H.length := hnext v rfl
      by_cases hmem : v ∈ path
      · refine ⟨H, ?_, rfl, ?_⟩
        · simp [delegateWalk, hmem]
        · intro i
          have hcl : ∀ x, Reach e v x → x ∈ path := by
            intro x hx
            induction hx with
            | refl => exact hmem
            | tail _ hstep ihx =>
              rcases hclosed _ ihx _ hstep with h | h
              · exact h
              · cases h; exact hmem
          have : ¬ (i ∉ path ∧ ∃ w, some v = some w ∧ Reach e w i) := by
            rintro ⟨h1, w, hw, h2⟩
            cases hw; exact h1 (hcl i h2)
          rw [if_neg this]
      · obtain ⟨H', h1, h2, h3⟩ := ih
          (updC H v (fun c =>
            { c with totalIndirectVotes := (c.totalIndirectVotes + votes) % u64 }))
          (path ++ [v]) (e v)
          (by intro i; rw [getC_updC]; split
              · rename_i hc; rw [hc.1]; exact he v
              · exact he i)
          (by intro i j hij; rw [length_updC]; exact hedge i j hij)
          (by intro p hp; rw [length_updC]
              rcases List.mem_append.1 hp with h | h
              · exact hlt p h
              · simp at h; rw [h]; exact hv)
          (by rw [List.nodup_append]
              refine ⟨hnd, List.nodup_singleton v, ?_⟩
              intro a ha hb; simp at hb; subst hb; exact hmem ha)
          (by rw [length_updC]; simp; omega)
          (by intro w hw; rw [length_updC]; exact hedge v w hw)
          (by intro p hp q hq
              rcases List.mem_append.1 hp with h | h
              · rcases hclosed p h q hq with h' | h'
                · exact Or.inl (List.mem_append_left _ h')
                · cases h'; exact Or.inl (by simp)
              · simp at h; subst h; exact Or.inr hq)
        refine ⟨H', ?_, ?_, ?_⟩
        · have hc : path.contains v = false := by simpa using hmem
          simp only [delegateWalk, hc, Bool.false_eq_true, if_false]
          have : (getC (updC H v (fun c =>
              { c with totalIndirectVotes := (c.totalIndirectVotes + votes) % u64 })) v).voteFor
              = e v := by
            rw [getC_updC]; simp [hv, he v]
          rw [this]; exact h1
        · rw [h2, length_updC]
        · intro i
          rw [h3 i, getC_updC]
          by_cases hiv : i = v
          · subst hiv
            have c1 : ¬ (i ∉ path ++ [i] ∧ ∃ w, e i = some w ∧ Reach e w i) := by
              rintro ⟨h, _⟩; exact h (by simp)
            have c2 : i ∉ path ∧ ∃ w, some i = some w ∧ Reach e w i :=
              ⟨hmem, i, rfl, Relation.ReflTransGen.refl⟩
            rw [if_neg c1, if_pos c2]
            simp [hv]
          · have hne : ¬ (i = v ∧ v < H.length) := fun h => hiv h.1
            rw [if_neg hne]
            have hiff : (i ∉ path ++ [v] ∧ ∃ w, e v = some w ∧ Reach e w i) ↔
                (i ∉ path ∧ ∃ w, some v = some w ∧ Reach e w i) := by
              constructor
              · rintro ⟨ha, hb⟩
                refine ⟨fun h => ha (List.mem_append_left _ h), v, rfl, ?_⟩
                exact (Reach.step_iff e v i hiv).2 hb
              · rintro ⟨ha, w, hw, hb⟩
                cases hw
                refine ⟨?_, (Reach.step_iff e v i hiv).1 hb⟩
                intro h
                rcases List.mem_append.1 h with h | h
                · exact ha h
                · simp at h; exact hiv h
            by_cases hc : i ∉ path ∧ ∃ w, some v = some w ∧ Reach e w i
            · rw [if_pos hc, if_pos (hiff.2 hc)]
            · rw [if_neg hc, if_neg (fun h => hc (hiff.1 h))]

open Classical in
theorem delegateOne_spec (H : List candidate) (i : Nat) (hi : i < H.length)
    (hedge : ∀ a b, edge H a = some b → b < H.length) :
    ∃ H', delegateOne H i = .ok H' ∧ H'.length = H.length ∧
      ∀ c, getC H' c = { getC H c with
        votedForMe :=
          if edge H i = some c then (getC H c).votedForMe ++ [i] else (getC H c).votedForMe
        totalIndirectVotes :=
          if c ≠ i ∧ ∃ v, edge H i = some v ∧ Reach (edge H) v c then
            ((getC H c).totalIndirectVotes + own H i) % u64
          else (getC H c).totalIndirectVotes } := by
  -- the arena after the append to `votedForMe`
  have key : ∀ (H1 : List candidate), H1.length = H.length →
      (∀ c, getC H1 c = { getC H c with
        votedForMe :=
          if edge H i = some c then (getC H c).votedForMe ++ [i] else (getC H c).votedForMe }) →
      ∃ H', delegateWalk H1.length H1 [i] (getC H i).voteFor (getC H i).vote.NumberOfVotes
          = .ok H' ∧ H'.length = H.length ∧
        ∀ c, getC H' c = { getC H c with
          votedForMe :=
            if edge H i = some c then (getC H c).votedForMe ++ [i] else (getC H c).votedForMe
          totalIndirectVotes :=
            if c ≠ i ∧ ∃ v, edge H i = some v ∧ Reach (edge H) v c then
              ((getC H c).totalIndirectVotes + own H i) % u64
            else (getC H c).totalIndirectVotes } := by
    intro H1 hlen hH1
    obtain ⟨H', h1, h2, h3⟩ := delegateWalk_spec (edge H) (getC H i).vote.NumberOfVotes
      H1.length H1 [i] (getC H i).voteFor
      (by intro a; rw [hH1 a]; rfl)
      (by intro a b hab; rw [hlen]; exact hedge a b hab)
      (by intro p hp; simp at hp; subst hp; rw [hlen]; exact hi)
      (List.nodup_singleton i)
      (by simp)
      (by intro v hv; rw [hlen]; exact hedge i v hv)
      (by intro p hp q hq; simp at hp; subst hp; exact Or.inr hq)
    refine ⟨H', h1, by rw [h2, hlen], ?_⟩
    intro c
    rw [h3 c, hH1 c]
    simp only [List.mem_singleton, own, edge]
  cases hv : (getC H i).voteFor with
  | none =>
    have hd : delegateOne H i =
        delegateWalk H.length H [i] none (getC H i).vote.NumberOfVotes := by
      simp only [delegateOne, hv]
    have := key H rfl (by intro c; simp [edge, hv])
    rw [hv] at this
    rw [hd]; exact this
  | some vf =>
    have hvf : vf < H.length := hedge i vf hv
    have := key (updC H vf (fun d => { d with votedForMe := d.votedForMe ++ [i] }))
      (length_updC _ _ _) (by
        intro c
        rw [getC_updC]
        by_cases hc : c = vf
        · subst hc; simp [edge, hv, hvf]
        · have : ¬ (some vf = some c) := fun h => hc (by cases h; rfl)
          simp [edge, hv, hc, this])
    rw [hv] at this
    have hd : delegateOne H i =
        delegateWalk (updC H vf (fun d => { d with votedForMe := d.votedForMe ++ [i] })).length
          (updC H vf (fun d => { d with votedForMe := d.votedForMe ++ [i] })) [i] (some vf)
          (getC H i).vote.NumberOfVotes := by
      simp only [delegateOne, hv]
    rw [hd]; exact this

open Classical in
theorem computeDelegated_fold (H0 : List candidate)
    (hedge : ∀ a b, edge H0 a = some b → b < H0.length) :
    ∀ k, k ≤ H0.length → ∃ Hk, (List.range k).foldlM delegateOne H0 = .ok Hk ∧
      Hk.length = H0.length ∧
      ∀ c, (getC Hk c).vote = (getC H0 c).vote ∧ (getC Hk c).voteFor = (getC H0 c).voteFor ∧
        (getC Hk c).willingCandidate = (getC H0 c).willingCandidate ∧
        (getC Hk c).nextByTotalIndirectVotes = (getC H0 c).nextByTotalIndirectVotes ∧
        (getC Hk c).votedForMe = (getC H0 c).votedForMe ++
          (List.range k).filter (fun j => decide (edge H0 j = some c)) ∧
        (getC Hk c).totalIndirectVotes =
          if (List.range k).filter (fun j => decide (c ≠ j ∧ Reach (edge H0) j c)) = [] then
            (getC H0 c).totalIndirectVotes
          else ((getC H0 c).totalIndirectVotes +
            (((List.range k).filter (fun j => decide (c ≠ j ∧ Reach (edge H0) j c))).map
              (own H0)).sum) % u64 := by
  intro k
  induction k with
  | zero =>
    intro _
    exact ⟨H0, rfl, rfl, fun c => by simp⟩
  | succ k ih =>
    intro hk
    obtain ⟨Hk, h1, h2, h3⟩ := ih (by omega)
    have he : edge Hk = edge H0 := by
      funext a; exact (h3 a).2.1
    have hown : own Hk k = own H0 k := by
      unfold own; rw [(h3 k).1]
    obtain ⟨H', g1, g2, g3⟩ := delegateOne_spec Hk k (by omega)
      (by intro a b hab; rw [he] at hab; rw [h2]; exact hedge a b hab)
    rw [he, hown] at g3
    refine ⟨H', ?_, by rw [g2, h2], ?_⟩
    · rw [List.range_succ, List.foldlM_append, h1]
      simp only [List.foldlM_cons, List.foldlM_nil, bind_pure]
      exact g1
    · intro c
      obtain ⟨a1, a2, a3, a4, a5, a6⟩ := h3 c
      rw [g3 c]
      refine ⟨a1, a2, a3, a4, ?_, ?_⟩
      · simp only [List.range_succ, List.filter_append, List.filter_cons, List.filter_nil]
        by_cases hc : edge H0 k = some c
        · simp [hc, a5]
        · simp [hc, a5]
      · simp only [List.range_succ, List.filter_append, List.filter_cons, List.filter_nil]
        have hiff : (c ≠ k ∧ ∃ v, edge H0 k = some v ∧ Reach (edge H0) v c) ↔
            (c ≠ k ∧ Reach (edge H0) k c) := by
          constructor
          · rintro ⟨ha, hb⟩; exact ⟨ha, (Reach.step_iff _ _ _ ha).2 hb⟩
          · rintro ⟨ha, hb⟩; exact ⟨ha, (Reach.step_iff _ _ _ ha).1 hb⟩
        by_cases hc : c ≠ k ∧ Reach (edge H0) k c
        · rw [if_pos (hiff.2 hc)]
          have hd : decide (c ≠ k ∧ Reach (edge H0) k c) = true := by simpa using hc
          simp only [hd, if_true, List.append_eq_nil, List.cons_ne_nil, and_false, if_false,
            List.map_append, List.sum_append, List.map_cons, List.map_nil, List.sum_cons,
            List.sum_nil, Nat.add_zero]
          rw [a6]
          split
          · rename_i hnil
            rw [hnil]; simp
          · rw [Nat.add_mod, Nat.mod_mod, ← Nat.add_mod, Nat.add_assoc]
        · rw [if_neg (fun h => hc (hiff.1 h))]
          have hd : decide (c ≠ k ∧ Reach (edge H0) k c) = false := by simpa using hc
          simp only [hd, Bool.false_eq_true, if_false, List.append_nil]
          exact a6

theorem getD_mem {α : Type} (l : List α) (i : Nat) (d : α) (h : i < l.length) :
    l.getD i d ∈ l := by
  rw [List.getD_eq_getElem l d h]
  exact List.getElem_mem h

theorem admittedVotes_getD_willing (votes : List Vote) (i : Nat)
    (hi : i < (admittedVotes votes).length) :
    ((admittedVotes votes).getD i default).WillingCandidate =
      decide (i < (admitted true [] votes).length) := by
  unfold admittedVotes at hi ⊢
  by_cases h : i < (admitted true [] votes).length
  · rw [List.getD_append _ _ _ _ h]
    have := getD_mem _ i default h
    rw [(mem_admitted _ _ _ _ this).2.1]; simp [h]
  · have h' : (admitted true [] votes).length ≤ i := Nat.le_of_not_lt h
    rw [List.getD_append_right _ _ _ _ h']
    rw [List.length_append] at hi
    have := getD_mem (admitted false
      ((admitted true [] votes).map (fun v => v.VoterId)).reverse votes)
      (i - (admitted true [] votes).length) default (by omega)
    rw [(mem_admitted _ _ _ _ this).2.1]; simp [h]

theorem mkCandidates_length (votes : List Vote) :
    (mkCandidates votes).1.length = (admittedVotes votes).length := by
  rw [mkCandidates_fst, List.length_map]

theorem mkCandidates_getC (votes : List Vote) (i : Nat)
    (hi : i < (admittedVotes votes).length) :
    getC (mkCandidates votes).1 i =
      mkCandidates.resolve (entries 0 (admittedVotes votes)).reverse
        (mkCand ((admittedVotes votes).getD i default).WillingCandidate
          ((admittedVotes votes).getD i default)) := by
  rw [mkCandidates_fst]
  unfold getC
  rw [List.getD_eq_getElem?_getD, List.getElem?_map, List.getElem?_eq_getElem hi,
    List.getD_eq_getElem _ _ hi]
  rfl

theorem mkCandidates_edge (votes : List Vote) (a b : Nat)
    (h : edge (mkCandidates votes).1 a = some b) :
    b < (mkCandidates votes).1.length ∧ b ≠ a ∧ a < (mkCandidates votes).1.length ∧
      ((admittedVotes votes).getD b default).VoterId =
        ((admittedVotes votes).getD a default).VoteFor := by
  rw [mkCandidates_length]
  unfold edge at h
  by_cases ha : a < (admittedVotes votes).length
  · rw [mkCandidates_getC votes a ha] at h
    unfold mkCandidates.resolve at h
    simp only [mkCand] at h
    split at h
    · simp at h
    · rename_i hne
      simp only at h
      have := (lookup_entries _ (admittedVotes_nodup votes) _ _).1 h
      refine ⟨this.1, ?_, ha, this.2⟩
      rintro rfl
      exact hne this.2.symm
  · rw [getC_of_le _ _ (by rw [mkCandidates_length]; omega)] at h
    cases h

theorem collect_ok (H : List candidate) (tw : Nat) (htw : tw ≤ H.length)
    (hw : ∀ i, i < tw → (getC H i).willingCandidate = true) :
    orderByTotalIndirect.collect H tw = .ok (List.range tw) := by
  unfold orderByTotalIndirect.collect
  have : ∀ k, k ≤ tw → (List.range k).foldlM (fun sortable i =>
      if H.length ≤ i then (.error .indexOutOfRange : Except Fault (List Nat))
      else if !(getC H i).willingCandidate then
        .error (.panic "Non-willing candidate in beginning of list")
      else .ok (sortable ++ [i])) [] = .ok (List.range k) := by
    intro k
    induction k with
    | zero => intro _; rfl
    | succ k ih =>
      intro hk
      rw [List.range_succ, List.foldlM_append, ih (by omega)]
      have h1 : ¬ H.length ≤ k := by omega
      simp [h1, hw k (by omega)]
      rfl
  exact this tw (Nat.le_refl _)

theorem ChainFrom_congr (H H' : List candidate) (l : List Nat)
    (h : ∀ a ∈ l, (getC H' a).nextByTotalIndirectVotes = (getC H a).nextByTotalIndirectVotes)
    (p : Option Nat) (hc : ChainFrom H p l) : ChainFrom H' p l := by
  induction l generalizing p with
  | nil => exact hc
  | cons a l ih =>
    refine ⟨hc.1, ?_⟩
    rw [h a (List.mem_cons_self _ _)]
    exact ih (fun b hb => h b (List.mem_cons_of_mem _ hb)) _ hc.2

theorem link_fold_spec (s : List Nat) :
    ∀ (H : List candidate) (last : Option Nat) (L : List Nat),
      s.Nodup → (∀ a ∈ s, a ∉ L) → (∀ a ∈ s, a < H.length) → ChainFrom H last L →
      ∃ H' last', s.foldl (fun st c =>
          (updC st.1 c (fun d => { d with nextByTotalIndirectVotes := st.2 }), some c))
          (H, last) = (H', last') ∧ H'.length = H.length ∧
        ChainFrom H' last' (s.reverse ++ L) ∧
        (∀ i, ∃ nx, getC H' i = { getC H i with nextByTotalIndirectVotes := nx }) := by
  induction s with
  | nil =>
    intro H last L _ _ _ hc
    exact ⟨H, last, rfl, rfl, by simpa using hc, fun i => ⟨_, rfl⟩⟩
  | cons c s ih =>
    intro H last L hnd hdis hlt hc
    rw [List.nodup_cons] at hnd
    have hcl : c < H.length := hlt c (List.mem_cons_self _ _)
    obtain ⟨H', last', h1, h2, h3, h4⟩ := ih
      (updC H c (fun d => { d with nextByTotalIndirectVotes := last })) (some c) (c :: L)
      hnd.2
      (by intro a ha hm
          rcases List.mem_cons.1 hm with h | h
          · subst h; exact hnd.1 ha
          · exact hdis a (List.mem_cons_of_mem _ ha) h)
      (by intro a ha; rw [length_updC]; exact hlt a (List.mem_cons_of_mem _ ha))
      (by refine ⟨rfl, ?_⟩
          rw [getC_updC]; simp only [hcl, and_self, if_true]
          refine ChainFrom_congr H _ L ?_ _ hc
          intro a ha
          rw [getC_updC]
          have : a ≠ c := by rintro rfl; exact hdis a (List.mem_cons_self _ _) ha
          simp [this])
    refine ⟨H', last', ?_, by rw [h2, length_updC], ?_, ?_⟩
    · rw [List.foldl_cons]; exact h1
    · simpa using h3
    · intro i
      obtain ⟨nx, hnx⟩ := h4 i
      rw [getC_updC] at hnx
      by_cases hi : i = c ∧ c < H.length
      · rw [if_pos hi] at hnx
        exact ⟨nx, by rw [hnx, hi.1]⟩
      · rw [if_neg hi] at hnx
        exact ⟨nx, hnx⟩

theorem strictWeak_total (H : List candidate) :
    StrictWeak (fun a b : Nat =>
      decide ((getC H a).totalIndirectVotes < (getC H b).totalIndirectVotes)) where
  irrefl := by intro a; simp
  trans := by intro a b c h1 h2; simp at h1 h2 ⊢; omega
  incomp := by intro a b c h1 h2; simp at h1 h2 ⊢; omega

theorem orderByTotalIndirect_spec (S : SortSlice) (H : List candidate) (tw : Nat)
    (htw : tw ≤ H.length) (hw : ∀ i, i < tw → (getC H i).willingCandidate = true) :
    ∃ H' best L, orderByTotalIndirect S H tw = .ok (H', best) ∧ H'.length = H.length ∧
      (∀ i, ∃ nx, getC H' i = { getC H i with nextByTotalIndirectVotes := nx }) ∧
      L.Perm (List.range tw) ∧ ChainFrom H' best L ∧
      L.Pairwise (fun a b => total H' b ≤ total H' a) := by
  have hperm := S.perm (fun a b : Nat =>
      decide ((getC H a).totalIndirectVotes < (getC H b).totalIndirectVotes)) (List.range tw)
  have hsorted := S.sorted (fun a b : Nat =>
      decide ((getC H a).totalIndirectVotes < (getC H b).totalIndirectVotes)) (List.range tw)
      (strictWeak_total H)
  obtain ⟨H', last', h1, h2, h3, h4⟩ := link_fold_spec
    (S.run (fun a b : Nat =>
      decide ((getC H a).totalIndirectVotes < (getC H b).totalIndirectVotes)) (List.range tw))
    H none []
    (hperm.nodup_iff.2 (List.nodup_range tw))
    (by intro a _; simp)
    (by intro a ha; have := List.mem_range.1 (hperm.subset ha); omega)
    rfl
  refine ⟨H', last', _, ?_, h2, h4, ?_, h3, ?_⟩
  · unfold orderByTotalIndirect
    rw [collect_ok H tw htw hw]
    show Except.ok (orderByTotalIndirect.link H _) = Except.ok (H', last')
    unfold orderByTotalIndirect.link
    rw [h1]
  · rw [List.append_nil]
    exact (List.reverse_perm _).trans hperm
  · rw [List.append_nil, List.pairwise_reverse]
    have htot : ∀ i, total H' i = (getC H i).totalIndirectVotes := by
      intro i; obtain ⟨nx, hnx⟩ := h4 i; unfold total; rw [hnx]
    refine hsorted.imp ?_
    intro a b hab
    rw [htot, htot]
    simp at hab
    exact hab

theorem admitted_true_length_le (votes : List Vote) :
    (admitted true [] votes).length ≤ (admittedVotes votes).length := by
  unfold admittedVotes; rw [List.length_append]; omega

theorem mkCandidates_willing (votes : List Vote) (i : Nat) :
    (getC (mkCandidates votes).1 i).willingCandidate = true ↔
      i < (admitted true [] votes).length := by
  by_cases hi : i < (admittedVotes votes).length
  · rw [mkCandidates_getC votes i hi]
    have := admittedVotes_getD_willing votes i hi
    unfold mkCandidates.resolve
    split <;> simp only [mkCand] <;> rw [this] <;> simp
  · rw [getC_of_le _ _ (by rw [mkCandidates_length]; omega)]
    have := admitted_true_length_le votes
    constructor
    · intro h; cases h
    · intro h; omega

theorem mkCandidates_init (votes : List Vote) (i : Nat) :
    (getC (mkCandidates votes).1 i).votedForMe = [] ∧
      (i < (admittedVotes votes).length →
        (getC (mkCandidates votes).1 i).vote = (admittedVotes votes).getD i default ∧
        (getC (mkCandidates votes).1 i).totalIndirectVotes =
          ((admittedVotes votes).getD i default).NumberOfVotes) := by
  by_cases hi : i < (admittedVotes votes).length
  · rw [mkCandidates_getC votes i hi]
    unfold mkCandidates.resolve
    split <;> simp [mkCand]
  · rw [getC_of_le _ _ (by rw [mkCandidates_length]; omega)]
    exact ⟨rfl, fun h => absurd h hi⟩

theorem MkVoteCounter_spec (S : SortSlice) (votes : List Vote) :
    ∃ vc, MkVoteCounter S votes = .ok vc ∧ Counted votes vc := by
  obtain ⟨H1, h1, h2, h3⟩ := computeDelegated_fold (mkCandidates votes).1
    (fun a b hab => (mkCandidates_edge votes a b hab).1) (mkCandidates votes).1.length
    (Nat.le_refl _)
  have hlen1 : H1.length = (admittedVotes votes).length := by
    rw [h2, mkCandidates_length]
  obtain ⟨H2, best, L, g1, g2, g3, g4, g5, g6⟩ := orderByTotalIndirect_spec S H1
    (mkCandidates votes).2
    (by rw [mkCandidates_snd, hlen1]; exact admitted_true_length_le votes)
    (by intro i hi
        rw [(h3 i).2.2.1]
        rw [mkCandidates_snd] at hi
        exact (mkCandidates_willing votes i).2 hi)
  have hfield : ∀ i, (getC H2 i).vote = (getC (mkCandidates votes).1 i).vote ∧
      (getC H2 i).voteFor = (getC (mkCandidates votes).1 i).voteFor ∧
      (getC H2 i).willingCandidate = (getC (mkCandidates votes).1 i).willingCandidate ∧
      (getC H2 i).votedForMe = (getC H1 i).votedForMe ∧
      (getC H2 i).totalIndirectVotes = (getC H1 i).totalIndirectVotes := by
    intro i
    obtain ⟨nx, hnx⟩ := g3 i
    rw [hnx]
    exact ⟨(h3 i).1, (h3 i).2.1, (h3 i).2.2.1, rfl, rfl⟩
  have hedge : edge H2 = edge (mkCandidates votes).1 := by
    funext a; exact (hfield a).2.1
  have hown : own H2 = own (mkCandidates votes).1 := by
    funext a; unfold own; rw [(hfield a).1]
  refine ⟨{ cand := H2, totalWillingCandidates := (mkCandidates votes).2, best := best }, ?_, ?_⟩
  · unfold MkVoteCounter computeDelegatedVotes
    simp only [h1, g1, bind, Except.bind, pure, Except.pure]
  · constructor
    · show H2.length = _
      rw [g2, hlen1]
    · exact mkCandidates_snd votes
    · intro i hi
      show (getC H2 i).vote = _
      rw [(hfield i).1]
      exact ((mkCandidates_init votes i).2 (by
        have : H2.length = (admittedVotes votes).length := by rw [g2, hlen1]
        rw [← this]; exact hi)).1
    · intro i
      show (getC H2 i).willingCandidate = true ↔ i < (mkCandidates votes).2
      rw [(hfield i).2.2.1, mkCandidates_snd]
      exact mkCandidates_willing votes i
    · intro a
      show edge H2 a = _
      rw [hedge]
    · intro c
      show (getC H2 c).votedForMe = (List.range H2.length).filter _
      rw [(hfield c).2.2.2.1, (h3 c).2.2.2.2.1, (mkCandidates_init votes c).1, hedge, g2, h2]
      rfl
    · exact ⟨L, g4, g5, g6⟩
    · intro c hc
      show total H2 c = _
      have hc' : c < (admittedVotes votes).length := by
        have : H2.length = (admittedVotes votes).length := by rw [g2, hlen1]
        rw [← this]; exact hc
      have e1 : total H2 c = (getC H1 c).totalIndirectVotes := (hfield c).2.2.2.2
      have e2 : (getC (mkCandidates votes).1 c).totalIndirectVotes =
          own (mkCandidates votes).1 c := by
        unfold own
        rw [((mkCandidates_init votes c).2 hc').1, ((mkCandidates_init votes c).2 hc').2]
      rw [e1, (h3 c).2.2.2.2.2, e2]
      show _ = if (List.range H2.length).filter _ = [] then own H2 c else _
      rw [hedge, hown, g2, h2]

theorem getBestCandidates_loop_spec (H : List candidate) (score : Nat) (L : List Nat) :
    ∀ (fuel : Nat) (p : Option Nat) (acc : List Nat), ChainFrom H p L → L.length < fuel →
      getBestCandidates.loop H score fuel p acc =
        .ok (acc ++ L.takeWhile (fun a => decide (total H a = score))) := by
  induction L with
  | nil =>
    intro fuel p acc hc _
    have : p = none := hc
    subst this
    cases fuel <;> simp [getBestCandidates.loop]
  | cons a L ih =>
    intro fuel p acc hc hf
    obtain ⟨rfl, hc2⟩ := hc
    cases fuel with
    | zero => simp at hf
    | succ fuel =>
      unfold getBestCandidates.loop
      by_cases hs : (getC H a).totalIndirectVotes = score
      · rw [if_pos hs, ih fuel _ _ hc2 (by simpa using hf)]
        simp [List.takeWhile_cons, total, hs]
      · rw [if_neg hs]
        simp [List.takeWhile_cons, total, hs]

theorem ChainFrom_suffix (H : List candidate) (L1 L2 : List Nat) (p : Option Nat)
    (hc : ChainFrom H p (L1 ++ a :: L2)) :
    ChainFrom H (getC H a).nextByTotalIndirectVotes L2 := by
  induction L1 generalizing p with
  | nil => exact hc.2
  | cons b L1 ih => exact ih _ hc.2

theorem getRunnerUp_loop_spec (H : List candidate) (ring : List Nat) (L : List Nat) :
    ∀ (fuel : Nat) (p : Option Nat), ChainFrom H p L → L.length < fuel →
      getRunnerUp.loop H ring fuel p = .ok (L.find? (fun a => !ring.contains a)) := by
  induction L with
  | nil =>
    intro fuel p hc _
    have : p = none := hc
    subst this
    cases fuel <;> simp [getRunnerUp.loop]
  | cons a L ih =>
    intro fuel p hc hf
    obtain ⟨rfl, hc2⟩ := hc
    cases fuel with
    | zero => simp at hf
    | succ fuel =>
      unfold getRunnerUp.loop
      rw [List.find?_cons]
      by_cases hs : ring.contains a = true
      · simp only [hs, Bool.not_true, Bool.false_eq_true, if_false]
        exact ih fuel _ hc2 (by simpa using hf)
      · have hs' : ring.contains a = false := by simpa using hs
        simp only [hs', Bool.not_false, if_true]

theorem removeFromUnorganized_mem (rc : ringComputer) (c : Nat) (h : c ∈ rc.unorganized) :
    ∃ rc', rc.removeFromUnorganized c = (rc', true) ∧ rc'.rings = rc.rings ∧
      rc'.unorganized.length + 1 = rc.unorganized.length := by
  unfold ringComputer.removeFromUnorganized
  cases hi : rc.unorganized.indexOf? c with
  | none =>
    unfold List.indexOf? at hi
    rw [List.findIdx?_eq_none_iff] at hi
    have := hi c h
    simp at this
  | some i =>
    refine ⟨_, rfl, rfl, ?_⟩
    have hpos : 0 < rc.unorganized.length := List.length_pos_of_mem h
    simp only [List.length_take, List.length_set]
    omega

theorem removeFromUnorganized_not_mem (rc : ringComputer) (c : Nat) (h : c ∉ rc.unorganized) :
    rc.removeFromUnorganized c = (rc, false) := by
  unfold ringComputer.removeFromUnorganized
  have : rc.unorganized.indexOf? c = none := by
    unfold List.indexOf?
    rw [List.findIdx?_eq_none_iff]
    intro x hx
    simp only [beq_eq_false_iff_ne, ne_eq]
    rintro rfl; exact h hx
  rw [this]

theorem removeFromUnorganized_cases (rc : ringComputer) (c : Nat) :
    (rc.removeFromUnorganized c = (rc, false) ∧ c ∉ rc.unorganized) ∨
    (∃ rc', rc.removeFromUnorganized c = (rc', true) ∧ rc'.rings = rc.rings ∧
      rc'.unorganized.length + 1 = rc.unorganized.length ∧ c ∈ rc.unorganized) := by
  by_cases h : c ∈ rc.unorganized
  · obtain ⟨rc', h1, h2, h3⟩ := removeFromUnorganized_mem rc c h
    exact Or.inr ⟨rc', h1, h2, h3, h⟩
  · exact Or.inl ⟨removeFromUnorganized_not_mem rc c h, h⟩

theorem appendToRing_ok (rc : ringComputer) (ringN c : Nat) (h : ringN < rc.rings.length) :
    ∃ rc', rc.appendToRing ringN c = .ok rc' ∧ rc'.unorganized = rc.unorganized ∧
      rc'.rings.length = rc.rings.length := by
  unfold ringComputer.appendToRing
  rw [if_pos h]
  exact ⟨_, rfl, rfl, by simp⟩

theorem addToRingReverse_ok (H : List candidate) (ringN : Nat) :
    ∀ (fuel cand : Nat) (rc : ringComputer), rc.unorganized.length < fuel →
      ringN < rc.rings.length →
      ∃ rc', rc.addToRingReverse H ringN fuel cand = .ok rc' ∧
        rc'.unorganized.length ≤ rc.unorganized.length ∧
        rc'.rings.length = rc.rings.length := by
  intro fuel
  induction fuel with
  | zero => intro cand rc h; simp at h
  | succ fuel ih =>
    intro cand rc hf hr
    unfold ringComputer.addToRingReverse
    generalize (getC H cand).votedForMe = l
    induction l generalizing rc with
    | nil => exact ⟨rc, rfl, Nat.le_refl _, rfl⟩
    | cons c l ihl =>
      rw [List.foldlM_cons]
      rcases removeFromUnorganized_cases rc c with ⟨h1, _⟩ | ⟨rc1, h1, h2, h3, _⟩
      · rw [h1]
        simp only [bind, Except.bind]
        exact ihl rc hf hr
      · rw [h1]
        obtain ⟨rc2, a1, a2, a3⟩ := appendToRing_ok rc1 ringN c (by rw [h2]; exact hr)
        obtain ⟨rc3, b1, b2, b3⟩ := ih c rc2 (by rw [a2]; omega) (by rw [a3, h2]; exact hr)
        obtain ⟨rc4, c1, c2, c3⟩ := ihl rc3 (by rw [a2] at b2; omega)
          (by rw [b3, a3, h2]; exact hr)
        refine ⟨rc4, ?_, ?_, ?_⟩
        · simp only [bind, Except.bind, a1, b1]
          exact c1
        · rw [a2] at b2; omega
        · rw [c3, b3, a3, h2]

theorem addToRingForward_ok (H : List candidate) (ringN : Nat) :
    ∀ (fuel : Nat) (p : Option Nat) (rc : ringComputer), rc.unorganized.length < fuel →
      ringN < rc.rings.length →
      ∃ rc', rc.addToRingForward H ringN fuel p = .ok rc' ∧
        rc'.unorganized.length ≤ rc.unorganized.length ∧
        rc'.rings.length = rc.rings.length ∧
        (∀ c, p = some c → c ∈ rc.unorganized →
          rc'.unorganized.length < rc.unorganized.length) := by
  intro fuel
  induction fuel with
  | zero => intro p rc h; simp at h
  | succ fuel ih =>
    intro p rc hf hr
    cases p with
    | none =>
      exact ⟨rc, by simp [ringComputer.addToRingForward], Nat.le_refl _, rfl,
        fun c h => by cases h⟩
    | some cand =>
      unfold ringComputer.addToRingForward
      rcases removeFromUnorganized_cases rc cand with ⟨h1, hn⟩ | ⟨rc1, h1, h2, h3, _⟩
      · rw [h1]
        exact ⟨rc, rfl, Nat.le_refl _, rfl, fun c hc hm => by cases hc; exact absurd hm hn⟩
      · rw [h1]
        obtain ⟨rc2, a1, a2, a3⟩ := addToRingReverse_ok H ringN (fuel + 1) cand rc1
          (by omega) (by rw [h2]; exact hr)
        obtain ⟨rc3, b1, b2, b3⟩ := appendToRing_ok rc2 ringN cand
          (by rw [a3, h2]; exact hr)
        obtain ⟨rc4, c1, c2, c3, _⟩ := ih (getC H cand).voteFor rc3 (by rw [b2]; omega)
          (by rw [b3, a3, h2]; exact hr)
        refine ⟨rc4, ?_, ?_, ?_, ?_⟩
        · simp only [bind, Except.bind, a1, b1]
          exact c1
        · rw [b2] at c2; omega
        · rw [c3, b3, a3, h2]
        · intro c _ _; rw [b2] at c2; omega

theorem computeRingMembers_loop_ok (H : List candidate) :
    ∀ (fuel : Nat) (rc : ringComputer), rc.unorganized.length < fuel →
      ∃ rc', computeRingMembers.loop H fuel rc = .ok rc' := by
  intro fuel
  induction fuel with
  | zero => intro rc h; simp at h
  | succ fuel ih =>
    intro rc hf
    unfold computeRingMembers.loop
    cases hu : rc.unorganized with
    | nil => exact ⟨rc, rfl⟩
    | cons c rest =>
      simp only
      obtain ⟨rc2, a1, a2, a3, a4⟩ := addToRingForward_ok H rc.rings.length
        (rc.unorganized.length + 1) (some c)
        { rings := rc.rings ++ [[]], unorganized := rc.unorganized }
        (by simp) (by simp)
      have hlt := a4 c rfl (by simp [hu])
      simp only at hlt
      obtain ⟨rc3, b1⟩ := ih rc2 (by omega)
      refine ⟨rc3, ?_⟩
      rw [hu] at a1
      simp only [bind, Except.bind, a1]
      exact b1

theorem computeRingMembers_ok (H : List candidate) (ring : List Nat) :
    ∃ rings, computeRingMembers H ring = .ok rings := by
  obtain ⟨rc, h⟩ := computeRingMembers_loop_ok H (ring.length + 1)
    { rings := [], unorganized := ring } (by simp)
  exact ⟨rc.rings, by simp [computeRingMembers, h, bind, Except.bind, pure, Except.pure]⟩

theorem getPotentialPatron_fold (H : List candidate) (ring : List Nat) (l : List Nat) :
    ∀ (st : Nat × Option Nat) (p : Nat),
      (l.foldl (fun (st : Nat × Option Nat) vfm =>
        if ring.contains vfm then st
        else if (getC H vfm).totalIndirectVotes > st.1 then
          ((getC H vfm).totalIndirectVotes, some vfm)
        else st) st).2 = some p → st.2 = some p ∨ (p ∈ l ∧ p ∉ ring) := by
  induction l with
  | nil => intro st p h; exact Or.inl h
  | cons a l ih =>
    intro st p h
    rw [List.foldl_cons] at h
    rcases ih _ p h with h1 | h1
    · by_cases hr : ring.contains a = true
      · rw [if_pos hr] at h1; exact Or.inl h1
      · rw [if_neg hr] at h1
        split at h1
        · simp only [Option.some.injEq] at h1
          subst h1
          exact Or.inr ⟨List.mem_cons_self _ _, by simpa using hr⟩
        · exact Or.inl h1
    · exact Or.inr ⟨List.mem_cons_of_mem _ h1.1, h1.2⟩

theorem getPotentialPatron_some (H : List candidate) (cur : Nat) (ring : List Nat) (p : Nat)
    (h : getPotentialPatron H cur ring = some p) :
    p ∈ (getC H cur).votedForMe ∧ p ∉ ring := by
  unfold getPotentialPatron at h
  rcases getPotentialPatron_fold H ring _ _ p h with h1 | h1
  · cases h1
  · exact h1

theorem Trail.edge_mem (e : Nat → Option Nat) (W : Nat) (t : List Nat) (ht : Trail e W t)
    (x : Nat) (hx : x ∈ t) : ∃ y, e x = some y ∧ (y ∈ t ∨ y = W) := by
  induction t with
  | nil => simp at hx
  | cons p t ih =>
    rcases List.mem_cons.1 hx with rfl | hx
    · refine ⟨_, ht.1, ?_⟩
      cases t with
      | nil => exact Or.inr rfl
      | cons q t => exact Or.inl (by simp)
    · obtain ⟨y, h1, h2⟩ := ih ht.2 hx
      exact ⟨y, h1, h2.imp (List.mem_cons_of_mem _) id⟩

theorem Trail.not_mem (e : Nat → Option Nat) (W : Nat) (ring : List Nat) (hW : W ∈ ring)
    (t : List Nat) (ht : Trail e W t) (hr : ∀ x ∈ t, x ∉ ring) :
    ∀ p, p ∉ ring → e p = some (t.headD W) → p ∉ t := by
  induction t with
  | nil => intro p _ _; simp
  | cons q t ih =>
    intro p hp hep hmem
    have hq : q ∉ ring := hr q (List.mem_cons_self _ _)
    have hqt : q ∉ t := ih ht.2 (fun x hx => hr x (List.mem_cons_of_mem _ hx)) q hq ht.1
    simp only [List.headD_cons] at hep
    rcases List.mem_cons.1 hmem with rfl | hm
    · have := ht.1
      rw [hep] at this
      cases t with
      | nil => simp at this; subst this; exact hp hW
      | cons r t => simp at this; subst this; exact hqt (List.mem_cons_self _ _)
    · obtain ⟨y, h1, h2⟩ := Trail.edge_mem e W t ht.2 p hm
      rw [hep] at h1
      cases h1
      rcases h2 with h2 | h2
      · exact hqt h2
      · subst h2; exact hq hW

theorem Trail.nodup (e : Nat → Option Nat) (W : Nat) (ring : List Nat) (hW : W ∈ ring)
    (t : List Nat) (ht : Trail e W t) (hr : ∀ x ∈ t, x ∉ ring) : t.Nodup := by
  induction t with
  | nil => exact List.nodup_nil
  | cons p t ih =>
    rw [List.nodup_cons]
    exact ⟨Trail.not_mem e W ring hW t ht.2 (fun x hx => hr x (List.mem_cons_of_mem _ hx)) p
        (hr p (List.mem_cons_self _ _)) ht.1,
      ih ht.2 (fun x hx => hr x (List.mem_cons_of_mem _ hx))⟩

theorem getPatron_loop_ok (H : List candidate) (W : Nat) (ring : List Nat)
    (hvfm : ∀ c p, p ∈ (getC H c).votedForMe → edge H p = some c ∧ p < H.length)
    (hW : W ∈ ring) (hWlt : W < H.length) :
    ∀ (fuel : Nat) (ru : Option Nat) (pp : Nat) (patron : Option Nat) (t : List Nat),
      Trail (edge H) W (pp :: t) → (∀ x ∈ pp :: t, x ∉ ring ∧ x < H.length) →
      H.length ≤ fuel + t.length →
      ∃ r, getPatron.loop H W ring fuel ru pp patron = .ok r ∧
        (r = patron ∨ ∃ p, r = some p ∧ (getC H p).willingCandidate = true ∧ p ∉ ring) := by
  intro fuel
  induction fuel with
  | zero =>
    intro ru pp patron t ht hx hf
    have hnd : (W :: pp :: t).Nodup := by
      rw [List.nodup_cons]
      exact ⟨fun h => (hx W h).1 hW, Trail.nodup _ W ring hW _ ht (fun x h => (hx x h).1)⟩
    have := length_le_of_nodup_lt _ H.length hnd (by
      intro x h
      rcases List.mem_cons.1 h with rfl | h
      · exact hWlt
      · exact (hx x h).2)
    simp at this hf
    omega
  | succ fuel ih =>
    intro ru pp patron t ht hx hf
    unfold getPatron.loop
    simp only
    split
    · exact ⟨patron, rfl, Or.inl rfl⟩
    · rename_i hvalid
      have hwill : (getC H pp).willingCandidate = true := by
        unfold isValidPatron at hvalid
        by_contra hc
        simp [hc] at hvalid
      cases hnext : getPotentialPatron H pp ring with
      | none =>
        exact ⟨some pp, rfl, Or.inr ⟨pp, rfl, hwill, (hx pp (List.mem_cons_self _ _)).1⟩⟩
      | some next =>
        simp only
        have hn := getPotentialPatron_some H pp ring next hnext
        have hv := hvfm pp next hn.1
        obtain ⟨r, h1, h2⟩ := ih _ next (some pp) (pp :: t)
          ⟨by simpa using hv.1, ht⟩
          (by intro x h
              rcases List.mem_cons.1 h with rfl | h
              · exact ⟨hn.2, hv.2⟩
              · exact hx x h)
          (by simp; omega)
        refine ⟨r, h1, ?_⟩
        rcases h2 with h2 | h2
        · exact Or.inr ⟨pp, h2, hwill, (hx pp (List.mem_cons_self _ _)).1⟩
        · exact Or.inr h2

theorem tieBreaker_ok (S : SortSlice) (hash : List Nat → List Nat) (H : List candidate)
    (winners : List Nat) :
    ∃ r, tieBreaker S hash H winners = .ok r ∧ (r = none ↔ winners = []) ∧
      ∀ w, r = some w → w ∈ winners := by
  unfold tieBreaker
  split
  · exact ⟨none, rfl, by simp, by simp⟩
  · rename_i w
    exact ⟨some w, rfl, by simp, by simp⟩
  · rename_i h0 h1
    have hperm := S.perm (fun a b : List Nat × Nat => decide (slicesCompare a.1 b.1 < 0))
      (winners.map (fun c => (tieBreakerHash hash H c, c)))
    simp only
    cases hs : S.run (fun a b : List Nat × Nat => decide (slicesCompare a.1 b.1 < 0))
      (winners.map (fun c => (tieBreakerHash hash H c, c))) with
    | nil =>
      rw [hs] at hperm
      have := hperm.length_eq
      simp at this
      exact absurd (List.length_eq_zero.1 this.symm) h0
    | cons hc rest =>
      refine ⟨some hc.2, rfl, ?_, ?_⟩
      · simp; exact h0
      · intro w hw
        cases hw
        have : hc ∈ winners.map (fun c => (tieBreakerHash hash H c, c)) :=
          hperm.subset (by rw [hs]; exact List.mem_cons_self _ _)
        obtain ⟨c, hc1, hc2⟩ := List.mem_map.1 this
        rw [← hc2]; exact hc1

theorem bestOfRing_select_fold (scores : List (Nat × Nat)) :
    ∀ (st : Nat × List Nat),
      (∀ c ∈ (scores.foldl (fun (st : Nat × List Nat) cs =>
          if cs.2 ≥ st.1 then
            let st1 := if cs.2 > st.1 then (cs.2, []) else st
            (st1.1, st1.2 ++ [cs.1])
          else st) st).2, c ∈ st.2 ∨ c ∈ scores.map Prod.fst) ∧
      ((st.2 ≠ [] ∨ (st.1 = 0 ∧ scores ≠ [])) →
        (scores.foldl (fun (st : Nat × List Nat) cs =>
          if cs.2 ≥ st.1 then
            let st1 := if cs.2 > st.1 then (cs.2, []) else st
            (st1.1, st1.2 ++ [cs.1])
          else st) st).2 ≠ []) := by
  induction scores with
  | nil =>
    intro st
    refine ⟨fun c hc => Or.inl hc, ?_⟩
    rintro (h | ⟨_, h⟩)
    · exact h
    · exact absurd rfl h
  | cons cs scores ih =>
    intro st
    rw [List.foldl_cons]
    obtain ⟨h1, h2⟩ := ih (if cs.2 ≥ st.1 then
            let st1 := if cs.2 > st.1 then (cs.2, []) else st
            (st1.1, st1.2 ++ [cs.1])
          else st)
    constructor
    · intro c hc
      rcases h1 c hc with h | h
      · split at h
        · simp only at h
          rcases List.mem_append.1 h with h | h
          · split at h
            · simp at h
            · exact Or.inl h
          · simp at h; subst h; exact Or.inr (by simp)
        · exact Or.inl h
      · exact Or.inr (by simp only [List.map_cons]; exact List.mem_cons_of_mem _ h)
    · intro hst
      apply h2
      left
      split
      · simp
      · rename_i hlt
        rcases hst with h | ⟨h, _⟩
        · exact h
        · omega

theorem bestOfRing_subset (H : List candidate) (ring : List Nat) (c : Nat)
    (hc : c ∈ bestOfRing H ring) : c ∈ ring := by
  unfold bestOfRing bestOfRing.select at hc
  rcases (bestOfRing_select_fold _ (0, [])).1 c hc with h | h
  · simp at h
  · simpa [List.map_map] using h

theorem bestOfRing_ne_nil (H : List candidate) (ring : List Nat) (hr : ring ≠ []) :
    bestOfRing H ring ≠ [] := by
  unfold bestOfRing bestOfRing.select
  apply (bestOfRing_select_fold _ (0, [])).2
  right
  exact ⟨rfl, by simpa using hr⟩

theorem Counted.edge_lt {votes : List Vote} {vc : VoteCounter} (hc : Counted votes vc)
    (a b : Nat) (h : edge vc.cand a = some b) : b < vc.cand.length ∧ b ≠ a := by
  rw [hc.edge_eq] at h
  have := mkCandidates_edge votes a b h
  rw [mkCandidates_length] at this
  rw [hc.len]
  exact ⟨this.1, this.2.1⟩

theorem Counted.vfm_mem {votes : List Vote} {vc : VoteCounter} (hc : Counted votes vc)
    (c p : Nat) : p ∈ (getC vc.cand c).votedForMe ↔ p < vc.cand.length ∧ edge vc.cand p = some c := by
  rw [hc.vfm c]
  simp [List.mem_filter]

theorem Counted.tw_le {votes : List Vote} {vc : VoteCounter} (hc : Counted votes vc) :
    vc.totalWillingCandidates ≤ vc.cand.length := by
  rw [hc.tw, hc.len]; exact admitted_true_length_le votes

theorem getPatron_ok {votes : List Vote} {vc : VoteCounter} (hc : Counted votes vc)
    (L : List Nat) (hL : L.Perm (List.range vc.totalWillingCandidates))
    (hch : ChainFrom vc.cand vc.best L) (W : Nat) (ring : List Nat) (hW : W ∈ ring)
    (hWL : W ∈ L) :
    ∃ r, getPatron vc.cand W ring = .ok r ∧
      (r = none ∨ ∃ p, r = some p ∧ (getC vc.cand p).willingCandidate = true ∧ p ∉ ring) := by
  have htw := hc.tw_le
  have hWlt : W < vc.cand.length := by
    have := List.mem_range.1 (hL.subset hWL); omega
  obtain ⟨L1, L2, hsplit⟩ := List.append_of_mem hWL
  have hch2 : ChainFrom vc.cand (getC vc.cand W).nextByTotalIndirectVotes L2 := by
    rw [hsplit] at hch; exact ChainFrom_suffix _ _ _ _ hch
  have hlen : L2.length < vc.cand.length + 1 := by
    have := hL.length_eq
    rw [hsplit] at this
    simp at this
    omega
  unfold getPatron getRunnerUp
  rw [getRunnerUp_loop_spec vc.cand ring L2 _ _ hch2 hlen]
  simp only [bind, Except.bind]
  cases hpp : getPotentialPatron vc.cand W ring with
  | none => exact ⟨none, rfl, Or.inl rfl⟩
  | some pp =>
    simp only
    have hn := getPotentialPatron_some _ _ _ _ hpp
    have hv := (hc.vfm_mem W pp).1 hn.1
    obtain ⟨r, h1, h2⟩ := getPatron_loop_ok vc.cand W ring
      (fun c p hp => ((hc.vfm_mem c p).1 hp).symm) hW hWlt vc.cand.length
      (L2.find? (fun a => !ring.contains a)) pp none []
      ⟨by simpa using hv.2, trivial⟩
      (by intro x hx; simp at hx; subst hx; exact ⟨hn.2, hv.1⟩)
      (by simp)
    exact ⟨r, h1, h2⟩

theorem ChainFrom_none (H : List candidate) (L : List Nat) (h : ChainFrom H none L) : L = [] := by
  cases L with
  | nil => rfl
  | cons a L => cases h.1

theorem ChainFrom_some (H : List candidate) (L : List Nat) (b : Nat)
    (h : ChainFrom H (some b) L) : ∃ L', L = b :: L' := by
  cases L with
  | nil => cases h
  | cons a L => have := h.1; cases this; exact ⟨L, rfl⟩

/-- The winner found by `FindWinner` on a counter built by `MkVoteCounter`: the call
returns, the result is `none` exactly when there is no willing candidate, and a winner is
the vote of a candidate in the willing prefix. -/
theorem FindWinner_spec (S : SortSlice) (hash : List Nat → List Nat) {votes : List Vote}
    {vc : VoteCounter} (hc : Counted votes vc) :
    ∃ r, vc.FindWinner S hash = .ok r ∧ (r = none ↔ vc.totalWillingCandidates = 0) ∧
      ∀ v, r = some v → ∃ i, i < vc.totalWillingCandidates ∧ v = (getC vc.cand i).vote := by
  obtain ⟨L, hL, hch, hsorted⟩ := hc.chain
  unfold VoteCounter.FindWinner
  cases hb : vc.best with
  | none =>
    rw [hb] at hch
    have := ChainFrom_none _ _ hch
    subst this
    have := hL.length_eq
    simp at this
    exact ⟨none, rfl, by simp [this], by simp⟩
  | some b =>
    rw [hb] at hch
    obtain ⟨L', rfl⟩ := ChainFrom_some _ _ _ hch
    have htw := hc.tw_le
    have hlenL : (b :: L').length = vc.totalWillingCandidates := by
      rw [hL.length_eq, List.length_range]
    have htwpos : vc.totalWillingCandidates ≠ 0 := by
      rw [← hlenL]; simp
    simp only [getBestCandidates, bind, Except.bind]
    rw [getBestCandidates_loop_spec vc.cand _ (b :: L') _ _ _ hch (by omega)]
    simp only [List.nil_append]
    generalize hring : (b :: L').takeWhile
      (fun a => decide (total vc.cand a = (getC vc.cand b).totalIndirectVotes)) = ring
    have hringsub : ∀ x ∈ ring, x ∈ b :: L' := by
      intro x hx; rw [← hring] at hx; exact (List.takeWhile_sublist _).subset hx
    have hringne : ring ≠ [] := by
      rw [← hring, List.takeWhile_cons]
      simp [total]
    obtain ⟨rings, hrings⟩ := computeRingMembers_ok vc.cand ring
    rw [hrings]
    simp only [pure, Except.pure]
    have hwillL : ∀ x ∈ b :: L', (getC vc.cand x).willingCandidate = true := by
      intro x hx
      exact (hc.willing x).2 (List.mem_range.1 (hL.subset hx))
    -- the tentative winners after patron promotion
    have hsolve : ∃ tw1, (if rings.length < 2 then
          solveWinner vc.cand (bestOfRing vc.cand ring) ring
        else (Except.ok (bestOfRing vc.cand ring) : Except Fault (List Nat))) = .ok tw1 ∧
        tw1 ≠ [] ∧ ∀ x ∈ tw1, (getC vc.cand x).willingCandidate = true := by
      have hbest : ∀ x ∈ bestOfRing vc.cand ring, (getC vc.cand x).willingCandidate = true :=
        fun x hx => hwillL x (hringsub x (bestOfRing_subset _ _ _ hx))
      have hne := bestOfRing_ne_nil vc.cand ring hringne
      split
      · unfold solveWinner
        split
        · rename_i w hw
          have hwr : w ∈ ring := bestOfRing_subset vc.cand ring w (by rw [hw]; simp)
          obtain ⟨r, h1, h2⟩ := getPatron_ok hc (b :: L') hL (by rw [hb]; exact hch) w ring hwr (hringsub w hwr)
          simp only [bind, Except.bind, h1]
          rcases h2 with rfl | ⟨p, rfl, hp, _⟩
          · exact ⟨[w], rfl, by simp, by
              intro x hx; simp at hx; subst hx; exact hbest x (by rw [hw]; simp)⟩
          · exact ⟨[p], rfl, by simp, by intro x hx; simp at hx; subst hx; exact hp⟩
        · exact ⟨_, rfl, hne, hbest⟩
      · exact ⟨_, rfl, hne, hbest⟩
    obtain ⟨tw1, hs1, hs2, hs3⟩ := hsolve
    obtain ⟨r, ht1, ht2, ht3⟩ := tieBreaker_ok S hash vc.cand tw1
    cases r with
    | none => exact absurd (ht2.1 rfl) hs2
    | some w =>
      refine ⟨some (getC vc.cand w).vote, ?_, by simp [htwpos], ?_⟩
      · split
        · rename_i hlt
          rw [if_pos hlt] at hs1
          rw [hs1]; simp only [ht1]
        · rename_i hlt
          rw [if_neg hlt] at hs1
          cases hs1
          simp only [ht1]
      · intro v hv
        cases hv
        exact ⟨w, (hc.willing w).1 (hs3 w (ht3 w rfl)), rfl⟩

theorem willing_prefix_vote {votes : List Vote} {vc : VoteCounter} (hc : Counted votes vc)
    (i : Nat) (hi : i < vc.totalWillingCandidates) :
    (getC vc.cand i).vote ∈ admitted true [] votes := by
  have hlt : i < vc.cand.length := Nat.lt_of_lt_of_le hi hc.tw_le
  rw [hc.vote i hlt]
  rw [hc.tw] at hi
  unfold admittedVotes
  rw [List.getD_append _ _ _ _ hi]
  exact getD_mem _ _ _ hi

theorem admitted_true_eq_nil_iff (votes : List Vote) :
    (admitted true [] votes).length = 0 ↔ ∀ v ∈ votes, v.WillingCandidate = false := by
  constructor
  · intro h v hv
    by_contra hw
    have hw' : v.WillingCandidate = true := by simpa using hw
    obtain ⟨a, ha, _⟩ := admitted_covers true [] votes v hv hw' (by simp)
    rw [List.length_eq_zero] at h
    rw [h] at ha
    simp at ha
  · intro h
    rw [List.length_eq_zero]
    apply List.eq_nil_iff_forall_not_mem.2
    intro a ha
    have := mem_admitted _ _ _ _ ha
    rw [h a this.1] at this
    simp at this

/-- C1: for every vote list, `FindWinner` on `MkVoteCounter(votes)` returns, and it returns
either `none` or a vote that is an element of the input list and has
`WillingCandidate = true`. -/
theorem winner_is_willing_input_vote (S : SortSlice) (hash : List Nat → List Nat)
    (votes : List Vote) :
    ∃ vc r, MkVoteCounter S votes = .ok vc ∧ vc.FindWinner S hash = .ok r ∧
      (r = none ∨ ∃ v, r = some v ∧ v ∈ votes ∧ v.WillingCandidate = true) := by
  obtain ⟨vc, h1, hc⟩ := MkVoteCounter_spec S votes
  obtain ⟨r, h2, _, h4⟩ := FindWinner_spec S hash hc
  refine ⟨vc, r, h1, h2, ?_⟩
  cases r with
  | none => exact Or.inl rfl
  | some v =>
    obtain ⟨i, hi, hv⟩ := h4 v rfl
    have := mem_admitted _ _ _ _ (willing_prefix_vote hc i hi)
    exact Or.inr ⟨v, rfl, hv ▸ this.1, hv ▸ this.2.1⟩

/-- C2: for every vote list, `FindWinner` returns `none` if and only if no vote of the input
has `WillingCandidate = true`. -/
theorem winner_none_iff_no_willing (S : SortSlice) (hash : List Nat → List Nat)
    (votes : List Vote) :
    ∃ vc r, MkVoteCounter S votes = .ok vc ∧ vc.FindWinner S hash = .ok r ∧
      (r = none ↔ ∀ v ∈ votes, v.WillingCandidate = false) := by
  obtain ⟨vc, h1, hc⟩ := MkVoteCounter_spec S votes
  obtain ⟨r, h2, h3, _⟩ := FindWinner_spec S hash hc
  refine ⟨vc, r, h1, h2, ?_⟩
  rw [h3, hc.tw]
  exact admitted_true_eq_nil_iff votes

/-- C3: when exactly one vote `w` of the list has `WillingCandidate = true`, `FindWinner`
returns `w`, whatever the other votes are. -/
theorem single_willing_wins (S : SortSlice) (hash : List Nat → List Nat) (votes : List Vote)
    (w : Vote) (hw : votes.filter (fun v => v.WillingCandidate) = [w]) :
    ∃ vc, MkVoteCounter S votes = .ok vc ∧ vc.FindWinner S hash = .ok (some w) := by
  obtain ⟨vc, h1, hc⟩ := MkVoteCounter_spec S votes
  obtain ⟨r, h2, h3, h4⟩ := FindWinner_spec S hash hc
  refine ⟨vc, h1, ?_⟩
  have hwin : w ∈ votes ∧ w.WillingCandidate = true := by
    have : w ∈ votes.filter (fun v => v.WillingCandidate) := by rw [hw]; simp
    simpa [List.mem_filter] using this
  cases r with
  | none =>
    have := (admitted_true_eq_nil_iff votes).1 (by rw [← hc.tw]; exact h3.1 rfl) w hwin.1
    rw [hwin.2] at this
    cases this
  | some v =>
    obtain ⟨i, hi, hv⟩ := h4 v rfl
    have := mem_admitted _ _ _ _ (willing_prefix_vote hc i hi)
    have hmem : v ∈ votes.filter (fun v => v.WillingCandidate) := by
      rw [List.mem_filter]; exact ⟨hv ▸ this.1, hv ▸ this.2.1⟩
    rw [hw] at hmem
    simp at hmem
    rw [h2, hmem]

/-- C3, on the votes of `TestSimple`: Bob wins. -/
theorem single_willing_wins_witness :
    [voteAlice, voteBob].filter (fun v => v.WillingCandidate) = [voteBob] ∧
    ∃ vc, MkVoteCounter insertionSortSlice [voteAlice, voteBob] = .ok vc ∧
      vc.FindWinner insertionSortSlice idHash = .ok (some voteBob) :=
  ⟨by decide, single_willing_wins insertionSortSlice idHash [voteAlice, voteBob] voteBob
    (by decide)⟩

/-- C10: `mkCandidates` returns the willing candidates in the first `totalWilling` entries
and unwilling ones after them, so `orderByTotalIndirect` does not panic, and
`MkVoteCounter` followed by `FindWinner` returns without a fault on every input. -/
theorem willing_prefix_and_no_fault (votes : List Vote) :
    (mkCandidates votes).2 ≤ (mkCandidates votes).1.length ∧
    (∀ i, i < (mkCandidates votes).1.length →
      ((getC (mkCandidates votes).1 i).willingCandidate = true ↔ i < (mkCandidates votes).2)) ∧
    ∀ (S : SortSlice) (hash : List Nat → List Nat),
      ∃ vc r, MkVoteCounter S votes = .ok vc ∧ vc.FindWinner S hash = .ok r := by
  refine ⟨?_, ?_, ?_⟩
  · rw [mkCandidates_snd, mkCandidates_length]; exact admitted_true_length_le votes
  · intro i _
    rw [mkCandidates_snd]; exact mkCandidates_willing votes i
  · intro S hash
    obtain ⟨vc, h1, hc⟩ := MkVoteCounter_spec S votes
    obtain ⟨r, h2, _, _⟩ := FindWinner_spec S hash hc
    exact ⟨vc, r, h1, h2⟩

theorem find?_congr_mem {α : Type} (p q : α → Bool) (l : List α)
    (h : ∀ x ∈ l, p x = q x) : l.find? p = l.find? q := by
  induction l with
  | nil => rfl
  | cons a l ih =>
    rw [List.find?_cons, List.find?_cons, h a (List.mem_cons_self _ _),
      ih (fun x hx => h x (List.mem_cons_of_mem _ hx))]

theorem mkCandidates_map_vote (votes : List Vote) :
    (mkCandidates votes).1.map (fun c => c.vote) = admittedVotes votes := by
  rw [mkCandidates_fst, List.map_map]
  conv => rhs; rw [← List.map_id (admittedVotes votes)]
  apply List.map_congr_left
  intro v _
  simp only [Function.comp, mkCandidates.resolve, mkCand]
  split <;> rfl

theorem admittedVotes_covers (votes : List Vote) (v : Vote) (hv : v ∈ votes) :
    ∃ a ∈ admittedVotes votes, a.VoterId = v.VoterId := by
  unfold admittedVotes
  by_cases hs : v.VoterId ∈ (admitted true [] votes).map (fun v => v.VoterId)
  · obtain ⟨a, ha, h⟩ := List.mem_map.1 hs
    exact ⟨a, List.mem_append_left _ ha, h⟩
  · cases hw : v.WillingCandidate with
    | true =>
      obtain ⟨a, ha, h⟩ := admitted_covers true [] votes v hv hw (by simp)
      exact ⟨a, List.mem_append_left _ ha, h⟩
    | false =>
      obtain ⟨a, ha, h⟩ := admitted_covers false _ votes v hv hw
        (fun h => hs (List.mem_reverse.1 h))
      exact ⟨a, List.mem_append_right _ ha, h⟩

theorem admittedVotes_firstFor (votes : List Vote) (a : Vote) (ha : a ∈ admittedVotes votes) :
    firstFor votes a.VoterId = some a := by
  unfold admittedVotes at ha
  unfold firstFor
  rcases List.mem_append.1 ha with h | h
  · rw [admitted_first true [] votes a h]
  · have hm := mem_admitted _ _ _ _ h
    have hnone : votes.find? (fun v => decide (v.WillingCandidate = true) &&
        decide (v.VoterId = a.VoterId)) = none := by
      rw [List.find?_eq_none]
      intro v hv hp
      simp only [Bool.and_eq_true, decide_eq_true_eq] at hp
      obtain ⟨b, hb, hid⟩ := admitted_covers true [] votes v hv hp.1 (by simp)
      apply hm.2.2
      rw [List.mem_reverse, List.mem_map]
      exact ⟨b, hb, hid.trans hp.2⟩
    rw [hnone]
    simp only
    rw [← admitted_first false _ votes a h]
    apply find?_congr_mem
    intro v hv
    cases hw : v.WillingCandidate with
    | false => simp
    | true =>
      have := List.find?_eq_none.1 hnone v hv
      simp only [hw, decide_True, Bool.true_and, decide_eq_true_eq] at this
      simp [this]

/-- C5, as stated, fails: on an unwilling vote followed by a willing vote with the same
`VoterId`, the candidate is derived from the second vote. -/
theorem first_vote_counterexample :
    ∃ c ∈ (mkCandidates votesDuplicate).1,
      votesDuplicate.find? (fun v => decide (v.VoterId = c.vote.VoterId)) ≠ some c.vote := by
  decide

/-- C5, amended: every identity that occurs in the input has exactly one candidate, and the
candidate is derived from the first willing vote with that identity if there is one, and
otherwise from the first vote with that identity; every other vote with the identity is
dropped. -/
theorem candidate_from_first_vote_of_pass (votes : List Vote) :
    ((mkCandidates votes).1.map (fun c => c.vote.VoterId)).Nodup ∧
    (∀ v ∈ votes, ∃ c ∈ (mkCandidates votes).1, c.vote.VoterId = v.VoterId) ∧
    (∀ c ∈ (mkCandidates votes).1, firstFor votes c.vote.VoterId = some c.vote) := by
  have hmap := mkCandidates_map_vote votes
  refine ⟨?_, ?_, ?_⟩
  · have : (mkCandidates votes).1.map (fun c => c.vote.VoterId) =
        ((mkCandidates votes).1.map (fun c => c.vote)).map (fun v => v.VoterId) := by
      rw [List.map_map]; rfl
    rw [this, hmap]
    exact admittedVotes_nodup votes
  · intro v hv
    obtain ⟨a, ha, hid⟩ := admittedVotes_covers votes v hv
    rw [← hmap] at ha
    obtain ⟨c, hc, rfl⟩ := List.mem_map.1 ha
    exact ⟨c, hc, hid⟩
  · intro c hc
    apply admittedVotes_firstFor
    rw [← hmap]
    exact List.mem_map.2 ⟨c, hc, rfl⟩

open Classical in
theorem sum_reach_split (e : Nat → Option Nat) (f : Nat → Nat) (n c : Nat) (hc : c < n) :
    (∑ d in (Finset.range n).filter (fun d => Reach e d c), f d) =
      f c + (((List.range n).filter (fun j => decide (c ≠ j ∧ Reach e j c))).map f).sum := by
  have hmem : c ∈ (Finset.range n).filter (fun d => Reach e d c) := by
    rw [Finset.mem_filter, Finset.mem_range]
    exact ⟨hc, Relation.ReflTransGen.refl⟩
  rw [← Finset.add_sum_erase _ _ hmem]
  congr 1
  have hnd : ((List.range n).filter (fun j => decide (c ≠ j ∧ Reach e j c))).Nodup :=
    (List.nodup_range n).filter _
  rw [← List.sum_toFinset f hnd]
  apply Finset.sum_congr _ (fun _ _ => rfl)
  ext x
  simp only [Finset.mem_erase, Finset.mem_filter, Finset.mem_range, List.mem_toFinset,
    List.mem_filter, List.mem_range, decide_eq_true_eq]
  constructor
  · rintro ⟨h1, h2, h3⟩; exact ⟨h2, fun h => h1 h.symm, h3⟩
  · rintro ⟨h1, h2, h3⟩; exact ⟨fun h => h2 h.symm, h1, h3⟩

open Classical in
/-- C6: after `MkVoteCounter`, the total of every candidate `c` equals, modulo 2^64, the
sum of `NumberOfVotes` over the candidates `d` from which `c` is reached by following zero
or more resolved `voteFor` edges (`d = c` included). -/
theorem total_is_sum_of_delegators (S : SortSlice) (votes : List Vote) :
    ∃ vc, MkVoteCounter S votes = .ok vc ∧
      ∀ c, c < vc.cand.length →
        (getC vc.cand c).totalIndirectVotes % u64 =
          (∑ d in (Finset.range vc.cand.length).filter
              (fun d => Reach (fun a => (getC vc.cand a).voteFor) d c),
            (getC vc.cand d).vote.NumberOfVotes) % u64 := by
  obtain ⟨vc, h1, hc⟩ := MkVoteCounter_spec S votes
  refine ⟨vc, h1, ?_⟩
  intro c hlt
  have := hc.total_eq c hlt
  have hs := sum_reach_split (edge vc.cand) (own vc.cand) vc.cand.length c hlt
  unfold total at this
  show _ = (∑ d in (Finset.range vc.cand.length).filter
      (fun d => Reach (edge vc.cand) d c), own vc.cand d) % u64
  rw [hs, this]
  split
  · rename_i hnil
    rw [hnil]; simp
  · rw [Nat.mod_mod]

theorem admitted_sum_le (f : Vote → Nat) (vs : List Vote) :
    ∀ s1 s2, ((admitted true s1 vs).map f).sum + ((admitted false s2 vs).map f).sum ≤
      (vs.map f).sum := by
  induction vs with
  | nil => intro s1 s2; simp [admitted]
  | cons v vs ih =>
    intro s1 s2
    cases hw : v.WillingCandidate with
    | true =>
      have h2 : admitted false s2 (v :: vs) = admitted false s2 vs := by
        simp [admitted, hw]
      rw [h2]
      by_cases hm : v.VoterId ∈ s1
      · have h1 : admitted true s1 (v :: vs) = admitted true s1 vs := by
          simp [admitted, hw, hm]
        have := ih s1 s2
        rw [h1]
        simp only [List.map_cons, List.sum_cons]
        omega
      · have h1 : admitted true s1 (v :: vs) = v :: admitted true (v.VoterId :: s1) vs := by
          simp [admitted, hw, hm]
        have := ih (v.VoterId :: s1) s2
        rw [h1]
        simp only [List.map_cons, List.sum_cons]
        omega
    | false =>
      have h1 : admitted true s1 (v :: vs) = admitted true s1 vs := by
        simp [admitted, hw]
      rw [h1]
      by_cases hm : v.VoterId ∈ s2
      · have h2 : admitted false s2 (v :: vs) = admitted false s2 vs := by
          simp [admitted, hw, hm]
        have := ih s1 s2
        rw [h2]
        simp only [List.map_cons, List.sum_cons]
        omega
      · have h2 : admitted false s2 (v :: vs) = v :: admitted false (v.VoterId :: s2) vs := by
          simp [admitted, hw, hm]
        have := ih s1 (v.VoterId :: s2)
        rw [h2]
        simp only [List.map_cons, List.sum_cons]
        omega

theorem admittedVotes_sum_le (votes : List Vote) :
    ((admittedVotes votes).map (fun v => v.NumberOfVotes)).sum ≤
      (votes.map (fun v => v.NumberOfVotes)).sum := by
  unfold admittedVotes
  rw [List.map_append, List.sum_append]
  exact admitted_sum_le _ votes _ _

theorem map_getD_range {α β : Type} (l : List α) (d : α) (f : α → β) :
    (List.range l.length).map (fun i => f (l.getD i d)) = l.map f := by
  apply List.ext_getElem
  · simp
  · intro i h1 h2
    simp only [List.getElem_map, List.getElem_range]
    rw [List.getD_eq_getElem]

theorem Counted.own_sum {votes : List Vote} {vc : VoteCounter} (hc : Counted votes vc) :
    ((List.range vc.cand.length).map (own vc.cand)).sum =
      ((admittedVotes votes).map (fun v => v.NumberOfVotes)).sum := by
  have : (List.range vc.cand.length).map (own vc.cand) =
      (List.range vc.cand.length).map
        (fun i => (fun v : Vote => v.NumberOfVotes) ((admittedVotes votes).getD i default)) := by
    apply List.map_congr_left
    intro i hi
    unfold own
    rw [hc.vote i (List.mem_range.1 hi)]
  rw [this, hc.len, map_getD_range]

open Classical in
theorem Counted.total_ge {votes : List Vote} {vc : VoteCounter} (hc : Counted votes vc)
    (hsum : (votes.map (fun v => v.NumberOfVotes)).sum < u64) (c : Nat)
    (hlt : c < vc.cand.length) : own vc.cand c ≤ total vc.cand c := by
  rw [hc.total_eq c hlt]
  split
  · exact Nat.le_refl _
  · have hs := sum_reach_split (edge vc.cand) (own vc.cand) vc.cand.length c hlt
    rw [← hs]
    have hle : (∑ d in (Finset.range vc.cand.length).filter
        (fun d => Reach (edge vc.cand) d c), own vc.cand d) ≤
        ∑ d in Finset.range vc.cand.length, own vc.cand d :=
      Finset.sum_le_sum_of_subset (Finset.filter_subset _ _)
    have hall : (∑ d in Finset.range vc.cand.length, own vc.cand d) =
        ((List.range vc.cand.length).map (own vc.cand)).sum := by
      rw [← List.sum_toFinset _ (List.nodup_range _)]
      exact Finset.sum_congr (by ext x; simp) (fun _ _ => rfl)
    have h3 := hc.own_sum
    have h4 := admittedVotes_sum_le votes
    rw [Nat.mod_eq_of_lt (by omega)]
    rw [hs]
    omega

/-- C7, as stated, fails: with weights 2^64 - 1 and 1 the total of the delegate wraps to 0,
below its own weight 1. -/
theorem total_ge_own_counterexample :
    ∃ vc, MkVoteCounter insertionSortSlice votesOverflow = .ok vc ∧
      ∃ c, c < vc.cand.length ∧
        (getC vc.cand c).totalIndirectVotes < (getC vc.cand c).vote.NumberOfVotes :=
  ⟨_, rfl, 1, by decide, by decide⟩

/-- C7, amended: when the weights of the input votes add up to less than 2^64, every
candidate of `MkVoteCounter(votes)` has `totalIndirectVotes ≥ vote.NumberOfVotes`. -/
theorem total_ge_own_without_overflow (S : SortSlice) (votes : List Vote)
    (hsum : (votes.map (fun v => v.NumberOfVotes)).sum < u64) :
    ∃ vc, MkVoteCounter S votes = .ok vc ∧
      ∀ c, c < vc.cand.length →
        (getC vc.cand c).vote.NumberOfVotes ≤ (getC vc.cand c).totalIndirectVotes := by
  obtain ⟨vc, h1, hc⟩ := MkVoteCounter_spec S votes
  exact ⟨vc, h1, fun c hlt => hc.total_ge hsum c hlt⟩

/-- C7, amended, on scenario S3 (weights 1, 5 and 1). -/
theorem total_ge_own_without_overflow_witness :
    (votesPatron.map (fun v => v.NumberOfVotes)).sum < u64 ∧
    ∃ vc, MkVoteCounter insertionSortSlice votesPatron = .ok vc ∧
      ∀ c, c < vc.cand.length →
        (getC vc.cand c).vote.NumberOfVotes ≤ (getC vc.cand c).totalIndirectVotes :=
  ⟨by decide, total_ge_own_without_overflow insertionSortSlice votesPatron (by decide)⟩

theorem slicesCompare_self (a : List Nat) : slicesCompare a a = 0 := by
  induction a with
  | nil => rfl
  | cons x xs ih => simp [slicesCompare, ih]

theorem slicesCompare_antisymm (a b : List Nat) : slicesCompare a b = - slicesCompare b a := by
  induction a generalizing b with
  | nil => cases b <;> simp [slicesCompare]
  | cons x xs ih =>
    cases b with
    | nil => simp [slicesCompare]
    | cons y ys =>
      simp only [slicesCompare]
      by_cases h1 : x < y
      · have h2 : ¬ y < x := by omega
        simp [h1, h2]
      · by_cases h2 : y < x
        · simp [h1, h2]
        · simp [h1, h2, ih ys]

theorem slicesCompare_trans (a b c : List Nat) (h1 : slicesCompare a b < 0)
    (h2 : slicesCompare b c < 0) : slicesCompare a c < 0 := by
  induction a generalizing b c with
  | nil =>
    cases b with
    | nil => simp [slicesCompare] at h1
    | cons y ys =>
      cases c with
      | nil => simp [slicesCompare] at h2
      | cons z zs => simp [slicesCompare]
  | cons x xs ih =>
    cases b with
    | nil => simp [slicesCompare] at h1
    | cons y ys =>
      cases c with
      | nil => simp [slicesCompare] at h2
      | cons z zs =>
        simp only [slicesCompare] at h1 h2 ⊢
        by_cases hxy : x < y
        · by_cases hyz : y < z
          · have : x < z := by omega
            simp [this]
          · by_cases hzy : z < y
            · simp [hyz, hzy] at h2
            · have : x < z := by omega
              simp [this]
        · by_cases hyx : y < x
          · simp [hxy, hyx] at h1
          · simp only [hxy, hyx, if_false] at h1
            by_cases hyz : y < z
            · have : x < z := by omega
              simp [this]
            · by_cases hzy : z < y
              · simp [hyz, hzy] at h2
              · simp only [hyz, hzy, if_false] at h2
                have e1 : ¬ x < z := by omega
                have e2 : ¬ z < x := by omega
                simp only [e1, e2, if_false]
                exact ih ys zs h1 h2

theorem slicesCompare_incomp (a b c : List Nat) (h1 : ¬ slicesCompare a b < 0)
    (h2 : ¬ slicesCompare b c < 0) : ¬ slicesCompare a c < 0 := by
  induction a generalizing b c with
  | nil =>
    cases b with
    | nil => exact h2
    | cons y ys => simp [slicesCompare] at h1
  | cons x xs ih =>
    cases c with
    | nil => simp [slicesCompare]
    | cons z zs =>
      cases b with
      | nil => simp [slicesCompare] at h2
      | cons y ys =>
        simp only [slicesCompare] at h1 h2 ⊢
        by_cases hxy : x < y
        · simp [hxy] at h1
        · by_cases hyz : y < z
          · simp [hyz] at h2
          · simp only [hxy, hyz, if_false] at h1 h2
            by_cases hzx : z < x
            · have : ¬ x < z := by omega
              simp [this, hzx]
            · have e1 : ¬ x < z := by omega
              have e2 : ¬ y < x := by omega
              have e3 : ¬ z < y := by omega
              simp only [e1, hzx, e2, e3, if_false] at h1 h2 ⊢
              exact ih ys zs h1 h2

theorem strictWeak_hash :
    StrictWeak (fun a b : List Nat × Nat => decide (slicesCompare a.1 b.1 < 0)) where
  irrefl := by intro a; simp [slicesCompare_self]
  trans := by
    intro a b c h1 h2
    simp only [decide_eq_true_eq] at h1 h2 ⊢
    exact slicesCompare_trans _ _ _ h1 h2
  incomp := by
    intro a b c h1 h2
    simp only [decide_eq_false_iff_not] at h1 h2 ⊢
    exact slicesCompare_incomp _ _ _ h1 h2

/-- The winner of a tie break over two or more candidates is a member with the smallest
key. -/
theorem tieBreaker_min_key (S : SortSlice) (hash : List Nat → List Nat)
    (H : List candidate) (winners : List Nat) (hlen : 2 ≤ winners.length) :
    ∃ w, w ∈ winners ∧ tieBreaker S hash H winners = .ok (some w) ∧
      ∀ c ∈ winners,
        slicesCompare (tieBreakerHash hash H w) (tieBreakerHash hash H c) ≤ 0 := by
  have hperm := S.perm (fun a b : List Nat × Nat => decide (slicesCompare a.1 b.1 < 0))
    (winners.map (fun c => (tieBreakerHash hash H c, c)))
  have hsorted := S.sorted (fun a b : List Nat × Nat => decide (slicesCompare a.1 b.1 < 0))
    (winners.map (fun c => (tieBreakerHash hash H c, c))) strictWeak_hash
  cases hs : S.run (fun a b : List Nat × Nat => decide (slicesCompare a.1 b.1 < 0))
    (winners.map (fun c => (tieBreakerHash hash H c, c))) with
  | nil =>
    rw [hs] at hperm
    have := hperm.length_eq
    simp at this
    omega
  | cons hc rest =>
    rw [hs] at hperm hsorted
    have hmem : hc ∈ winners.map (fun c => (tieBreakerHash hash H c, c)) :=
      hperm.subset (List.mem_cons_self _ _)
    obtain ⟨w, hw1, hw2⟩ := List.mem_map.1 hmem
    refine ⟨w, hw1, ?_, ?_⟩
    · match winners, hlen with
      | a :: b :: l, _ =>
        simp only [tieBreaker]
        rw [hs, ← hw2]
    · intro c hc'
      have hcm : (tieBreakerHash hash H c, c) ∈ hc :: rest :=
        hperm.symm.subset (List.mem_map.2 ⟨c, hc', rfl⟩)
      rcases List.mem_cons.1 hcm with h | h
      · rw [← hw2] at h
        have : tieBreakerHash hash H c = tieBreakerHash hash H w := by
          have := congrArg Prod.fst h; exact this
        rw [this, slicesCompare_self]
      · have := (List.pairwise_cons.1 hsorted).1 _ h
        simp only [decide_eq_false_iff_not] at this
        rw [← hw2] at this
        simp only at this
        rw [slicesCompare_antisymm]
        omega

/-- C8: `tieBreaker` returns `none` for no winner, the winner for one winner, and for two
or more winners a member of the list whose hash key is lexicographically less than or
equal to the key of every member. -/
theorem tieBreaker_smallest_hash (S : SortSlice) (hash : List Nat → List Nat)
    (H : List candidate) (winners : List Nat) :
    (winners = [] → tieBreaker S hash H winners = .ok none) ∧
    (∀ w, winners = [w] → tieBreaker S hash H winners = .ok (some w)) ∧
    (2 ≤ winners.length → ∃ w, w ∈ winners ∧ tieBreaker S hash H winners = .ok (some w) ∧
      ∀ c ∈ winners,
        slicesCompare
          (hash ((getC H w).vote.VoterId ++ putUint64 (getC H w).totalIndirectVotes))
          (hash ((getC H c).vote.VoterId ++ putUint64 (getC H c).totalIndirectVotes)) ≤ 0) := by
  refine ⟨?_, ?_, ?_⟩
  · rintro rfl; rfl
  · rintro w rfl; rfl
  · intro hlen
    exact tieBreaker_min_key S hash H winners hlen

/-- C8 on scenario S2: both candidates reach the total 20, and the tie break returns the
one whose key is the smaller. -/
theorem tieBreaker_smallest_hash_witness :
    ∃ vc, MkVoteCounter insertionSortSlice votesTie = .ok vc ∧
      (getC vc.cand 0).totalIndirectVotes = 20 ∧ (getC vc.cand 1).totalIndirectVotes = 20 ∧
      2 ≤ [1, 0].length ∧
      ∃ w, w ∈ [1, 0] ∧ tieBreaker insertionSortSlice idHash vc.cand [1, 0] = .ok (some w) ∧
        ∀ c ∈ [1, 0],
          slicesCompare
            (idHash ((getC vc.cand w).vote.VoterId ++
              putUint64 (getC vc.cand w).totalIndirectVotes))
            (idHash ((getC vc.cand c).vote.VoterId ++
              putUint64 (getC vc.cand c).totalIndirectVotes)) ≤ 0 :=
  ⟨_, rfl, by decide, by decide, by decide,
    (tieBreaker_smallest_hash insertionSortSlice idHash _ [1, 0]).2.2 (by decide)⟩

theorem renumber_spec (A B : List Vote) (hA : A.Nodup) (hp : A.Perm B) (i : Nat)
    (hi : i < A.length) :
    renumber A B i < A.length ∧ B.getD (renumber A B i) default = A.getD i default ∧
      renumber B A (renumber A B i) = i := by
  have hmem : A.getD i default ∈ B := hp.subset (getD_mem A i default hi)
  have hlt : B.indexOf (A.getD i default) < B.length := List.indexOf_lt_length.2 hmem
  have hget : B.getD (B.indexOf (A.getD i default)) default = A.getD i default := by
    rw [List.getD_eq_getElem _ _ hlt]
    exact List.getElem_indexOf hlt
  refine ⟨by rw [hp.length_eq]; exact hlt, hget, ?_⟩
  unfold renumber
  rw [hget, List.getD_eq_getElem _ _ hi]
  exact List.indexOf_getElem hA i hi

theorem admitted_eq_filter (w : Bool) (vs : List Vote) :
    ∀ seen, (vs.map (fun v => v.VoterId)).Nodup →
      (∀ v ∈ vs, v.WillingCandidate = w → v.VoterId ∉ seen) →
      admitted w seen vs = vs.filter (fun v => decide (v.WillingCandidate = w)) := by
  induction vs with
  | nil => intro _ _ _; rfl
  | cons v vs ih =>
    intro seen hnd hseen
    rw [List.map_cons, List.nodup_cons] at hnd
    unfold admitted
    by_cases hw : v.WillingCandidate = w
    · have hs := hseen v (List.mem_cons_self _ _) hw
      rw [if_pos ⟨hw, hs⟩, List.filter_cons_of_pos (by simpa using hw)]
      congr 1
      apply ih _ hnd.2
      intro u hu huw hmem
      rcases List.mem_cons.1 hmem with h | h
      · exact hnd.1 (List.mem_map.2 ⟨u, hu, h⟩)
      · exact hseen u (List.mem_cons_of_mem _ hu) huw h
    · rw [if_neg (fun h => hw h.1), List.filter_cons_of_neg (by simpa using hw)]
      exact ih _ hnd.2 (fun u hu => hseen u (List.mem_cons_of_mem _ hu))

theorem admittedVotes_eq_filter (votes : List Vote)
    (hnd : (votes.map (fun v => v.VoterId)).Nodup) :
    admitted true [] votes = votes.filter (fun v => decide (v.WillingCandidate = true)) ∧
    admittedVotes votes = votes.filter (fun v => decide (v.WillingCandidate = true)) ++
      votes.filter (fun v => decide (v.WillingCandidate = false)) := by
  have h1 := admitted_eq_filter true votes [] hnd (by simp)
  refine ⟨h1, ?_⟩
  unfold admittedVotes
  rw [h1]
  congr 1
  apply admitted_eq_filter false votes _ hnd
  intro v hv hw hmem
  rw [List.mem_reverse, List.mem_map] at hmem
  obtain ⟨u, hu, hid⟩ := hmem
  rw [List.mem_filter] at hu
  have : u = v := by
    have hinj := List.inj_on_of_nodup_map hnd
    exact hinj hu.1 hv hid
  subst this
  simp [hw] at hu

theorem admittedVotes_perm (votes votes1 : List Vote)
    (hnd : (votes.map (fun v => v.VoterId)).Nodup) (hp : votes.Perm votes1) :
    (admittedVotes votes).Perm (admittedVotes votes1) ∧
    (admitted true [] votes).length = (admitted true [] votes1).length ∧
    (admittedVotes votes).Nodup := by
  have hnd1 : (votes1.map (fun v => v.VoterId)).Nodup := (hp.map _).nodup_iff.1 hnd
  obtain ⟨a1, a2⟩ := admittedVotes_eq_filter votes hnd
  obtain ⟨b1, b2⟩ := admittedVotes_eq_filter votes1 hnd1
  refine ⟨?_, ?_, ?_⟩
  · rw [a2, b2]
    exact (hp.filter _).append (hp.filter _)
  · rw [a1, b1]
    exact (hp.filter _).length_eq
  · exact List.Nodup.of_map _ (admittedVotes_nodup votes)

theorem Counted.edge_spec {votes : List Vote} {vc : VoteCounter} (hc : Counted votes vc)
    (i : Nat) (hi : i < vc.cand.length) :
    edge vc.cand i =
      if ((admittedVotes votes).getD i default).VoteFor =
          ((admittedVotes votes).getD i default).VoterId then none
      else (entries 0 (admittedVotes votes)).reverse.lookup
        ((admittedVotes votes).getD i default).VoteFor := by
  rw [hc.edge_eq]
  unfold edge
  rw [mkCandidates_getC votes i (by rw [← hc.len]; exact hi)]
  unfold mkCandidates.resolve
  simp only [mkCand]
  split <;> rfl

theorem Counted.willing_vote {votes : List Vote} {vc : VoteCounter} (hc : Counted votes vc)
    (i : Nat) (hi : i < vc.cand.length) :
    (getC vc.cand i).vote.WillingCandidate = true ↔ i < vc.totalWillingCandidates := by
  rw [hc.vote i hi, admittedVotes_getD_willing votes i (by rw [← hc.len]; exact hi), hc.tw]
  simp

theorem iso_of_perm {votes votes1 : List Vote} {vc vc1 : VoteCounter}
    (hnd : (votes.map (fun v => v.VoterId)).Nodup) (hp : votes.Perm votes1)
    (hc : Counted votes vc) (hc1 : Counted votes1 vc1) :
    Iso vc vc1 (renumber (admittedVotes votes) (admittedVotes votes1))
      (renumber (admittedVotes votes1) (admittedVotes votes)) := by
  obtain ⟨hperm, htw, hAnd⟩ := admittedVotes_perm votes votes1 hnd hp
  have hnd1 : (votes1.map (fun v => v.VoterId)).Nodup := (hp.map _).nodup_iff.1 hnd
  obtain ⟨_, _, hAnd1⟩ := admittedVotes_perm votes1 votes hnd1 hp.symm
  have hlen : vc1.cand.length = vc.cand.length := by
    rw [hc.len, hc1.len, hperm.length_eq]
  have hσ := fun i (hi : i < vc.cand.length) =>
    renumber_spec _ _ hAnd hperm i (by rw [← hc.len]; exact hi)
  have hτ := fun j (hj : j < vc.cand.length) =>
    renumber_spec _ _ hAnd1 hperm.symm j (by rw [← hc1.len, hlen]; exact hj)
  have hσlt : ∀ i, i < vc.cand.length →
      renumber (admittedVotes votes) (admittedVotes votes1) i < vc.cand.length := by
    intro i hi; rw [hc.len]; exact (hσ i hi).1
  refine ⟨hlen, by rw [hc.tw, hc1.tw, htw], hσlt, ?_, fun i hi => (hσ i hi).2.2,
    fun j hj => (hτ j hj).2.2, ?_, ?_⟩
  · intro j hj; have := (hτ j hj).1; rw [← hc1.len, hlen] at this; exact this
  · intro i hi
    rw [hc1.vote _ (by rw [hlen]; exact hσlt i hi), hc.vote i hi]
    exact (hσ i hi).2.1
  · intro i hi
    rw [hc1.edge_spec _ (by rw [hlen]; exact hσlt i hi), hc.edge_spec i hi, (hσ i hi).2.1]
    split
    · rfl
    · cases hl : (entries 0 (admittedVotes votes)).reverse.lookup
          ((admittedVotes votes).getD i default).VoteFor with
      | none =>
        rw [lookup_entries_none] at hl
        simp only [Option.map_none']
        rw [lookup_entries_none]
        intro v hv
        exact hl v (hperm.symm.subset hv)
      | some j =>
        have hj := (lookup_entries _ (admittedVotes_nodup votes) _ _).1 hl
        simp only [Option.map_some']
        rw [lookup_entries _ (admittedVotes_nodup votes1)]
        have hj' := hσ j (by rw [hc.len]; exact hj.1)
        refine ⟨by rw [← hperm.length_eq]; exact hj'.1, ?_⟩
        rw [hj'.2.1]; exact hj.2

theorem Iso.swap {vc vc1 : VoteCounter} {σ τ : Nat → Nat} (h : Iso vc vc1 σ τ)
    (hedge : ∀ a b, edge vc.cand a = some b → b < vc.cand.length) :
    Iso vc1 vc τ σ := by
  refine ⟨h.len.symm, h.tw.symm, ?_, ?_, ?_, ?_, ?_, ?_⟩
  · intro j hj; rw [h.len] at hj ⊢; exact h.τ_lt j hj
  · intro i hi; rw [h.len] at hi ⊢; exact h.σ_lt i hi
  · intro j hj; rw [h.len] at hj; exact h.στ j hj
  · intro i hi; rw [h.len] at hi; exact h.τσ i hi
  · intro j hj
    rw [h.len] at hj
    have := h.vote_eq (τ j) (h.τ_lt j hj)
    rw [h.στ j hj] at this
    exact this.symm
  · intro j hj
    rw [h.len] at hj
    have := h.edge_map (τ j) (h.τ_lt j hj)
    rw [h.στ j hj] at this
    rw [this]
    cases he : edge vc.cand (τ j) with
    | none => rfl
    | some b =>
      simp only [Option.map_some']
      rw [h.τσ b (hedge _ _ he)]

theorem sum_filter_renumber (n : Nat) (σ τ : Nat → Nat) (P P1 : Nat → Bool) (f f1 : Nat → Nat)
    (hσ : ∀ i, i < n → σ i < n) (hτ : ∀ j, j < n → τ j < n)
    (hτσ : ∀ i, i < n → τ (σ i) = i) (hστ : ∀ j, j < n → σ (τ j) = j)
    (hP : ∀ i, i < n → P1 (σ i) = P i) (hf : ∀ i, i < n → f1 (σ i) = f i) :
    (((List.range n).filter P).map f).sum = (((List.range n).filter P1).map f1).sum ∧
    ((List.range n).filter P = [] ↔ (List.range n).filter P1 = []) := by
  constructor
  · rw [← List.sum_toFinset f ((List.nodup_range n).filter _),
      ← List.sum_toFinset f1 ((List.nodup_range n).filter _)]
    apply Finset.sum_bij (fun i _ => σ i)
    · intro a ha
      simp only [List.mem_toFinset, List.mem_filter, List.mem_range] at ha ⊢
      exact ⟨hσ a ha.1, by rw [hP a ha.1]; exact ha.2⟩
    · intro a ha b hb hab
      simp only [List.mem_toFinset, List.mem_filter, List.mem_range] at ha hb
      have := congrArg τ hab
      rwa [hτσ a ha.1, hτσ b hb.1] at this
    · intro b hb
      simp only [List.mem_toFinset, List.mem_filter, List.mem_range] at hb
      refine ⟨τ b, ?_, hστ b hb.1⟩
      simp only [List.mem_toFinset, List.mem_filter, List.mem_range]
      refine ⟨hτ b hb.1, ?_⟩
      rw [← hP (τ b) (hτ b hb.1), hστ b hb.1]; exact hb.2
    · intro a ha
      simp only [List.mem_toFinset, List.mem_filter, List.mem_range] at ha
      exact (hf a ha.1).symm
  · simp only [List.filter_eq_nil_iff, List.mem_range]
    constructor
    · intro h j hj
      have := h (τ j) (hτ j hj)
      rwa [← hP (τ j) (hτ j hj), hστ j hj] at this
    · intro h i hi
      have := h (σ i) (hσ i hi)
      rwa [hP i hi] at this

theorem Iso.reach {vc vc1 : VoteCounter} {σ τ : Nat → Nat} (h : Iso vc vc1 σ τ)
    (hedge : ∀ a b, edge vc.cand a = some b → b < vc.cand.length) (a b : Nat)
    (ha : a < vc.cand.length) (hr : Reach (edge vc.cand) a b) :
    Reach (edge vc1.cand) (σ a) (σ b) ∧ b < vc.cand.length := by
  induction hr with
  | refl => exact ⟨Relation.ReflTransGen.refl, ha⟩
  | tail _ hstep ih =>
    refine ⟨Relation.ReflTransGen.tail ih.1 ?_, hedge _ _ hstep⟩
    show Electorium.edge vc1.cand _ = _
    rw [h.edge_map _ ih.2, hstep]; rfl

theorem Iso.reach_iff {vc vc1 : VoteCounter} {σ τ : Nat → Nat} (h : Iso vc vc1 σ τ)
    (hedge : ∀ a b, edge vc.cand a = some b → b < vc.cand.length)
    (hedge1 : ∀ a b, edge vc1.cand a = some b → b < vc1.cand.length) (a b : Nat)
    (ha : a < vc.cand.length) (hb : b < vc.cand.length) :
    Reach (edge vc1.cand) (σ a) (σ b) ↔ Reach (edge vc.cand) a b := by
  constructor
  · intro hr
    have := ((h.swap hedge).reach hedge1 (σ a) (σ b) (by rw [h.len]; exact h.σ_lt a ha) hr).1
    rwa [h.τσ a ha, h.τσ b hb] at this
  · intro hr; exact (h.reach hedge a b ha hr).1

theorem Iso.own_eq {vc vc1 : VoteCounter} {σ τ : Nat → Nat} (h : Iso vc vc1 σ τ) (i : Nat)
    (hi : i < vc.cand.length) : own vc1.cand (σ i) = own vc.cand i := by
  unfold own; rw [h.vote_eq i hi]

open Classical in
theorem Iso.total_map {votes votes1 : List Vote} {vc vc1 : VoteCounter} {σ τ : Nat → Nat}
    (h : Iso vc vc1 σ τ) (hc : Counted votes vc) (hc1 : Counted votes1 vc1) (c : Nat)
    (hlt : c < vc.cand.length) : total vc1.cand (σ c) = total vc.cand c := by
  have hedge := fun a b hab => (hc.edge_lt a b hab).1
  have hedge1 := fun a b hab => (hc1.edge_lt a b hab).1
  rw [hc.total_eq c hlt, hc1.total_eq (σ c) (by rw [h.len]; exact h.σ_lt c hlt), h.len,
    h.own_eq c hlt]
  obtain ⟨h1, h2⟩ := sum_filter_renumber vc.cand.length σ τ
    (fun j => decide (c ≠ j ∧ Reach (Electorium.edge vc.cand) j c))
    (fun j => decide (σ c ≠ j ∧ Reach (Electorium.edge vc1.cand) j (σ c)))
    (own vc.cand) (own vc1.cand) h.σ_lt h.τ_lt h.τσ h.στ
    (by intro i hi
        have e1 : (σ c ≠ σ i) ↔ (c ≠ i) := by
          constructor
          · intro hne heq; exact hne (by rw [heq])
          · intro hne heq
            have := congrArg τ heq
            rw [h.τσ c hlt, h.τσ i hi] at this
            exact hne this
        have e2 := h.reach_iff hedge hedge1 i c hi hlt
        simp only [e1, e2])
    (fun i hi => h.own_eq i hi)
  by_cases hnil : (List.range vc.cand.length).filter
      (fun j => decide (c ≠ j ∧ Reach (Electorium.edge vc.cand) j c)) = []
  · rw [if_pos hnil, if_pos (h2.1 hnil)]
  · rw [if_neg hnil, if_neg (fun hh => hnil (h2.2 hh)), h1]

theorem takeWhile_append_dropWhile_sorted (f : Nat → Nat) (m : Nat) (L : List Nat)
    (hs : L.Pairwise (fun a b => f b ≤ f a)) (hm : ∀ x ∈ L, f x ≤ m) :
    (∀ x, x ∈ L.takeWhile (fun a => decide (f a = m)) ↔ x ∈ L ∧ f x = m) ∧
    (∀ x, x ∈ L.dropWhile (fun a => decide (f a = m)) ↔ x ∈ L ∧ f x ≠ m) := by
  induction L with
  | nil => simp
  | cons a L ih =>
    rw [List.pairwise_cons] at hs
    obtain ⟨ih1, ih2⟩ := ih hs.2 (fun x hx => hm x (List.mem_cons_of_mem _ hx))
    by_cases ha : f a = m
    · rw [List.takeWhile_cons_of_pos (by simpa using ha),
        List.dropWhile_cons_of_pos (by simpa using ha)]
      constructor
      · intro x
        simp only [List.mem_cons, ih1]
        constructor
        · rintro (rfl | h)
          · exact ⟨Or.inl rfl, ha⟩
          · exact ⟨Or.inr h.1, h.2⟩
        · rintro ⟨rfl | h, h2⟩
          · exact Or.inl rfl
          · exact Or.inr ⟨h, h2⟩
      · intro x
        rw [ih2]
        simp only [List.mem_cons]
        constructor
        · rintro ⟨h1, h2⟩; exact ⟨Or.inr h1, h2⟩
        · rintro ⟨rfl | h, h2⟩
          · exact absurd ha h2
          · exact ⟨h, h2⟩
    · rw [List.takeWhile_cons_of_neg (by simpa using ha),
        List.dropWhile_cons_of_neg (by simpa using ha)]
      have hlt : ∀ x ∈ a :: L, f x ≠ m := by
        intro x hx
        rcases List.mem_cons.1 hx with rfl | hx
        · exact ha
        · have := hs.1 x hx
          have := hm a (List.mem_cons_self _ _)
          omega
      constructor
      · intro x
        simp only [List.not_mem_nil, false_iff, not_and]
        intro hx; exact hlt x hx
      · intro x
        constructor
        · intro hx; exact ⟨hx, hlt x hx⟩
        · intro hx; exact hx.1

theorem ChainFrom_append_right (H : List candidate) (X Y : List Nat) (p : Option Nat)
    (hc : ChainFrom H p (X ++ Y)) : ChainFrom H Y.head? Y := by
  cases Y with
  | nil => rfl
  | cons y Y => exact ⟨rfl, ChainFrom_suffix H X Y p hc⟩

theorem topTier_spec {votes : List Vote} {vc : VoteCounter} (hc : Counted votes vc) (b : Nat)
    (hb : vc.best = some b) :
    ∃ T E, TopTier vc T E ∧
      getBestCandidates.loop vc.cand (getC vc.cand b).totalIndirectVotes
        (vc.cand.length + 1) (some b) [] = .ok T := by
  obtain ⟨L, hL, hch, hsorted⟩ := hc.chain
  rw [hb] at hch
  obtain ⟨L', rfl⟩ := ChainFrom_some _ _ _ hch
  have htw := hc.tw_le
  have hlenL : (b :: L').length = vc.totalWillingCandidates := by
    rw [hL.length_eq, List.length_range]
  have hLmem : ∀ x, x ∈ b :: L' ↔ x < vc.totalWillingCandidates := by
    intro x; rw [hL.mem_iff, List.mem_range]
  have hLnd : (b :: L').Nodup := hL.nodup_iff.2 (List.nodup_range _)
  have hmax : ∀ x ∈ b :: L', total vc.cand x ≤ total vc.cand b := by
    intro x hx
    rcases List.mem_cons.1 hx with rfl | hx
    · exact Nat.le_refl _
    · exact (List.pairwise_cons.1 hsorted).1 x hx
  obtain ⟨m1, m2⟩ := takeWhile_append_dropWhile_sorted (total vc.cand) (total vc.cand b)
    (b :: L') hsorted hmax
  have hsplit : (b :: L').takeWhile (fun a => decide (total vc.cand a = total vc.cand b)) ++
      (b :: L').dropWhile (fun a => decide (total vc.cand a = total vc.cand b)) = b :: L' :=
    List.takeWhile_append_dropWhile _ _
  generalize hT : (b :: L').takeWhile (fun a => decide (total vc.cand a = total vc.cand b)) = T
    at m1 hsplit
  generalize hE : (b :: L').dropWhile (fun a => decide (total vc.cand a = total vc.cand b)) = E
    at m2 hsplit
  have hbT : b ∈ T := (m1 b).2 ⟨List.mem_cons_self _ _, rfl⟩
  have hndTE : (T ++ E).Nodup := by rw [hsplit]; exact hLnd
  have hET : ∀ x, x ∈ E → x ∉ T := by
    intro x hx hxT
    exact (m2 x).1 hx |>.2 ((m1 x).1 hxT).2
  refine ⟨T, E, ?_, ?_⟩
  · refine ⟨List.ne_nil_of_mem hbT, (List.nodup_append.1 hndTE).1, ?_,
      (List.nodup_append.1 hndTE).2.1, ?_, ?_, ?_, ?_⟩
    · intro x
      rw [m1, hLmem]
      constructor
      · rintro ⟨h1, h2⟩
        refine ⟨h1, fun y hy => ?_⟩
        rw [h2]; exact hmax y ((hLmem y).2 hy)
      · rintro ⟨h1, h2⟩
        refine ⟨h1, ?_⟩
        have := h2 b ((hLmem b).1 (List.mem_cons_self _ _))
        have := hmax x ((hLmem x).2 h1)
        omega
    · intro x
      rw [m2, hLmem]
      constructor
      · rintro ⟨h1, h2⟩
        exact ⟨h1, fun hxT => h2 ((m1 x).1 hxT).2⟩
      · rintro ⟨h1, h2⟩
        exact ⟨h1, fun heq => h2 ((m1 x).2 ⟨(hLmem x).2 h1, heq⟩)⟩
    · rw [← hE]
      exact hsorted.sublist (List.dropWhile_sublist _)
    · rw [← hsplit] at hch
      exact ChainFrom_append_right _ _ _ _ hch
    · intro W hW
      obtain ⟨T1, T2, hT12⟩ := List.append_of_mem hW
      have hch2 : ChainFrom vc.cand (getC vc.cand W).nextByTotalIndirectVotes (T2 ++ E) := by
        rw [← hsplit, hT12, List.append_assoc, List.cons_append] at hch
        exact ChainFrom_suffix _ _ _ _ hch
      have hlen : (T2 ++ E).length < vc.cand.length + 1 := by
        have := congrArg List.length hsplit
        rw [hT12] at this
        simp only [List.length_append, List.length_cons] at this hlenL ⊢
        omega
      unfold getRunnerUp
      rw [getRunnerUp_loop_spec vc.cand T (T2 ++ E) _ _ hch2 hlen, List.find?_append]
      have h1 : T2.find? (fun a => !T.contains a) = none := by
        rw [List.find?_eq_none]
        intro x hx
        have : x ∈ T := by rw [hT12]; simp [hx]
        simp [this]
      rw [h1]
      cases E with
      | nil => rfl
      | cons e E =>
        have : e ∉ T := hET e (List.mem_cons_self _ _)
        simp [List.find?_cons, this]
  · have := getBestCandidates_loop_spec vc.cand (getC vc.cand b).totalIndirectVotes (b :: L')
      (vc.cand.length + 1) (some b) [] hch (by omega)
    rw [this, List.nil_append]
    exact congrArg Except.ok hT

theorem score_fold (t : Nat → Nat) (ring : List Nat) (l : List Nat) :
    ∀ s0, l.foldl (fun score vfm =>
        if !ring.contains vfm then (score + t vfm) % u64 else score) s0 =
      if l.filter (fun v => !ring.contains v) = [] then s0
      else (s0 + ((l.filter (fun v => !ring.contains v)).map t).sum) % u64 := by
  induction l with
  | nil => intro s0; rfl
  | cons a l ih =>
    intro s0
    rw [List.foldl_cons, ih]
    by_cases ha : ring.contains a = true
    · simp only [ha, Bool.not_true, Bool.false_eq_true, if_false]
      rw [List.filter_cons_of_neg (by rw [ha]; simp)]
    · have ha' : ring.contains a = false := by simpa using ha
      simp only [ha', Bool.not_false, if_true]
      rw [List.filter_cons_of_pos (by rw [ha']; simp)]
      simp only [List.cons_ne_nil, if_false, List.map_cons, List.sum_cons]
      split
      · rename_i hnil
        rw [hnil]; simp
      · rw [Nat.add_mod, Nat.mod_mod, ← Nat.add_mod, Nat.add_assoc]

theorem bestOfRing_score_eq (H : List candidate) (ring : List Nat) (c : Nat) :
    bestOfRing.score H ring c =
      if (getC H c).votedForMe.filter (fun v => !ring.contains v) = [] then own H c
      else (own H c + (((getC H c).votedForMe.filter (fun v => !ring.contains v)).map
        (total H)).sum) % u64 := by
  unfold bestOfRing.score
  exact score_fold (total H) ring _ _

theorem bestOfRing_select_inv (s : Nat → Nat) (l : List Nat) :
    ∀ (P : List Nat) (wc : Nat) (out : List Nat),
      out = P.filter (fun c => decide (s c = wc)) → (∀ d ∈ P, s d ≤ wc) →
      (wc = 0 ∨ ∃ d ∈ P, s d = wc) →
      ∃ wc', ((l.map (fun c => (c, s c))).foldl (fun (st : Nat × List Nat) cs =>
          if cs.2 ≥ st.1 then
            let st1 := if cs.2 > st.1 then (cs.2, []) else st
            (st1.1, st1.2 ++ [cs.1])
          else st) (wc, out)).2 = (P ++ l).filter (fun c => decide (s c = wc')) ∧
        (∀ d ∈ P ++ l, s d ≤ wc') ∧ (wc' = 0 ∨ ∃ d ∈ P ++ l, s d = wc') := by
  induction l with
  | nil =>
    intro P wc out h1 h2 h3
    exact ⟨wc, by simpa using h1, by simpa using h2, by simpa using h3⟩
  | cons c l ih =>
    intro P wc out h1 h2 h3
    rw [List.map_cons, List.foldl_cons]
    have happ : P ++ c :: l = (P ++ [c]) ++ l := by simp
    rw [happ]
    by_cases hge : s c ≥ wc
    · by_cases hgt : s c > wc
      · simp only [hge, hgt, if_true, List.nil_append]
        apply ih (P ++ [c]) (s c) [c]
        · rw [List.filter_append]
          have : P.filter (fun d => decide (s d = s c)) = [] := by
            rw [List.filter_eq_nil_iff]
            intro d hd
            have := h2 d hd
            simp; omega
          rw [this]; simp
        · intro d hd
          rcases List.mem_append.1 hd with h | h
          · have := h2 d h; omega
          · simp at h; subst h; exact Nat.le_refl _
        · exact Or.inr ⟨c, by simp, rfl⟩
      · have heq : s c = wc := by omega
        simp only [hge, hgt, if_true, if_false]
        apply ih (P ++ [c]) wc (out ++ [c])
        · rw [List.filter_append, h1]; simp [heq]
        · intro d hd
          rcases List.mem_append.1 hd with h | h
          · exact h2 d h
          · simp at h; subst h; omega
        · exact Or.inr ⟨c, by simp, heq⟩
    · simp only [hge, if_false]
      apply ih (P ++ [c]) wc out
      · rw [List.filter_append, h1]
        have : ¬ s c = wc := by omega
        simp [this]
      · intro d hd
        rcases List.mem_append.1 hd with h | h
        · exact h2 d h
        · simp at h; subst h; omega
      · rcases h3 with h | ⟨d, hd, h⟩
        · omega
        · exact Or.inr ⟨d, List.mem_append_left _ hd, h⟩

theorem bestOfRing_spec (H : List candidate) (ring : List Nat) :
    (ring.Nodup → (bestOfRing H ring).Nodup) ∧
    ∀ c, c ∈ bestOfRing H ring ↔
      c ∈ ring ∧ ∀ d ∈ ring, bestOfRing.score H ring d ≤ bestOfRing.score H ring c := by
  obtain ⟨wc, h1, h2, h3⟩ := bestOfRing_select_inv (bestOfRing.score H ring) ring [] 0 []
    rfl (by simp) (Or.inl rfl)
  simp only [List.nil_append] at h1 h2 h3
  have hb : bestOfRing H ring =
      ring.filter (fun c => decide (bestOfRing.score H ring c = wc)) := h1
  rw [hb]
  refine ⟨fun hnd => hnd.filter _, ?_⟩
  intro c
  simp only [List.mem_filter, decide_eq_true_eq]
  constructor
  · rintro ⟨hc, heq⟩
    exact ⟨hc, fun d hd => by rw [heq]; exact h2 d hd⟩
  · rintro ⟨hc, hmax⟩
    refine ⟨hc, ?_⟩
    have := h2 c hc
    rcases h3 with h | ⟨d, hd, h⟩
    · omega
    · have := hmax d hd; omega

theorem getPotentialPatron_inv (H : List candidate) (T : List Nat) (l : List Nat) :
    ∀ (P : List Nat) (st : Nat × Option Nat),
      (st.2 = none → st.1 = 0 ∧ ∀ x ∈ P, x ∉ T → total H x = 0) →
      (∀ p, st.2 = some p → st.1 = total H p ∧ 0 < total H p ∧ p ∉ T ∧
        ∃ P1 P2, P = P1 ++ p :: P2 ∧ (∀ x ∈ P1, x ∉ T → total H x < total H p) ∧
          (∀ x ∈ P2, x ∉ T → total H x ≤ total H p)) →
      ((l.foldl (fun (st : Nat × Option Nat) vfm =>
          if T.contains vfm then st
          else if (getC H vfm).totalIndirectVotes > st.1 then
            ((getC H vfm).totalIndirectVotes, some vfm)
          else st) st).2 = none → ∀ x ∈ P ++ l, x ∉ T → total H x = 0) ∧
      (∀ p, (l.foldl (fun (st : Nat × Option Nat) vfm =>
          if T.contains vfm then st
          else if (getC H vfm).totalIndirectVotes > st.1 then
            ((getC H vfm).totalIndirectVotes, some vfm)
          else st) st).2 = some p → 0 < total H p ∧ p ∉ T ∧
        ∃ P1 P2, P ++ l = P1 ++ p :: P2 ∧ (∀ x ∈ P1, x ∉ T → total H x < total H p) ∧
          (∀ x ∈ P2, x ∉ T → total H x ≤ total H p)) := by
  induction l with
  | nil =>
    intro P st h1 h2
    simp only [List.foldl_nil, List.append_nil]
    exact ⟨fun h => (h1 h).2, fun p hp => (h2 p hp).2⟩
  | cons a l ih =>
    intro P st h1 h2
    rw [List.foldl_cons]
    have happ : P ++ a :: l = (P ++ [a]) ++ l := by simp
    rw [happ]
    apply ih (P ++ [a])
    · intro hnone
      by_cases ha : T.contains a = true
      · rw [if_pos ha] at hnone ⊢
        obtain ⟨e1, e2⟩ := h1 hnone
        refine ⟨e1, ?_⟩
        intro x hx hxT
        rcases List.mem_append.1 hx with h | h
        · exact e2 x h hxT
        · simp at h; subst h; exact absurd (by simpa using ha) hxT
      · rw [if_neg ha] at hnone ⊢
        by_cases hgt : (getC H a).totalIndirectVotes > st.1
        · rw [if_pos hgt] at hnone; cases hnone
        · rw [if_neg hgt] at hnone ⊢
          obtain ⟨e1, e2⟩ := h1 hnone
          refine ⟨e1, ?_⟩
          intro x hx hxT
          rcases List.mem_append.1 hx with h | h
          · exact e2 x h hxT
          · simp at h; subst h; unfold total; omega
    · intro p hp
      by_cases ha : T.contains a = true
      · rw [if_pos ha] at hp ⊢
        obtain ⟨e1, e2, e3, P1, P2, e4, e5, e6⟩ := h2 p hp
        refine ⟨e1, e2, e3, P1, P2 ++ [a], by rw [e4]; simp, e5, ?_⟩
        intro x hx hxT
        rcases List.mem_append.1 hx with h | h
        · exact e6 x h hxT
        · simp at h; subst h; exact absurd (by simpa using ha) hxT
      · have haT : a ∉ T := by simpa using ha
        rw [if_neg ha] at hp ⊢
        by_cases hgt : (getC H a).totalIndirectVotes > st.1
        · rw [if_pos hgt] at hp ⊢
          simp only [Option.some.injEq] at hp
          subst hp
          refine ⟨rfl, by unfold total; omega, haT, P, [], rfl, ?_, by simp⟩
          intro x hx hxT
          cases hst : st.2 with
          | none =>
            obtain ⟨e1, e2⟩ := h1 hst
            rw [e2 x hx hxT]; unfold total; omega
          | some q =>
            obtain ⟨e1, e2, e3, P1, P2, e4, e5, e6⟩ := h2 q hst
            have hq : total H x ≤ total H q := by
              rw [e4] at hx
              rcases List.mem_append.1 hx with h | h
              · exact Nat.le_of_lt (e5 x h hxT)
              · rcases List.mem_cons.1 h with h | h
                · subst h; exact Nat.le_refl _
                · exact e6 x h hxT
            unfold total at hq e1 ⊢; omega
        · rw [if_neg hgt] at hp ⊢
          obtain ⟨e1, e2, e3, P1, P2, e4, e5, e6⟩ := h2 p hp
          refine ⟨e1, e2, e3, P1, P2 ++ [a], by rw [e4]; simp, e5, ?_⟩
          intro x hx hxT
          rcases List.mem_append.1 hx with h | h
          · exact e6 x h hxT
          · simp at h; subst h; unfold total at e1 ⊢; omega

theorem getPotentialPatron_none (H : List candidate) (c : Nat) (T : List Nat)
    (h : getPotentialPatron H c T = none) :
    ∀ x ∈ (getC H c).votedForMe, x ∉ T → total H x = 0 := by
  have := (getPotentialPatron_inv H T (getC H c).votedForMe [] (0, none)
    (fun _ => ⟨rfl, by simp⟩) (fun p hp => by cases hp)).1 h
  simpa using this

theorem getPotentialPatron_max (H : List candidate) (c : Nat) (T : List Nat) (p : Nat)
    (hsorted : (getC H c).votedForMe.Pairwise (· < ·))
    (h : getPotentialPatron H c T = some p) :
    p ∈ (getC H c).votedForMe ∧ p ∉ T ∧ 0 < total H p ∧
      (∀ x ∈ (getC H c).votedForMe, x ∉ T → total H x ≤ total H p) ∧
      (∀ x ∈ (getC H c).votedForMe, x ∉ T → x < p → total H x < total H p) := by
  obtain ⟨e2, e3, P1, P2, e4, e5, e6⟩ := (getPotentialPatron_inv H T (getC H c).votedForMe []
    (0, none) (fun _ => ⟨rfl, by simp⟩) (fun p hp => by cases hp)).2 p h
  rw [List.nil_append] at e4
  rw [e4] at hsorted ⊢
  refine ⟨by simp, e3, e2, ?_, ?_⟩
  · intro x hx hxT
    rcases List.mem_append.1 hx with h | h
    · exact Nat.le_of_lt (e5 x h hxT)
    · rcases List.mem_cons.1 h with h | h
      · subst h; exact Nat.le_refl _
      · exact e6 x h hxT
  · intro x hx hxT hlt
    rcases List.mem_append.1 hx with h | h
    · exact e5 x h hxT
    · rw [List.pairwise_append] at hsorted
      rcases List.mem_cons.1 h with h | h
      · omega
      · have := (List.pairwise_cons.1 hsorted.2.1).1 x h
        omega

theorem Counted.vfm_sorted {votes : List Vote} {vc : VoteCounter} (hc : Counted votes vc)
    (c : Nat) : (getC vc.cand c).votedForMe.Pairwise (· < ·) := by
  rw [hc.vfm c]
  exact (List.pairwise_lt_range _).filter _

theorem isValidPatron_iff (H : List candidate) (W pp : Nat) (ru : Option Nat) :
    isValidPatron H W pp ru = true ↔
      (getC H pp).willingCandidate = true ∧ total H W / 2 < total H pp ∧
        ∀ r, ru = some r → total H r < total H pp := by
  unfold isValidPatron total
  cases hw : (getC H pp).willingCandidate with
  | false => simp
  | true =>
    simp only [Bool.not_true, Bool.false_eq_true, if_false, true_and]
    by_cases hm : (getC H pp).totalIndirectVotes ≤ (getC H W).totalIndirectVotes / 2
    · simp only [hm, if_true]
      constructor
      · intro h; cases h
      · intro h; omega
    · simp only [hm, if_false]
      cases ru with
      | none => simp; omega
      | some r =>
        simp only [Option.some.injEq, forall_eq']
        by_cases hr : (getC H pp).totalIndirectVotes ≤ (getC H r).totalIndirectVotes
        · simp only [hr, if_true]
          constructor
          · intro h; cases h
          · intro h; omega
        · simp only [hr, if_false, true_iff]
          omega

theorem RunnerInv.step {votes : List Vote} {vc : VoteCounter} (hc : Counted votes vc)
    {T trail : List Nat} {ru : Option Nat} {E : List Nat} (hinv : RunnerInv vc T trail ru E)
    (W pp : Nat) (hpT : pp ∉ T) (hpt : pp ∉ trail) :
    (isValidPatron vc.cand W pp
        (getPatron.advance vc.cand ru pp) = true ↔
      PatronOK vc.cand vc.totalWillingCandidates T trail W pp) ∧
    (isValidPatron vc.cand W pp
        (getPatron.advance vc.cand ru pp) = true →
      RunnerInv vc T (pp :: trail)
        (getPatron.advance vc.cand ru pp) E.tail) := by
  obtain ⟨hch, hsorted, hnd, hmem⟩ := hinv
  have hwill : (getC vc.cand pp).willingCandidate = true → pp ∈ E := fun h =>
    (hmem pp).2 ⟨(hc.willing pp).1 h, hpT, hpt⟩
  cases E with
  | nil =>
    have hru : ru = none := hch
    subst hru
    have hno : ¬ (getC vc.cand pp).willingCandidate = true := fun h => by
      have := hwill h; simp at this
    constructor
    · rw [isValidPatron_iff]
      unfold PatronOK
      constructor
      · intro h; exact absurd h.1 hno
      · intro h; exact absurd h.1 hno
    · intro h
      rw [isValidPatron_iff] at h
      exact absurd h.1 hno
  | cons r E2 =>
    obtain ⟨hru, hch2⟩ := hch
    subst hru
    rw [List.pairwise_cons] at hsorted
    rw [List.nodup_cons] at hnd
    simp only [getPatron.advance]
    by_cases hrp : r = pp
    · subst hrp
      simp only [if_true]
      have hE2mem : ∀ x, x ∈ E2 ↔ x < vc.totalWillingCandidates ∧ x ∉ T ∧ x ∉ r :: trail := by
        intro x
        constructor
        · intro hx
          have := (hmem x).1 (List.mem_cons_of_mem _ hx)
          refine ⟨this.1, this.2.1, ?_⟩
          intro h
          rcases List.mem_cons.1 h with h | h
          · subst h; exact hnd.1 hx
          · exact this.2.2 h
        · rintro ⟨h1, h2, h3⟩
          have := (hmem x).2 ⟨h1, h2, fun h => h3 (List.mem_cons_of_mem _ h)⟩
          rcases List.mem_cons.1 this with h | h
          · subst h; exact absurd (List.mem_cons_self _ _) h3
          · exact h
      have hrw : (getC vc.cand r).willingCandidate = true :=
        (hc.willing r).2 ((hmem r).1 (List.mem_cons_self _ _)).1
      have hnext : ∀ q, (getC vc.cand r).nextByTotalIndirectVotes = some q →
          q ∈ E2 ∧ ∀ x ∈ E2, total vc.cand x ≤ total vc.cand q := by
        intro q hq
        rw [hq] at hch2
        obtain ⟨E3, rfl⟩ := ChainFrom_some _ _ _ hch2
        refine ⟨List.mem_cons_self _ _, ?_⟩
        intro x hx
        rcases List.mem_cons.1 hx with h | h
        · subst h; exact Nat.le_refl _
        · exact (List.pairwise_cons.1 hsorted.2).1 x h
      constructor
      · rw [isValidPatron_iff]
        unfold PatronOK
        constructor
        · rintro ⟨h1, h2, h3⟩
          refine ⟨h1, h2, ?_⟩
          intro x hx hxT hxt hxr
          have hxE2 : x ∈ E2 := (hE2mem x).2 ⟨hx, hxT, fun h => by
            rcases List.mem_cons.1 h with h | h
            · exact hxr h
            · exact hxt h⟩
          cases hq : (getC vc.cand r).nextByTotalIndirectVotes with
          | none =>
            rw [hq] at hch2
            have := ChainFrom_none _ _ hch2
            subst this; simp at hxE2
          | some q =>
            have := (hnext q hq).2 x hxE2
            have := h3 q hq
            omega
        · rintro ⟨h1, h2, h3⟩
          refine ⟨h1, h2, ?_⟩
          intro q hq
          have hqE := (hnext q hq).1
          have := (hE2mem q).1 hqE
          exact h3 q this.1 this.2.1 (fun h => this.2.2 (List.mem_cons_of_mem _ h))
            (fun h => this.2.2 (by rw [h]; exact List.mem_cons_self _ _))
      · intro _
        exact ⟨hch2, hsorted.2, hnd.2, hE2mem⟩
    · simp only [hrp, if_false]
      have hr := (hmem r).1 (List.mem_cons_self _ _)
      have hfalse : ¬ ((getC vc.cand pp).willingCandidate = true ∧
          total vc.cand r < total vc.cand pp) := by
        rintro ⟨h1, h2⟩
        have := hwill h1
        rcases List.mem_cons.1 this with h | h
        · exact hrp h.symm
        · have := hsorted.1 pp h; omega
      constructor
      · rw [isValidPatron_iff]
        unfold PatronOK
        constructor
        · rintro ⟨h1, _, h3⟩; exact absurd ⟨h1, h3 r rfl⟩ hfalse
        · rintro ⟨h1, _, h3⟩
          exact absurd ⟨h1, h3 r hr.1 hr.2.1 hr.2.2 hrp⟩ hfalse
      · intro h
        rw [isValidPatron_iff] at h
        exact absurd ⟨h.1, h.2.2 r rfl⟩ hfalse

theorem Iso.inj {vc vc1 : VoteCounter} {σ τ : Nat → Nat} (h : Iso vc vc1 σ τ) (a b : Nat)
    (ha : a < vc.cand.length) (hb : b < vc.cand.length) (hab : σ a = σ b) : a = b := by
  have := congrArg τ hab
  rwa [h.τσ a ha, h.τσ b hb] at this

theorem Iso.will {votes votes1 : List Vote} {vc vc1 : VoteCounter} {σ τ : Nat → Nat}
    (h : Iso vc vc1 σ τ) (hc : Counted votes vc) (hc1 : Counted votes1 vc1) (i : Nat)
    (hi : i < vc.cand.length) :
    σ i < vc1.totalWillingCandidates ↔ i < vc.totalWillingCandidates := by
  rw [← hc.willing_vote i hi, ← hc1.willing_vote (σ i) (by rw [h.len]; exact h.σ_lt i hi),
    h.vote_eq i hi]

theorem Iso.vfm {votes votes1 : List Vote} {vc vc1 : VoteCounter} {σ τ : Nat → Nat}
    (h : Iso vc vc1 σ τ) (hc : Counted votes vc) (hc1 : Counted votes1 vc1) (c p : Nat)
    (hcl : c < vc.cand.length) (hp : p < vc.cand.length) :
    σ p ∈ (getC vc1.cand (σ c)).votedForMe ↔ p ∈ (getC vc.cand c).votedForMe := by
  rw [hc.vfm_mem, hc1.vfm_mem, h.edge_map p hp, h.len]
  constructor
  · rintro ⟨_, h2⟩
    refine ⟨hp, ?_⟩
    cases he : Electorium.edge vc.cand p with
    | none => rw [he] at h2; cases h2
    | some b =>
      rw [he] at h2
      simp only [Option.map_some', Option.some.injEq] at h2
      rw [h.inj b c (hc.edge_lt p b he).1 hcl h2]
  · rintro ⟨_, h2⟩
    exact ⟨h.σ_lt p hp, by rw [h2]; rfl⟩

theorem Iso.memT_iff {votes votes1 : List Vote} {vc vc1 : VoteCounter} {σ τ : Nat → Nat}
    (h : Iso vc vc1 σ τ) (hc : Counted votes vc) (hc1 : Counted votes1 vc1)
    {T E T1 E1 : List Nat} (ht : TopTier vc T E) (ht1 : TopTier vc1 T1 E1) (x : Nat)
    (hx : x < vc.cand.length) : σ x ∈ T1 ↔ x ∈ T := by
  rw [ht.memT, ht1.memT, h.will hc hc1 x hx, h.total_map hc hc1 x hx]
  constructor
  · rintro ⟨h1, h2⟩
    refine ⟨h1, fun y hy => ?_⟩
    have hyl : y < vc.cand.length := Nat.lt_of_lt_of_le hy hc.tw_le
    have := h2 (σ y) ((h.will hc hc1 y hyl).2 hy)
    rwa [h.total_map hc hc1 y hyl] at this
  · rintro ⟨h1, h2⟩
    refine ⟨h1, fun y hy => ?_⟩
    have hyl : y < vc.cand.length := by
      have := Nat.lt_of_lt_of_le hy hc1.tw_le; rwa [h.len] at this
    have hτ := h.τ_lt y hyl
    have := h2 (τ y) ((h.will hc hc1 (τ y) hτ).1 (by rw [h.στ y hyl]; exact hy))
    rwa [← h.total_map hc hc1 (τ y) hτ, h.στ y hyl] at this

theorem TopTier.mem_lt {votes : List Vote} {vc : VoteCounter} (hc : Counted votes vc)
    {T E : List Nat} (ht : TopTier vc T E) (x : Nat) (hx : x ∈ T) : x < vc.cand.length :=
  Nat.lt_of_lt_of_le ((ht.memT x).1 hx).1 hc.tw_le

theorem getPatron_loop_climb {votes : List Vote} {vc : VoteCounter} (hc : Counted votes vc)
    (T : List Nat) (W : Nat) (hW : W ∈ T) :
    ∀ (fuel : Nat) (ru : Option Nat) (pp : Nat) (patron : Option Nat) (trail E : List Nat)
      (r : Option Nat),
      RunnerInv vc T trail ru E → Trail (edge vc.cand) W (pp :: trail) →
      (∀ x ∈ pp :: trail, x ∉ T ∧ x < vc.cand.length) →
      getPatron.loop vc.cand W T fuel ru pp patron = .ok r →
      Climb vc.cand vc.totalWillingCandidates T W trail pp patron r := by
  intro fuel
  induction fuel with
  | zero =>
    intro ru pp patron trail E r _ _ _ h
    simp [getPatron.loop] at h
  | succ fuel ih =>
    intro ru pp patron trail E r hinv ht hx h
    have hpT : pp ∉ T := (hx pp (List.mem_cons_self _ _)).1
    have hpt : pp ∉ trail := Trail.not_mem _ W T hW trail ht.2
      (fun x hxm => (hx x (List.mem_cons_of_mem _ hxm)).1) pp hpT ht.1
    obtain ⟨s1, s2⟩ := hinv.step hc W pp hpT hpt
    unfold getPatron.loop at h
    simp only at h
    by_cases hv : isValidPatron vc.cand W pp
        (getPatron.advance vc.cand ru pp) = true
    · have hok := s1.1 hv
      rw [hv] at h
      simp only [Bool.not_true, Bool.false_eq_true, if_false] at h
      cases hq : getPotentialPatron vc.cand pp T with
      | none =>
        rw [hq] at h
        simp only at h
        cases h
        exact Climb.last _ _ _ hok hq
      | some q =>
        rw [hq] at h
        simp only at h
        have hn := getPotentialPatron_some _ _ _ _ hq
        have hvq := (hc.vfm_mem pp q).1 hn.1
        exact Climb.next _ _ _ q r hok hq (ih _ q (some pp) (pp :: trail) E.tail r (s2 hv)
          ⟨by simpa using hvq.2, ht⟩
          (by intro x hxm
              rcases List.mem_cons.1 hxm with rfl | hxm
              · exact ⟨hn.2, hvq.1⟩
              · exact hx x hxm)
          h)
    · have hv' : isValidPatron vc.cand W pp
        (getPatron.advance vc.cand ru pp) = false := by simpa using hv
      rw [hv'] at h
      simp only [Bool.not_false, if_true] at h
      cases h
      exact Climb.stop _ _ _ (fun hok => hv (s1.2 hok))

theorem getPatron_climb {votes : List Vote} {vc : VoteCounter} (hc : Counted votes vc)
    {T E : List Nat} (ht : TopTier vc T E) (W : Nat) (hW : W ∈ T) (r : Option Nat)
    (h : getPatron vc.cand W T = .ok r) :
    (getPotentialPatron vc.cand W T = none ∧ r = none) ∨
    ∃ pp, getPotentialPatron vc.cand W T = some pp ∧
      Climb vc.cand vc.totalWillingCandidates T W [] pp none r := by
  unfold getPatron at h
  rw [ht.runnerUp W hW] at h
  simp only [bind, Except.bind] at h
  cases hpp : getPotentialPatron vc.cand W T with
  | none =>
    rw [hpp] at h
    simp only [pure, Except.pure] at h
    cases h
    exact Or.inl ⟨rfl, rfl⟩
  | some pp =>
    rw [hpp] at h
    simp only at h
    right
    refine ⟨pp, rfl, ?_⟩
    have hn := getPotentialPatron_some _ _ _ _ hpp
    have hv := (hc.vfm_mem W pp).1 hn.1
    exact getPatron_loop_climb hc T W hW _ _ pp none [] E r
      ⟨ht.chainE, ht.sortedE, ht.nodupE, fun x => by rw [ht.memE]; simp⟩
      ⟨by simpa using hv.2, trivial⟩
      (by intro x hx; simp at hx; subst hx; exact ⟨hn.2, hv.1⟩)
      h

variable {votes votes1 : List Vote} {vc vc1 : VoteCounter} {σ τ : Nat → Nat}
  {T E T1 E1 : List Nat}

theorem TwoRuns.flip (R : TwoRuns votes votes1 vc vc1 σ τ T E T1 E1) :
    TwoRuns votes1 votes vc1 vc τ σ T1 E1 T E :=
  ⟨R.hc1, R.hc, R.iso.swap (fun a b hab => (R.hc.edge_lt a b hab).1), R.tt1, R.tt⟩

theorem TwoRuns.mem_top (R : TwoRuns votes votes1 vc vc1 σ τ T E T1 E1) (x : Nat)
    (hx : x < vc.cand.length) : σ x ∈ T1 ↔ x ∈ T :=
  R.iso.memT_iff R.hc R.hc1 R.tt R.tt1 x hx

theorem TwoRuns.total_same (R : TwoRuns votes votes1 vc vc1 σ τ T E T1 E1) (x : Nat)
    (hx : x < vc.cand.length) : total vc1.cand (σ x) = total vc.cand x :=
  R.iso.total_map R.hc R.hc1 x hx

theorem TwoRuns.willing_iff (R : TwoRuns votes votes1 vc vc1 σ τ T E T1 E1) (x : Nat)
    (hx : x < vc.cand.length) :
    (getC vc1.cand (σ x)).willingCandidate = true ↔ (getC vc.cand x).willingCandidate = true := by
  rw [R.hc.willing, R.hc1.willing]
  exact R.iso.will R.hc R.hc1 x hx

theorem TwoRuns.patronOK (R : TwoRuns votes votes1 vc vc1 σ τ T E T1 E1)
    (trail : List Nat) (W pp : Nat) (hW : W < vc.cand.length) (hpp : pp < vc.cand.length)
    (hok : PatronOK vc.cand vc.totalWillingCandidates T trail W pp) :
    PatronOK vc1.cand vc1.totalWillingCandidates T1 (trail.map σ) (σ W) (σ pp) := by
  obtain ⟨h1, h2, h3⟩ := hok
  refine ⟨(R.willing_iff pp hpp).2 h1, by rw [R.total_same W hW, R.total_same pp hpp]; exact h2, ?_⟩
  intro x hx hxT hxt hxp
  have hxl : x < vc.cand.length := by
    have := Nat.lt_of_lt_of_le hx R.hc1.tw_le; rwa [R.iso.len] at this
  have hτ := R.iso.τ_lt x hxl
  have hστ := R.iso.στ x hxl
  have := h3 (τ x) ((R.iso.will R.hc R.hc1 (τ x) hτ).1 (by rw [hστ]; exact hx))
    (fun h => hxT (by rw [← hστ]; exact (R.mem_top (τ x) hτ).2 h))
    (fun h => hxt (by rw [← hστ]; exact List.mem_map.2 ⟨_, h, rfl⟩))
    (fun h => hxp (by rw [← hστ, h]))
  rw [← R.total_same (τ x) hτ, hστ, ← R.total_same pp hpp] at this
  exact this

theorem TwoRuns.potential_none (R : TwoRuns votes votes1 vc vc1 σ τ T E T1 E1) (c : Nat)
    (hc : c < vc.cand.length) (h : getPotentialPatron vc.cand c T = none) :
    getPotentialPatron vc1.cand (σ c) T1 = none := by
  cases hq : getPotentialPatron vc1.cand (σ c) T1 with
  | none => rfl
  | some q =>
    exfalso
    obtain ⟨q1, q2, q3, _, _⟩ := getPotentialPatron_max _ _ _ _ (R.hc1.vfm_sorted _) hq
    have hql : q < vc.cand.length := by
      have := ((R.hc1.vfm_mem _ _).1 q1).1; rwa [R.iso.len] at this
    have hτ := R.iso.τ_lt q hql
    have hστ := R.iso.στ q hql
    have hmem : τ q ∈ (getC vc.cand c).votedForMe := by
      rw [← R.iso.vfm R.hc R.hc1 c (τ q) hc hτ, hστ]; exact q1
    have hnT : τ q ∉ T := fun hh => q2 (by rw [← hστ]; exact (R.mem_top (τ q) hτ).2 hh)
    have := getPotentialPatron_none _ _ _ h (τ q) hmem hnT
    rw [← R.total_same (τ q) hτ, hστ] at this
    omega

/-- When the potential patron `pp` of the first run is valid, the second run picks its
image. -/
theorem TwoRuns.potential_eq (R : TwoRuns votes votes1 vc vc1 σ τ T E T1 E1)
    (trail : List Nat) (W prev pp pp1 : Nat) (hprev : prev < vc.cand.length)
    (hp : getPotentialPatron vc.cand prev T = some pp)
    (hp1 : getPotentialPatron vc1.cand (σ prev) T1 = some pp1)
    (hpt1 : pp1 ∉ trail.map σ)
    (hok : PatronOK vc.cand vc.totalWillingCandidates T trail W pp) : pp1 = σ pp := by
  obtain ⟨a1, a2, a3, a4, a5⟩ := getPotentialPatron_max _ _ _ _ (R.hc.vfm_sorted _) hp
  obtain ⟨b1, b2, b3, b4, b5⟩ := getPotentialPatron_max _ _ _ _ (R.hc1.vfm_sorted _) hp1
  have hppl : pp < vc.cand.length := ((R.hc.vfm_mem _ _).1 a1).1
  have hpp1l : pp1 < vc.cand.length := by
    have := ((R.hc1.vfm_mem _ _).1 b1).1; rwa [R.iso.len] at this
  have hτ := R.iso.τ_lt pp1 hpp1l
  have hστ := R.iso.στ pp1 hpp1l
  -- the image of `pp` is a voter of the image of `prev`, outside the top tier
  have c1 : σ pp ∈ (getC vc1.cand (σ prev)).votedForMe :=
    (R.iso.vfm R.hc R.hc1 prev pp hprev hppl).2 a1
  have c2 : σ pp ∉ T1 := fun hh => a2 ((R.mem_top pp hppl).1 hh)
  have d1 : τ pp1 ∈ (getC vc.cand prev).votedForMe := by
    rw [← R.iso.vfm R.hc R.hc1 prev (τ pp1) hprev hτ, hστ]; exact b1
  have d2 : τ pp1 ∉ T := fun hh => b2 (by rw [← hστ]; exact (R.mem_top (τ pp1) hτ).2 hh)
  have e1 : total vc.cand pp ≤ total vc1.cand pp1 := by
    have := b4 (σ pp) c1 c2; rwa [R.total_same pp hppl] at this
  have e2 : total vc1.cand pp1 ≤ total vc.cand pp := by
    have := a4 (τ pp1) d1 d2; rwa [← R.total_same (τ pp1) hτ, hστ] at this
  by_contra hne
  obtain ⟨o1, _, o3⟩ := hok
  have hppw : σ pp < vc1.totalWillingCandidates :=
    (R.iso.will R.hc R.hc1 pp hppl).2 ((R.hc.willing pp).1 o1)
  by_cases hw1 : pp1 < vc1.totalWillingCandidates
  · have := o3 (τ pp1) ((R.iso.will R.hc R.hc1 (τ pp1) hτ).1 (by rw [hστ]; exact hw1)) d2
      (fun hh => hpt1 (by rw [← hστ]; exact List.mem_map.2 ⟨_, hh, rfl⟩))
      (fun hh => hne (by rw [← hστ, hh]))
    rw [← R.total_same (τ pp1) hτ, hστ] at this
    omega
  · have := b5 (σ pp) c1 c2 (by omega)
    rw [R.total_same pp hppl] at this
    omega

theorem TwoRuns.trail (R : TwoRuns votes votes1 vc vc1 σ τ T E T1 E1) (W : Nat)
    (trail : List Nat) (htr : ∀ x ∈ trail, x < vc.cand.length)
    (ht : Trail (edge vc.cand) W trail) : Trail (edge vc1.cand) (σ W) (trail.map σ) := by
  induction trail with
  | nil => trivial
  | cons p t ih =>
    refine ⟨?_, ih (fun x hx => htr x (List.mem_cons_of_mem _ hx)) ht.2⟩
    rw [R.iso.edge_map p (htr p (List.mem_cons_self _ _)), ht.1]
    cases t <;> rfl

theorem map_map_inv (R : TwoRuns votes votes1 vc vc1 σ τ T E T1 E1) (l : List Nat)
    (hl : ∀ x ∈ l, x < vc.cand.length) : (l.map σ).map τ = l := by
  rw [List.map_map]
  conv => rhs; rw [← List.map_id l]
  apply List.map_congr_left
  intro x hx
  exact R.iso.τσ x (hl x hx)

/-- The two runs agree on the validity of their potential patrons, and when these are
valid the second is the image of the first. -/
theorem TwoRuns.patron_step (R : TwoRuns votes votes1 vc vc1 σ τ T E T1 E1)
    (trail : List Nat) (W prev pp pp1 : Nat) (hW : W < vc.cand.length)
    (hprev : prev < vc.cand.length) (htr : ∀ x ∈ trail, x < vc.cand.length)
    (hp : getPotentialPatron vc.cand prev T = some pp)
    (hp1 : getPotentialPatron vc1.cand (σ prev) T1 = some pp1)
    (hpt : pp ∉ trail) (hpt1 : pp1 ∉ trail.map σ) :
    (PatronOK vc.cand vc.totalWillingCandidates T trail W pp ↔
      PatronOK vc1.cand vc1.totalWillingCandidates T1 (trail.map σ) (σ W) pp1) ∧
    (PatronOK vc.cand vc.totalWillingCandidates T trail W pp → pp1 = σ pp) := by
  have hppl : pp < vc.cand.length :=
    ((R.hc.vfm_mem _ _).1 (getPotentialPatron_some _ _ _ _ hp).1).1
  have hpp1l : pp1 < vc1.cand.length :=
    ((R.hc1.vfm_mem _ _).1 (getPotentialPatron_some _ _ _ _ hp1).1).1
  have hfwd : PatronOK vc.cand vc.totalWillingCandidates T trail W pp → pp1 = σ pp :=
    R.potential_eq trail W prev pp pp1 hprev hp hp1 hpt1
  refine ⟨⟨?_, ?_⟩, hfwd⟩
  · intro hok
    rw [hfwd hok]
    exact R.patronOK trail W pp hW hppl hok
  · intro hok1
    have hmm := map_map_inv R trail htr
    have hback : pp = τ pp1 := R.flip.potential_eq (trail.map σ) (σ W) (σ prev) pp1 pp
      (by rw [R.iso.len]; exact R.iso.σ_lt prev hprev) hp1
      (by rw [R.iso.τσ prev hprev]; exact hp)
      (by rw [hmm]; exact hpt) hok1
    have := R.flip.patronOK (trail.map σ) (σ W) pp1
      (by rw [R.iso.len]; exact R.iso.σ_lt W hW) hpp1l hok1
    rw [hmm, R.iso.τσ W hW, ← hback] at this
    exact this

theorem climb_iso (R : TwoRuns votes votes1 vc vc1 σ τ T E T1 E1) (W : Nat) (hWT : W ∈ T)
    (trail : List Nat) (pp : Nat) (patron r : Option Nat)
    (hcl : Climb vc.cand vc.totalWillingCandidates T W trail pp patron r) :
    ∀ (pp1 : Nat) (r1 : Option Nat),
      Trail (edge vc.cand) W trail → (∀ x ∈ trail, x ∉ T ∧ x < vc.cand.length) →
      getPotentialPatron vc.cand (trail.headD W) T = some pp →
      getPotentialPatron vc1.cand (σ (trail.headD W)) T1 = some pp1 →
      Climb vc1.cand vc1.totalWillingCandidates T1 (σ W) (trail.map σ) pp1 (patron.map σ) r1 →
      r1 = r.map σ := by
  have hW : W < vc.cand.length := R.tt.mem_lt R.hc W hWT
  have hWT1 : σ W ∈ T1 := (R.mem_top W hW).2 hWT
  -- facts shared by the three cases
  have key : ∀ (trail : List Nat) (pp pp1 : Nat),
      Trail (edge vc.cand) W trail → (∀ x ∈ trail, x ∉ T ∧ x < vc.cand.length) →
      getPotentialPatron vc.cand (trail.headD W) T = some pp →
      getPotentialPatron vc1.cand (σ (trail.headD W)) T1 = some pp1 →
      (PatronOK vc.cand vc.totalWillingCandidates T trail W pp ↔
        PatronOK vc1.cand vc1.totalWillingCandidates T1 (trail.map σ) (σ W) pp1) ∧
      (PatronOK vc.cand vc.totalWillingCandidates T trail W pp → pp1 = σ pp) ∧
      pp ∉ T ∧ pp < vc.cand.length ∧ edge vc.cand pp = some (trail.headD W) := by
    intro trail pp pp1 ht hx hp hp1
    have hprev : trail.headD W < vc.cand.length := by
      cases trail with
      | nil => exact hW
      | cons a t => exact (hx a (List.mem_cons_self _ _)).2
    have hn := getPotentialPatron_some _ _ _ _ hp
    have hv := (R.hc.vfm_mem _ _).1 hn.1
    have hn1 := getPotentialPatron_some _ _ _ _ hp1
    have hv1 := (R.hc1.vfm_mem _ _).1 hn1.1
    have hpt : pp ∉ trail := Trail.not_mem _ W T hWT trail ht (fun x h => (hx x h).1) pp hn.2
      hv.2
    have ht1 := R.trail W trail (fun x h => (hx x h).2) ht
    have hpt1 : pp1 ∉ trail.map σ := Trail.not_mem _ (σ W) T1 hWT1 _ ht1
      (by intro x h
          obtain ⟨y, hy, rfl⟩ := List.mem_map.1 h
          exact fun hh => (hx y hy).1 ((R.mem_top y (hx y hy).2).1 hh))
      pp1 hn1.2
      (by rw [hv1.2]; cases trail <;> rfl)
    obtain ⟨s1, s2⟩ := R.patron_step trail W (trail.headD W) pp pp1 hW hprev
      (fun x h => (hx x h).2) hp hp1 hpt hpt1
    exact ⟨s1, s2, hn.2, hv.1, hv.2⟩
  induction hcl with
  | stop trail pp patron hno =>
    intro pp1 r1 ht hx hp hp1 hcl1
    obtain ⟨s1, _, _⟩ := key trail pp pp1 ht hx hp hp1
    cases hcl1 with
    | stop => rfl
    | last _ _ _ hok1 => exact absurd (s1.2 hok1) hno
    | next _ _ _ _ _ hok1 => exact absurd (s1.2 hok1) hno
  | last trail pp patron hok hq =>
    intro pp1 r1 ht hx hp hp1 hcl1
    obtain ⟨s1, s2, _, hppl, _⟩ := key trail pp pp1 ht hx hp hp1
    have heq := s2 hok
    cases hcl1 with
    | stop _ _ _ hno1 => exact absurd (s1.1 hok) hno1
    | last => rw [heq]; rfl
    | next _ _ _ q1 _ _ hq1 =>
      rw [heq, R.potential_none pp hppl hq] at hq1
      cases hq1
  | next trail pp patron q r hok hq _ ih =>
    intro pp1 r1 ht hx hp hp1 hcl1
    obtain ⟨s1, s2, hppT, hppl, hedge⟩ := key trail pp pp1 ht hx hp hp1
    have heq := s2 hok
    cases hcl1 with
    | stop _ _ _ hno1 => exact absurd (s1.1 hok) hno1
    | last _ _ _ _ hq1 =>
      have := R.flip.potential_none pp1 (by rw [heq, R.iso.len]; exact R.iso.σ_lt pp hppl) hq1
      rw [heq, R.iso.τσ pp hppl, hq] at this
      cases this
    | next _ _ _ q1 _ _ hq1 hcl2 =>
      subst heq
      exact ih q1 r1 ⟨hedge, ht⟩
        (by intro x h
            rcases List.mem_cons.1 h with rfl | h
            · exact ⟨hppT, hppl⟩
            · exact hx x h)
        hq hq1 hcl2

theorem removeFromUnorganized_nodup (rc : ringComputer) (c : Nat) (hnd : rc.unorganized.Nodup)
    (h : c ∈ rc.unorganized) :
    ∃ rc', rc.removeFromUnorganized c = (rc', true) ∧ rc'.rings = rc.rings ∧
      rc'.unorganized.Nodup ∧ (∀ x, x ∈ rc'.unorganized ↔ x ∈ rc.unorganized ∧ x ≠ c) ∧
      rc'.unorganized.length + 1 = rc.unorganized.length := by
  obtain ⟨A, B, hAB⟩ := List.append_of_mem h
  have hnd' := hnd
  rw [hAB] at hnd'
  have hcA : c ∉ A := by
    intro hc
    have := (List.nodup_append.1 hnd').2.2 hc (List.mem_cons_self _ _)
    exact this
  have hcB : c ∉ B := (List.nodup_cons.1 (List.nodup_append.1 hnd').2.1).1
  have hidx : rc.unorganized.indexOf? c = some A.length := by
    rw [hAB]
    unfold List.indexOf?
    rw [List.findIdx?_append]
    have : A.findIdx? (fun x => x == c) = none := by
      rw [List.findIdx?_eq_none_iff]
      intro x hx
      simp only [beq_eq_false_iff_ne, ne_eq]
      rintro rfl; exact hcA hx
    rw [this]
    simp [List.findIdx?_cons]
  unfold ringComputer.removeFromUnorganized
  rw [hidx]
  simp only
  refine ⟨_, rfl, rfl, ?_⟩
  simp only
  rcases List.eq_nil_or_concat B with rfl | ⟨B', l, rfl⟩
  · -- `c` is the last element
    have hU : rc.unorganized = A ++ [c] := hAB
    have e : ((rc.unorganized.set A.length
        (rc.unorganized.getD (rc.unorganized.length - 1) 0)).take
        (rc.unorganized.length - 1)) = A := by
      rw [hU]
      simp
    rw [e]
    refine ⟨(List.nodup_append.1 hnd').1, ?_, by rw [hU]; simp⟩
    intro x
    rw [hU]
    simp only [List.mem_append, List.mem_singleton]
    constructor
    · intro hx; exact ⟨Or.inl hx, fun hh => hcA (hh ▸ hx)⟩
    · rintro ⟨hx | hx, hne⟩
      · exact hx
      · exact absurd hx hne
  · rw [List.concat_eq_append] at hAB hnd' hcB
    have hU : rc.unorganized = A ++ c :: (B' ++ [l]) := hAB
    have e : ((rc.unorganized.set A.length
        (rc.unorganized.getD (rc.unorganized.length - 1) 0)).take
        (rc.unorganized.length - 1)) = A ++ l :: B' := by
      rw [hU]
      have h1 : (A ++ c :: (B' ++ [l])).length - 1 = A.length + (B'.length + 1) := by
        simp only [List.length_append, List.length_cons, List.length_nil]; omega
      have h2 : (A ++ c :: (B' ++ [l])).getD (A.length + (B'.length + 1)) 0 = l := by
        rw [List.getD_append_right _ _ _ _ (by omega)]
        have : A.length + (B'.length + 1) - A.length = B'.length + 1 := by omega
        rw [this, List.getD_cons_succ, List.getD_append_right _ _ _ _ (Nat.le_refl _)]
        simp
      rw [h1, h2]
      have h3 : (A ++ c :: (B' ++ [l])).set A.length l = A ++ l :: (B' ++ [l]) := by
        rw [List.set_append_right _ _ (Nat.le_refl _)]
        simp
      rw [h3]
      have h4 : A ++ l :: (B' ++ [l]) = (A ++ l :: B') ++ [l] := by simp
      have h5 : A.length + (B'.length + 1) = (A ++ l :: B').length := by simp
      rw [h4, h5, List.take_left']
      rfl
    rw [e]
    have hperm : (A ++ l :: B').Perm (A ++ (B' ++ [l])) := by
      apply List.Perm.append_left
      exact (List.perm_append_singleton l B').symm
    have hnd2 : (A ++ (B' ++ [l])).Nodup := by
      have : (A ++ c :: (B' ++ [l])).Perm (c :: (A ++ (B' ++ [l]))) := List.perm_middle
      exact (List.nodup_cons.1 (this.nodup_iff.1 hnd')).2
    refine ⟨hperm.nodup_iff.2 hnd2, ?_, ?_⟩
    · intro x
      rw [hperm.mem_iff, hU]
      constructor
      · intro hx
        refine ⟨?_, ?_⟩
        · rcases List.mem_append.1 hx with hx | hx
          · exact List.mem_append_left _ hx
          · exact List.mem_append_right _ (List.mem_cons_of_mem _ hx)
        · intro hxc
          rw [hxc] at hx
          rcases List.mem_append.1 hx with hx | hx
          · exact hcA hx
          · exact hcB hx
      · rintro ⟨hx, hne⟩
        rcases List.mem_append.1 hx with hx | hx
        · exact List.mem_append_left _ hx
        · rcases List.mem_cons.1 hx with hx | hx
          · exact absurd hx hne
          · exact List.mem_append_right _ hx
    · rw [hU]
      simp only [List.length_append, List.length_cons, List.length_nil]; omega

theorem Sealed.mono {H : List candidate} {U U' : List Nat} {x : Nat} (h : Sealed H U x)
    (hs : ∀ y ∈ U', y ∈ U) : Sealed H U' x :=
  ⟨fun v hv hm => h.1 v hv (hs v hm), fun y hy hm => h.2 y hy (hs y hm)⟩

theorem appendToRing_spec (rc : ringComputer) (ringN c : Nat) (h : ringN < rc.rings.length) :
    ∃ rc', rc.appendToRing ringN c = .ok rc' ∧ rc'.unorganized = rc.unorganized ∧
      rc'.rings.length = rc.rings.length :=
  appendToRing_ok rc ringN c h

theorem addToRingReverse_spec (H : List candidate) (T : List Nat) (seed ringN : Nat)
    (hvfm : ∀ c p, p ∈ (getC H c).votedForMe → edge H p = some c) :
    ∀ (fuel c : Nat) (rc : ringComputer), rc.unorganized.Nodup → rc.unorganized.length < fuel →
      ringN < rc.rings.length → (∀ x ∈ rc.unorganized, x ∈ T) → c ∈ T → ConnIn H T seed c →
      c ∉ rc.unorganized →
      ∃ rc', rc.addToRingReverse H ringN fuel c = .ok rc' ∧ rc'.unorganized.Nodup ∧
        rc'.rings.length = rc.rings.length ∧ (∀ x ∈ rc'.unorganized, x ∈ rc.unorganized) ∧
        (∀ x ∈ rc.unorganized, x ∉ rc'.unorganized →
          ConnIn H T seed x ∧ Sealed H rc'.unorganized x) ∧
        (∀ v ∈ (getC H c).votedForMe, v ∉ rc'.unorganized) := by
  intro fuel
  induction fuel with
  | zero => intro c rc _ h; simp at h
  | succ fuel ih =>
    intro c rc hnd hf hr hsub hcT hconn hcU
    unfold ringComputer.addToRingReverse
    have inner : ∀ (l : List Nat) (rc : ringComputer), (∀ v ∈ l, edge H v = some c) →
        rc.unorganized.Nodup → rc.unorganized.length < fuel + 1 → ringN < rc.rings.length →
        (∀ x ∈ rc.unorganized, x ∈ T) → c ∉ rc.unorganized →
        ∃ rc', l.foldlM (fun rc c =>
            match rc.removeFromUnorganized c with
            | (rc1, true) => do
              let rc2 ← rc1.appendToRing ringN c
              ringComputer.addToRingReverse H ringN fuel c rc2
            | (rc1, false) => .ok rc1) rc = .ok rc' ∧ rc'.unorganized.Nodup ∧
          rc'.rings.length = rc.rings.length ∧ (∀ x ∈ rc'.unorganized, x ∈ rc.unorganized) ∧
          (∀ x ∈ rc.unorganized, x ∉ rc'.unorganized →
            ConnIn H T seed x ∧ Sealed H rc'.unorganized x) ∧
          (∀ v ∈ l, v ∉ rc'.unorganized) := by
      intro l
      induction l with
      | nil =>
        intro rc _ hnd _ _ _ _
        exact ⟨rc, rfl, hnd, rfl, fun x hx => hx, fun x hx hn => absurd hx hn, by simp⟩
      | cons v l ihl =>
        intro rc hl hnd hf hr hsub hcU
        rw [List.foldlM_cons]
        have hlv : ∀ v' ∈ l, edge H v' = some c := fun v' h => hl v' (List.mem_cons_of_mem _ h)
        by_cases hv : v ∈ rc.unorganized
        · obtain ⟨rc1, h1, h2, h3, h4, h5⟩ := removeFromUnorganized_nodup rc v hnd hv
          obtain ⟨rc2, a1, a2, a3⟩ := appendToRing_spec rc1 ringN v (by rw [h2]; exact hr)
          have hvT : v ∈ T := hsub v hv
          have hconnv : ConnIn H T seed v :=
            Relation.ReflTransGen.tail hconn
              ⟨hcT, hvT, Or.inr (hl v (List.mem_cons_self _ _))⟩
          obtain ⟨rc3, b1, b2, b3, b4, b5, b6⟩ := ih v rc2 (by rw [a2]; exact h3)
            (by rw [a2]; omega) (by rw [a3, h2]; exact hr)
            (by intro x hx; rw [a2] at hx; exact hsub x ((h4 x).1 hx).1) hvT hconnv
            (by rw [a2]; intro hx; exact ((h4 v).1 hx).2 rfl)
          have hsub3 : ∀ x ∈ rc3.unorganized, x ∈ rc.unorganized := by
            intro x hx
            have := b4 x hx; rw [a2] at this
            exact ((h4 x).1 this).1
          obtain ⟨rc4, c1, c2, c3, c4, c5, c6⟩ := ihl rc3 hlv b2
            (by have := (List.Nodup.subperm b2 (fun x hx => hsub3 x hx)).length_le; omega)
            (by rw [b3, a3, h2]; exact hr) (fun x hx => hsub x (hsub3 x hx))
            (fun hx => hcU (hsub3 c hx))
          refine ⟨rc4, ?_, c2, by rw [c3, b3, a3, h2], fun x hx => hsub3 x (c4 x hx), ?_, ?_⟩
          · rw [h1]
            simp only [bind, Except.bind, a1, b1]
            exact c1
          · intro x hx hn
            by_cases hx3 : x ∈ rc3.unorganized
            · exact c5 x hx3 hn
            · by_cases hxv : x = v
              · subst hxv
                refine ⟨hconnv, ?_, ?_⟩
                · intro v' hv' hm; exact b6 v' hv' (c4 v' hm)
                · intro y hy hm
                  rw [hl x (List.mem_cons_self _ _)] at hy
                  cases hy
                  exact hcU (hsub3 c (c4 c hm))
              · have hx2 : x ∈ rc2.unorganized := by
                  rw [a2]; exact (h4 x).2 ⟨hx, hxv⟩
                obtain ⟨d1, d2⟩ := b5 x hx2 hx3
                exact ⟨d1, d2.mono c4⟩
          · intro v' hv'
            rcases List.mem_cons.1 hv' with rfl | hv'
            · intro hm
              have := b4 _ (c4 _ hm); rw [a2] at this
              exact ((h4 _).1 this).2 rfl
            · exact c6 v' hv'
        · rw [removeFromUnorganized_not_mem rc v hv]
          simp only
          obtain ⟨rc4, c1, c2, c3, c4, c5, c6⟩ := ihl rc hlv hnd hf hr hsub hcU
          refine ⟨rc4, c1, c2, c3, c4, c5, ?_⟩
          intro v' hv'
          rcases List.mem_cons.1 hv' with rfl | hv'
          · exact fun hm => hv (c4 _ hm)
          · exact c6 v' hv'
    obtain ⟨rc', r1, r2, r3, r4, r5, r6⟩ := inner (getC H c).votedForMe rc
      (fun v hv => hvfm c v hv) hnd hf hr hsub hcU
    exact ⟨rc', r1, r2, r3, r4, r5, r6⟩

theorem addToRingForward_spec (H : List candidate) (T : List Nat) (seed ringN : Nat)
    (hvfm : ∀ c p, p ∈ (getC H c).votedForMe → edge H p = some c) :
    ∀ (fuel : Nat) (p : Option Nat) (rc : ringComputer), rc.unorganized.Nodup →
      rc.unorganized.length < fuel → ringN < rc.rings.length → (∀ x ∈ rc.unorganized, x ∈ T) →
      (∀ c, p = some c → c ∈ rc.unorganized → ConnIn H T seed c) →
      ∃ rc', rc.addToRingForward H ringN fuel p = .ok rc' ∧ rc'.unorganized.Nodup ∧
        rc'.rings.length = rc.rings.length ∧ (∀ x ∈ rc'.unorganized, x ∈ rc.unorganized) ∧
        (∀ x ∈ rc.unorganized, x ∉ rc'.unorganized →
          ConnIn H T seed x ∧ Sealed H rc'.unorganized x) ∧
        (∀ c, p = some c → c ∉ rc'.unorganized) := by
  intro fuel
  induction fuel with
  | zero => intro p rc _ h; simp at h
  | succ fuel ih =>
    intro p rc hnd hf hr hsub hconn
    cases p with
    | none =>
      exact ⟨rc, by simp [ringComputer.addToRingForward], hnd, rfl, fun x hx => hx,
        fun x hx hn => absurd hx hn, fun c h => by cases h⟩
    | some c =>
      unfold ringComputer.addToRingForward
      by_cases hc : c ∈ rc.unorganized
      · obtain ⟨rc1, h1, h2, h3, h4, h5⟩ := removeFromUnorganized_nodup rc c hnd hc
        have hcT : c ∈ T := hsub c hc
        have hcc : ConnIn H T seed c := hconn c rfl hc
        obtain ⟨rc2, a1, a2, a3, a4, a5, a6⟩ := addToRingReverse_spec H T seed ringN hvfm
          (fuel + 1) c rc1 h3 (by omega) (by rw [h2]; exact hr)
          (fun x hx => hsub x ((h4 x).1 hx).1) hcT hcc (fun hx => ((h4 c).1 hx).2 rfl)
        obtain ⟨rc3, b1, b2, b3⟩ := appendToRing_spec rc2 ringN c (by rw [a3, h2]; exact hr)
        have hsub2 : ∀ x ∈ rc2.unorganized, x ∈ rc.unorganized :=
          fun x hx => ((h4 x).1 (a4 x hx)).1
        obtain ⟨rc4, c1, c2, c3, c4, c5, c6⟩ := ih (getC H c).voteFor rc3
          (by rw [b2]; exact a2)
          (by rw [b2]
              have := (List.Nodup.subperm a2 (fun x hx => a4 x hx)).length_le
              omega)
          (by rw [b3, a3, h2]; exact hr)
          (by intro x hx; rw [b2] at hx; exact hsub x (hsub2 x hx))
          (by intro d hd hdm
              rw [b2] at hdm
              exact Relation.ReflTransGen.tail hcc ⟨hcT, hsub d (hsub2 d hdm), Or.inl hd⟩)
        have hsub4 : ∀ x ∈ rc4.unorganized, x ∈ rc2.unorganized := by
          intro x hx; have := c4 x hx; rwa [b2] at this
        refine ⟨rc4, ?_, c2, by rw [c3, b3, a3, h2], fun x hx => hsub2 x (hsub4 x hx), ?_, ?_⟩
        · rw [h1]
          simp only [bind, Except.bind, a1, b1]
          exact c1
        · intro x hx hn
          by_cases hxc : x = c
          · subst hxc
            exact ⟨hcc, fun v hv hm => a6 v hv (hsub4 v hm), fun y hy => c6 y hy⟩
          · have hx1 : x ∈ rc1.unorganized := (h4 x).2 ⟨hx, hxc⟩
            by_cases hx2 : x ∈ rc2.unorganized
            · exact c5 x (by rw [b2]; exact hx2) hn
            · obtain ⟨d1, d2⟩ := a5 x hx1 hx2
              exact ⟨d1, d2.mono hsub4⟩
        · intro c' hc' hm
          cases hc'
          exact ((h4 _).1 (a4 _ (hsub4 _ hm))).2 rfl
      · rw [removeFromUnorganized_not_mem rc c hc]
        exact ⟨rc, rfl, hnd, rfl, fun x hx => hx, fun x hx hn => absurd hx hn,
          fun c' hc' => by cases hc'; exact hc⟩

theorem computeRingMembers_loop_len (H : List candidate) :
    ∀ (fuel : Nat) (rc rc' : ringComputer), computeRingMembers.loop H fuel rc = .ok rc' →
      rc.rings.length ≤ rc'.rings.length := by
  intro fuel
  induction fuel with
  | zero =>
    intro rc rc' h
    unfold computeRingMembers.loop at h
    cases hu : rc.unorganized with
    | nil => rw [hu] at h; cases h; exact Nat.le_refl _
    | cons c rest => rw [hu] at h; cases h
  | succ fuel ih =>
    intro rc rc' h
    unfold computeRingMembers.loop at h
    cases hu : rc.unorganized with
    | nil => rw [hu] at h; cases h; exact Nat.le_refl _
    | cons c rest =>
      rw [hu] at h
      simp only at h
      obtain ⟨rc2, a1, _, a3, _⟩ := addToRingForward_ok H rc.rings.length
        (rest.length + 1 + 1) (some c)
        { rings := rc.rings ++ [[]], unorganized := c :: rest }
        (by simp) (by simp)
      simp only [List.length_cons] at h
      rw [a1] at h
      simp only [bind, Except.bind] at h
      have := ih rc2 rc' h
      rw [a3] at this
      simp at this
      omega

theorem computeRingMembers_loop_nil (H : List candidate) (fuel : Nat) (rc : ringComputer)
    (hu : rc.unorganized = []) : computeRingMembers.loop H fuel rc = .ok rc := by
  unfold computeRingMembers.loop
  rw [hu]

theorem computeRingMembers_loop_cons (H : List candidate) (fuel : Nat) (rc : ringComputer)
    (c : Nat) (rest : List Nat) (hu : rc.unorganized = c :: rest) :
    computeRingMembers.loop H (fuel + 1) rc =
      (ringComputer.addToRingForward H rc.rings.length (rc.unorganized.length + 1) (some c)
        ({ rings := rc.rings ++ [[]], unorganized := rc.unorganized } : ringComputer)).bind
        (computeRingMembers.loop H fuel) := by
  conv => lhs; unfold computeRingMembers.loop
  rw [hu]
  rfl

theorem Adj.comm {H : List candidate} {T : List Nat} {a b : Nat} (h : Adj H T a b) :
    Adj H T b a := ⟨h.2.1, h.1, h.2.2.symm⟩

theorem ConnIn.reverse {H : List candidate} {T : List Nat} {a b : Nat} (h : ConnIn H T a b) :
    ConnIn H T b a :=
  Relation.ReflTransGen.symmetric (fun _ _ hab => Adj.comm hab) h

/-- The ring decomposition of a duplicate-free, non-empty `T` yields fewer than two rings
exactly when `T` is connected. -/
theorem ringCount_lt_two_iff {votes : List Vote} {vc : VoteCounter} (hc : Counted votes vc)
    (T : List Nat) (hT : T.Nodup) (hne : T ≠ []) (hTlt : ∀ x ∈ T, x < vc.cand.length)
    (rings : List (List Nat)) (h : computeRingMembers vc.cand T = .ok rings) :
    rings.length < 2 ↔ ∀ a ∈ T, ∀ b ∈ T, ConnIn vc.cand T a b := by
  have hvfm : ∀ c p, p ∈ (getC vc.cand c).votedForMe → edge vc.cand p = some c :=
    fun c p hp => ((hc.vfm_mem c p).1 hp).2
  cases T with
  | nil => exact absurd rfl hne
  | cons c rest =>
    unfold computeRingMembers at h
    rw [computeRingMembers_loop_cons vc.cand _ _ c rest rfl] at h
    obtain ⟨rc2, a1, a2, a3, a4, a5, a6⟩ := addToRingForward_spec vc.cand (c :: rest) c 0 hvfm
      ((c :: rest).length + 1) (some c)
      { rings := [] ++ [[]], unorganized := c :: rest } hT (by simp) (by simp)
      (fun x hx => hx) (fun c' hc' _ => by cases hc'; exact Relation.ReflTransGen.refl)
    simp only [List.length_nil] at a1 a3 a4 a5 h
    rw [a1] at h
    simp only [Except.bind, bind, pure, Except.pure] at h
    -- what is connected to the seed has left the pool
    have hclosed : ∀ x, ConnIn vc.cand (c :: rest) c x → x ∉ rc2.unorganized := by
      intro x hx
      induction hx with
      | refl => exact a6 c rfl
      | tail hy hadj ihy =>
        rename_i y x
        obtain ⟨_, hseal⟩ := a5 y hadj.1 ihy
        rcases hadj.2.2 with he | he
        · exact hseal.2 x he
        · exact hseal.1 x ((hc.vfm_mem y x).2 ⟨hTlt x hadj.2.1, he⟩)
    cases hu : rc2.unorganized with
    | nil =>
      rw [computeRingMembers_loop_nil _ _ _ hu] at h
      simp only [Except.ok.injEq] at h
      have hlen : rings.length = 1 := by rw [← h, a3]; rfl
      constructor
      · intro _ a ha b hb
        have h1 := (a5 a ha (by rw [hu]; simp)).1
        have h2 := (a5 b hb (by rw [hu]; simp)).1
        exact Relation.ReflTransGen.trans (ConnIn.reverse h1) h2
      · intro _; omega
    | cons d rest2 =>
      have hd : d ∈ rc2.unorganized := by rw [hu]; simp
      constructor
      · intro hlt
        exfalso
        rw [List.length_cons, computeRingMembers_loop_cons vc.cand _ rc2 d rest2 hu] at h
        obtain ⟨rc3, b1, _, b3, _⟩ := addToRingForward_ok vc.cand rc2.rings.length
          (rc2.unorganized.length + 1) (some d)
          { rings := rc2.rings ++ [[]], unorganized := rc2.unorganized } (by simp) (by simp)
        rw [b1] at h
        simp only [Except.bind] at h
        cases hl : computeRingMembers.loop vc.cand rest.length rc3 with
        | error e => rw [hl] at h; cases h
        | ok rcf =>
          rw [hl] at h
          simp only [Except.ok.injEq] at h
          have := computeRingMembers_loop_len _ _ _ _ hl
          rw [b3] at this
          simp only [List.length_append, List.length_singleton, a3] at this
          rw [h] at this
          simp at this
          omega
      · intro hall
        exact absurd hd (hclosed d (hall c (List.mem_cons_self _ _) d (a4 d hd)))

theorem TwoRuns.lt_of_top (R : TwoRuns votes votes1 vc vc1 σ τ T E T1 E1) (x : Nat) (hx : x ∈ T) :
    x < vc.cand.length := R.tt.mem_lt R.hc x hx

theorem TwoRuns.edge_iff (R : TwoRuns votes votes1 vc vc1 σ τ T E T1 E1) (a b : Nat)
    (ha : a < vc.cand.length) (hb : b < vc.cand.length) :
    edge vc1.cand (σ a) = some (σ b) ↔ edge vc.cand a = some b := by
  rw [R.iso.edge_map a ha]
  constructor
  · intro h
    cases he : edge vc.cand a with
    | none => rw [he] at h; cases h
    | some c =>
      rw [he] at h
      simp only [Option.map_some', Option.some.injEq] at h
      rw [R.iso.inj c b (R.hc.edge_lt a c he).1 hb h]
  · intro h; rw [h]; rfl

theorem TwoRuns.conn (R : TwoRuns votes votes1 vc vc1 σ τ T E T1 E1) (a b : Nat)
    (h : ConnIn vc.cand T a b) : ConnIn vc1.cand T1 (σ a) (σ b) := by
  induction h with
  | refl => exact Relation.ReflTransGen.refl
  | tail hyx hadj ih =>
    rename_i y x
    have hy := R.lt_of_top y hadj.1
    have hx := R.lt_of_top x hadj.2.1
    refine Relation.ReflTransGen.tail ih ⟨(R.mem_top y hy).2 hadj.1, (R.mem_top x hx).2 hadj.2.1, ?_⟩
    rcases hadj.2.2 with he | he
    · exact Or.inl ((R.edge_iff y x hy hx).2 he)
    · exact Or.inr ((R.edge_iff x y hx hy).2 he)

theorem TwoRuns.mem_image (R : TwoRuns votes votes1 vc vc1 σ τ T E T1 E1) (y : Nat)
    (hy : y ∈ T1) : τ y ∈ T ∧ σ (τ y) = y ∧ τ y < vc.cand.length := by
  have hyl : y < vc.cand.length := by
    have := R.tt1.mem_lt R.hc1 y hy; rwa [R.iso.len] at this
  have hτ := R.iso.τ_lt y hyl
  have hστ := R.iso.στ y hyl
  exact ⟨(R.mem_top (τ y) hτ).1 (by rw [hστ]; exact hy), hστ, hτ⟩

theorem TwoRuns.connected (R : TwoRuns votes votes1 vc vc1 σ τ T E T1 E1)
    (h : ∀ a ∈ T, ∀ b ∈ T, ConnIn vc.cand T a b) :
    ∀ a ∈ T1, ∀ b ∈ T1, ConnIn vc1.cand T1 a b := by
  intro a ha b hb
  obtain ⟨a1, a2, _⟩ := R.mem_image a ha
  obtain ⟨b1, b2, _⟩ := R.mem_image b hb
  have := R.conn _ _ (h _ a1 _ b1)
  rwa [a2, b2] at this

theorem TwoRuns.score (R : TwoRuns votes votes1 vc vc1 σ τ T E T1 E1) (c : Nat)
    (hc : c < vc.cand.length) :
    bestOfRing.score vc1.cand T1 (σ c) = bestOfRing.score vc.cand T c := by
  rw [bestOfRing_score_eq, bestOfRing_score_eq, R.hc.vfm c, R.hc1.vfm (σ c), List.filter_filter,
    List.filter_filter, R.iso.len, R.iso.own_eq c hc]
  obtain ⟨h1, h2⟩ := sum_filter_renumber vc.cand.length σ τ
    (fun j => (!T.contains j) && decide (edge vc.cand j = some c))
    (fun j => (!T1.contains j) && decide (edge vc1.cand j = some (σ c)))
    (total vc.cand) (total vc1.cand) R.iso.σ_lt R.iso.τ_lt R.iso.τσ R.iso.στ
    (by intro i hi
        have e1 : T1.contains (σ i) = T.contains i := by
          rw [Bool.eq_iff_iff]
          simpa using R.mem_top i hi
        have e2 : decide (edge vc1.cand (σ i) = some (σ c)) =
            decide (edge vc.cand i = some c) := by
          rw [Bool.eq_iff_iff]
          simp only [decide_eq_true_eq]
          exact R.edge_iff i c hi hc
        simp only [e1, e2])
    (fun i hi => R.total_same i hi)
  by_cases hnil : (List.range vc.cand.length).filter
      (fun j => (!T.contains j) && decide (edge vc.cand j = some c)) = []
  · rw [if_pos hnil, if_pos (h2.1 hnil)]
  · rw [if_neg hnil, if_neg (fun hh => hnil (h2.2 hh)), h1]

theorem TwoRuns.bestOfRing_mem (R : TwoRuns votes votes1 vc vc1 σ τ T E T1 E1) (c : Nat)
    (hc : c ∈ bestOfRing vc.cand T) : σ c ∈ bestOfRing vc1.cand T1 := by
  rw [(bestOfRing_spec _ _).2] at hc ⊢
  have hcl := R.lt_of_top c hc.1
  refine ⟨(R.mem_top c hcl).2 hc.1, ?_⟩
  intro d hd
  obtain ⟨d1, d2, d3⟩ := R.mem_image d hd
  have := hc.2 (τ d) d1
  rw [← R.score (τ d) d3, d2, ← R.score c hcl] at this
  exact this

theorem slicesCompare_eq_zero (a b : List Nat) (h : slicesCompare a b = 0) : a = b := by
  induction a generalizing b with
  | nil =>
    cases b with
    | nil => rfl
    | cons y ys => simp [slicesCompare] at h
  | cons x xs ih =>
    cases b with
    | nil => simp [slicesCompare] at h
    | cons y ys =>
      simp only [slicesCompare] at h
      by_cases h1 : x < y
      · simp [h1] at h
      · by_cases h2 : y < x
        · simp [h1, h2] at h
        · simp only [h1, h2, if_false] at h
          have : x = y := by omega
          rw [this, ih ys h]

theorem tieBreaker_min (S : SortSlice) (hash : List Nat → List Nat) (H : List candidate)
    (B : List Nat) (hne : B ≠ []) :
    ∃ w, w ∈ B ∧ tieBreaker S hash H B = .ok (some w) ∧
      ∀ c ∈ B, slicesCompare (tieBreakerHash hash H w) (tieBreakerHash hash H c) ≤ 0 := by
  match B, hne with
  | [w], _ =>
    refine ⟨w, by simp, rfl, ?_⟩
    intro c hc
    simp at hc; subst hc
    rw [slicesCompare_self]
  | a :: b :: l, _ => exact tieBreaker_min_key S hash H (a :: b :: l) (by simp)

theorem putUint64_length (v : Nat) : (putUint64 v).length = 8 := by
  simp [putUint64]

theorem Counted.id_inj {votes : List Vote} {vc : VoteCounter} (hc : Counted votes vc)
    (a b : Nat) (ha : a < vc.cand.length) (hb : b < vc.cand.length)
    (h : (getC vc.cand a).vote.VoterId = (getC vc.cand b).vote.VoterId) : a = b := by
  rw [hc.vote a ha, hc.vote b hb] at h
  have hnd := admittedVotes_nodup votes
  rw [hc.len] at ha hb
  rw [List.getD_eq_getElem _ _ ha, List.getD_eq_getElem _ _ hb] at h
  have hv : (admittedVotes votes)[a] = (admittedVotes votes)[b] :=
    List.inj_on_of_nodup_map hnd (List.getElem_mem _) (List.getElem_mem _) h
  exact (List.Nodup.getElem_inj_iff (List.Nodup.of_map _ hnd)).1 hv

theorem getPatron_iso (R : TwoRuns votes votes1 vc vc1 σ τ T E T1 E1) (W : Nat) (hW : W ∈ T)
    (r r1 : Option Nat) (h : getPatron vc.cand W T = .ok r)
    (h1 : getPatron vc1.cand (σ W) T1 = .ok r1) : r1 = r.map σ := by
  have hWl := R.lt_of_top W hW
  have hW1 : σ W ∈ T1 := (R.mem_top W hWl).2 hW
  rcases getPatron_climb R.hc R.tt W hW r h with ⟨a1, a2⟩ | ⟨pp, a1, a2⟩
  · rcases getPatron_climb R.hc1 R.tt1 (σ W) hW1 r1 h1 with ⟨b1, b2⟩ | ⟨pp1, b1, _⟩
    · rw [a2, b2]; rfl
    · rw [R.potential_none W hWl a1] at b1; cases b1
  · rcases getPatron_climb R.hc1 R.tt1 (σ W) hW1 r1 h1 with ⟨b1, _⟩ | ⟨pp1, b1, b2⟩
    · have := R.flip.potential_none (σ W) (by rw [R.iso.len]; exact R.iso.σ_lt W hWl) b1
      rw [R.iso.τσ W hWl, a1] at this
      cases this
    · exact climb_iso R W hW [] pp none r a2 pp1 r1 trivial (by simp) a1 b1 b2

theorem TwoRuns.key_eq (R : TwoRuns votes votes1 vc vc1 σ τ T E T1 E1)
    (hash : List Nat → List Nat) (x : Nat) (hx : x < vc.cand.length) :
    tieBreakerHash hash vc1.cand (σ x) = tieBreakerHash hash vc.cand x := by
  unfold tieBreakerHash
  have := R.total_same x hx
  unfold total at this
  rw [R.iso.vote_eq x hx, this]

theorem TwoRuns.tieBreak (R : TwoRuns votes votes1 vc vc1 σ τ T E T1 E1) (S : SortSlice)
    (hash : List Nat → List Nat)
    (hcol : ∀ a, a < vc.cand.length → ∀ b, b < vc.cand.length →
      tieBreakerHash hash vc.cand a = tieBreakerHash hash vc.cand b →
      (getC vc.cand a).vote.VoterId = (getC vc.cand b).vote.VoterId) (B B1 : List Nat)
    (hB : ∀ x ∈ B, x < vc.cand.length ∧ σ x ∈ B1)
    (hB1 : ∀ y ∈ B1, y < vc.cand.length ∧ τ y ∈ B) (w w1 : Nat)
    (h : tieBreaker S hash vc.cand B = .ok (some w))
    (h1 : tieBreaker S hash vc1.cand B1 = .ok (some w1)) :
    (getC vc1.cand w1).vote = (getC vc.cand w).vote := by
  have hne : B ≠ [] := by
    rintro rfl; simp [tieBreaker] at h
  have hne1 : B1 ≠ [] := by
    rintro rfl; simp [tieBreaker] at h1
  obtain ⟨w', a1, a2, a3⟩ := tieBreaker_min S hash vc.cand B hne
  obtain ⟨w1', b1, b2, b3⟩ := tieBreaker_min S hash vc1.cand B1 hne1
  rw [a2] at h
  rw [b2] at h1
  simp only [Except.ok.injEq, Option.some.injEq] at h h1
  subst h
  subst h1
  have hwl := (hB _ a1).1
  have hw1l := (hB1 _ b1).1
  have hστ := R.iso.στ _ hw1l
  have hτl := R.iso.τ_lt _ hw1l
  have c1 := a3 _ (hB1 _ b1).2
  have c2 := b3 _ (hB _ a1).2
  rw [R.key_eq hash _ hwl] at c2
  rw [← R.key_eq hash _ hτl, hστ] at c1
  have hkey : tieBreakerHash hash vc.cand w' = tieBreakerHash hash vc1.cand w1' := by
    apply slicesCompare_eq_zero
    have := slicesCompare_antisymm (tieBreakerHash hash vc.cand w')
      (tieBreakerHash hash vc1.cand w1')
    omega
  rw [← hστ, R.key_eq hash _ hτl] at hkey
  have hid := hcol w' hwl (τ w1') hτl hkey
  have heq : w' = τ w1' := R.hc.id_inj _ _ hwl hτl hid
  rw [← hστ, R.iso.vote_eq _ hτl, heq]

theorem solveWinner_of_not_single (H : List candidate) (l T : List Nat)
    (h : ∀ w, l ≠ [w]) : solveWinner H l T = .ok l := by
  match l, h with
  | [], _ => rfl
  | [w], h => exact absurd rfl (h w)
  | a :: b :: l, _ => rfl

theorem FindWinner_eq (S : SortSlice) (hash : List Nat → List Nat) (vc : VoteCounter)
    (b : Nat) (hb : vc.best = some b) (T : List Nat)
    (hT : getBestCandidates.loop vc.cand (getC vc.cand b).totalIndirectVotes
      (vc.cand.length + 1) (some b) [] = .ok T)
    (rings : List (List Nat)) (hr : computeRingMembers vc.cand T = .ok rings) (B : List Nat)
    (hB : (if rings.length < 2 then solveWinner vc.cand (bestOfRing vc.cand T) T
      else (Except.ok (bestOfRing vc.cand T) : Except Fault (List Nat))) = .ok B)
    (w : Nat) (hw : tieBreaker S hash vc.cand B = .ok (some w)) :
    vc.FindWinner S hash = .ok (some (getC vc.cand w).vote) := by
  unfold VoteCounter.FindWinner
  rw [hb]
  simp only [getBestCandidates, bind, Except.bind, hT, hr, pure, Except.pure]
  split
  · rename_i hlt
    rw [if_pos hlt] at hB
    rw [hB]; simp only [hw]
  · rename_i hlt
    rw [if_neg hlt] at hB
    cases hB
    simp only [hw]

theorem solve_spec (hc : Counted votes vc) (ht : TopTier vc T E) (rings : List (List Nat)) :
    ∃ B, (if rings.length < 2 then solveWinner vc.cand (bestOfRing vc.cand T) T
        else (Except.ok (bestOfRing vc.cand T) : Except Fault (List Nat))) = .ok B ∧
      ((∃ w r, rings.length < 2 ∧ bestOfRing vc.cand T = [w] ∧
          getPatron vc.cand w T = .ok r ∧ B = [r.getD w] ∧
          ∀ p, r = some p → p < vc.cand.length) ∨
        ((rings.length < 2 → ∀ w, bestOfRing vc.cand T ≠ [w]) ∧ B = bestOfRing vc.cand T)) := by
  by_cases hlt : rings.length < 2
  · rw [if_pos hlt]
    by_cases hs : ∃ w, bestOfRing vc.cand T = [w]
    · obtain ⟨w, hw⟩ := hs
      have hwT : w ∈ T := bestOfRing_subset _ _ _ (by rw [hw]; simp)
      obtain ⟨L, hL, hch, _⟩ := hc.chain
      have hwL : w ∈ L := by
        rw [hL.mem_iff, List.mem_range]; exact ((ht.memT w).1 hwT).1
      obtain ⟨r, h1, h2⟩ := getPatron_ok hc L hL hch w T hwT hwL
      refine ⟨[r.getD w], ?_, Or.inl ⟨w, r, hlt, hw, h1, rfl, ?_⟩⟩
      · rw [hw]
        unfold solveWinner
        simp only [bind, Except.bind, h1]
        cases r <;> rfl
      · intro p hp
        rcases h2 with h2 | ⟨q, hq, hqw, _⟩
        · rw [h2] at hp; cases hp
        · rw [hq] at hp; cases hp
          exact Nat.lt_of_lt_of_le ((hc.willing _).1 hqw) hc.tw_le
    · have hs' : ∀ w, bestOfRing vc.cand T ≠ [w] := fun w hw => hs ⟨w, hw⟩
      exact ⟨_, solveWinner_of_not_single _ _ _ hs', Or.inr ⟨fun _ => hs', rfl⟩⟩
  · rw [if_neg hlt]
    exact ⟨_, rfl, Or.inr ⟨fun h => absurd h hlt, rfl⟩⟩

theorem eq_singleton_of_forall {l : List Nat} {a : Nat} (hnd : l.Nodup) (hne : l ≠ [])
    (h : ∀ y ∈ l, y = a) : l = [a] := by
  match l, hnd, hne, h with
  | [x], _, _, h => rw [h x (by simp)]
  | x :: y :: l, hnd, _, h =>
    have h1 := h x (by simp)
    have h2 := h y (by simp)
    rw [List.nodup_cons] at hnd
    exact absurd (by rw [h1, h2]; simp) hnd.1

theorem TwoRuns.bestOfRing_single (R : TwoRuns votes votes1 vc vc1 σ τ T E T1 E1) (w : Nat)
    (hw : bestOfRing vc.cand T = [w]) : bestOfRing vc1.cand T1 = [σ w] := by
  apply eq_singleton_of_forall ((bestOfRing_spec _ _).1 R.tt1.nodupT)
    (bestOfRing_ne_nil _ _ R.tt1.ne)
  intro y hy
  have hyT := bestOfRing_subset _ _ _ hy
  obtain ⟨_, h2, _⟩ := R.mem_image y hyT
  have := R.flip.bestOfRing_mem y hy
  rw [hw] at this
  simp at this
  rw [← h2, this]

theorem TwoRuns.ringCount (R : TwoRuns votes votes1 vc vc1 σ τ T E T1 E1)
    (rings rings1 : List (List Nat)) (hr : computeRingMembers vc.cand T = .ok rings)
    (hr1 : computeRingMembers vc1.cand T1 = .ok rings1) (h : rings.length < 2) :
    rings1.length < 2 := by
  rw [ringCount_lt_two_iff R.hc T R.tt.nodupT R.tt.ne (fun x hx => R.lt_of_top x hx) rings hr] at h
  rw [ringCount_lt_two_iff R.hc1 T1 R.tt1.nodupT R.tt1.ne (fun x hx => R.flip.lt_of_top x hx)
    rings1 hr1]
  exact R.connected h

/-- The tentative winners after patron promotion correspond in the two runs. -/
theorem TwoRuns.solved (R : TwoRuns votes votes1 vc vc1 σ τ T E T1 E1)
    (rings rings1 : List (List Nat)) (hr : computeRingMembers vc.cand T = .ok rings)
    (hr1 : computeRingMembers vc1.cand T1 = .ok rings1) (B B1 : List Nat)
    (hB : (if rings.length < 2 then solveWinner vc.cand (bestOfRing vc.cand T) T
      else (Except.ok (bestOfRing vc.cand T) : Except Fault (List Nat))) = .ok B)
    (hB1 : (if rings1.length < 2 then solveWinner vc1.cand (bestOfRing vc1.cand T1) T1
      else (Except.ok (bestOfRing vc1.cand T1) : Except Fault (List Nat))) = .ok B1) :
    ∀ x ∈ B, x < vc.cand.length ∧ σ x ∈ B1 := by
  obtain ⟨B', e1, e2⟩ := solve_spec R.hc R.tt rings
  obtain ⟨B1', f1, f2⟩ := solve_spec R.hc1 R.tt1 rings1
  rw [hB] at e1; cases e1
  rw [hB1] at f1; cases f1
  rcases e2 with ⟨w, r, hlt, hw, hg, rfl, hrl⟩ | ⟨hns, rfl⟩
  · have hwT : w ∈ T := bestOfRing_subset _ _ _ (by rw [hw]; simp)
    have hw1 := R.bestOfRing_single w hw
    have hlt1 := R.ringCount rings rings1 hr hr1 hlt
    rcases f2 with ⟨w1, r1, _, hw1', hg1, rfl, _⟩ | ⟨hns1, _⟩
    · rw [hw1] at hw1'
      simp only [List.cons.injEq, and_true] at hw1'
      subst hw1'
      have := getPatron_iso R w hwT r r1 hg hg1
      intro x hx
      simp only [List.mem_singleton] at hx
      subst hx
      rw [this]
      cases r with
      | none => exact ⟨R.lt_of_top w hwT, by simp⟩
      | some p => exact ⟨hrl p rfl, by simp⟩
    · exact absurd hw1 (hns1 hlt1 _)
  · rcases f2 with ⟨w1, r1, hlt1, hw1', _, _, _⟩ | ⟨_, rfl⟩
    · have hlt := R.flip.ringCount rings1 rings hr1 hr hlt1
      have := R.flip.bestOfRing_single w1 hw1'
      exact absurd this (hns hlt _)
    · intro x hx
      exact ⟨R.lt_of_top x (bestOfRing_subset _ _ _ hx), R.bestOfRing_mem x hx⟩

theorem Counted.best_none_iff {votes : List Vote} {vc : VoteCounter} (hc : Counted votes vc) :
    vc.best = none ↔ vc.totalWillingCandidates = 0 := by
  obtain ⟨L, hL, hch, _⟩ := hc.chain
  have hlen := hL.length_eq
  rw [List.length_range] at hlen
  constructor
  · intro h
    rw [h] at hch
    rw [ChainFrom_none _ _ hch] at hlen
    exact hlen.symm
  · intro h
    cases hb : vc.best with
    | none => rfl
    | some b =>
      rw [hb] at hch
      obtain ⟨L', rfl⟩ := ChainFrom_some _ _ _ hch
      rw [h] at hlen
      simp at hlen

/-- Two counters built from a vote list with distinct identities and from a permutation of
it return the same winner. -/
theorem FindWinner_perm (S : SortSlice) (hash : List Nat → List Nat)
    {votes votes1 : List Vote} {vc vc1 : VoteCounter}
    (hnd : (votes.map (fun v => v.VoterId)).Nodup) (hp : votes.Perm votes1)
    (hc : Counted votes vc) (hc1 : Counted votes1 vc1)
    (hcol : ∀ a, a < vc.cand.length → ∀ b, b < vc.cand.length →
      tieBreakerHash hash vc.cand a = tieBreakerHash hash vc.cand b →
      (getC vc.cand a).vote.VoterId = (getC vc.cand b).vote.VoterId) (r r1 : Option Vote)
    (h : vc.FindWinner S hash = .ok r) (h1 : vc1.FindWinner S hash = .ok r1) : r = r1 := by
  have hiso := iso_of_perm hnd hp hc hc1
  cases hb : vc.best with
  | none =>
    have htw := hc.best_none_iff.1 hb
    have hb1 : vc1.best = none := hc1.best_none_iff.2 (by rw [hiso.tw, htw])
    unfold VoteCounter.FindWinner at h h1
    rw [hb] at h
    rw [hb1] at h1
    cases h; cases h1; rfl
  | some b =>
    cases hb1 : vc1.best with
    | none =>
      have := hc1.best_none_iff.1 hb1
      rw [hiso.tw] at this
      rw [hc.best_none_iff.2 this] at hb
      cases hb
    | some b1 =>
      obtain ⟨T, E, ht, hT⟩ := topTier_spec hc b hb
      obtain ⟨T1, E1, ht1, hT1⟩ := topTier_spec hc1 b1 hb1
      have R : TwoRuns votes votes1 vc vc1 _ _ T E T1 E1 := ⟨hc, hc1, hiso, ht, ht1⟩
      obtain ⟨rings, hr⟩ := computeRingMembers_ok vc.cand T
      obtain ⟨rings1, hr1⟩ := computeRingMembers_ok vc1.cand T1
      obtain ⟨B, hB, hBc⟩ := solve_spec hc ht rings
      obtain ⟨B1, hB1, hBc1⟩ := solve_spec hc1 ht1 rings1
      have hBne : B ≠ [] := by
        rcases hBc with ⟨w, r, _, _, _, rfl, _⟩ | ⟨_, rfl⟩
        · simp
        · exact bestOfRing_ne_nil _ _ ht.ne
      have hB1ne : B1 ≠ [] := by
        rcases hBc1 with ⟨w, r, _, _, _, rfl, _⟩ | ⟨_, rfl⟩
        · simp
        · exact bestOfRing_ne_nil _ _ ht1.ne
      obtain ⟨w, hw, hwn, _⟩ := tieBreaker_ok S hash vc.cand B
      obtain ⟨w1, hw1, hw1n, _⟩ := tieBreaker_ok S hash vc1.cand B1
      cases w with
      | none => exact absurd (hwn.1 rfl) hBne
      | some w =>
        cases w1 with
        | none => exact absurd (hw1n.1 rfl) hB1ne
        | some w1 =>
          rw [FindWinner_eq S hash vc b hb T hT rings hr B hB w hw] at h
          rw [FindWinner_eq S hash vc1 b1 hb1 T1 hT1 rings1 hr1 B1 hB1 w1 hw1] at h1
          cases h; cases h1
          have s1 := R.solved rings rings1 hr hr1 B B1 hB hB1
          have s2 := R.flip.solved rings1 rings hr1 hr B1 B hB1 hB
          have := R.tieBreak S hash hcol B B1 s1
            (fun y hy => ⟨by have := (s2 y hy).1; rwa [hiso.len] at this, (s2 y hy).2⟩)
            w w1 hw hw1
          rw [this]

/-- C4: for a vote list with pairwise distinct `VoterId` values and a permutation of it,
`FindWinner` returns the same vote on both, when the hash does not collide on the
tie-break keys of two candidates of the counter with different voter ids. -/
theorem winner_invariant_under_permutation (S : SortSlice) (hash : List Nat → List Nat)
    (votes votes1 : List Vote) (hnd : (votes.map (fun v => v.VoterId)).Nodup)
    (hp : votes.Perm votes1) (vc : VoteCounter) (hmk : MkVoteCounter S votes = .ok vc)
    (hcol : ∀ a, a < vc.cand.length → ∀ b, b < vc.cand.length →
      hash ((getC vc.cand a).vote.VoterId ++ putUint64 (getC vc.cand a).totalIndirectVotes) =
        hash ((getC vc.cand b).vote.VoterId ++
          putUint64 (getC vc.cand b).totalIndirectVotes) →
      (getC vc.cand a).vote.VoterId = (getC vc.cand b).vote.VoterId) :
    ∃ vc1 r, MkVoteCounter S votes1 = .ok vc1 ∧
      vc.FindWinner S hash = .ok r ∧ vc1.FindWinner S hash = .ok r := by
  obtain ⟨vc0, h1, hc⟩ := MkVoteCounter_spec S votes
  rw [hmk] at h1
  cases h1
  obtain ⟨vc1, g1, hc1⟩ := MkVoteCounter_spec S votes1
  obtain ⟨r, h2, _, _⟩ := FindWinner_spec S hash hc
  obtain ⟨r1, g2, _, _⟩ := FindWinner_spec S hash hc1
  have := FindWinner_perm S hash hnd hp hc hc1 hcol r r1 h2 g2
  subst this
  exact ⟨vc1, r, g1, h2, g2⟩

/-- C4 on scenario S2 and its reversal, with a hash that keeps the first byte only: the
hash is not injective, it does not collide on the keys of A and B, both runs end in the
tie break, and both elect A. -/
theorem winner_invariant_under_permutation_witness :
    ¬ Function.Injective firstByteHash ∧
    election insertionSortSlice firstByteHash votesTie =
      .ok (some { VoterId := [65], VoteFor := [66], NumberOfVotes := 10,
                  WillingCandidate := true }) ∧
    election insertionSortSlice firstByteHash votesTie.reverse =
      .ok (some { VoterId := [65], VoteFor := [66], NumberOfVotes := 10,
                  WillingCandidate := true }) ∧
    (votesTie.map (fun v => v.VoterId)).Nodup ∧ votesTie.Perm votesTie.reverse ∧
    ∃ vc, MkVoteCounter insertionSortSlice votesTie = .ok vc ∧
      bestOfRing vc.cand [1, 0] = [1, 0] ∧
      ∃ vc1 r, MkVoteCounter insertionSortSlice votesTie.reverse = .ok vc1 ∧
        vc.FindWinner insertionSortSlice firstByteHash = .ok r ∧
        vc1.FindWinner insertionSortSlice firstByteHash = .ok r := by
  refine ⟨?_, rfl, rfl, by decide, (List.reverse_perm _).symm, _, rfl, by decide, ?_⟩
  · intro h
    have := h (show firstByteHash [1, 2] = firstByteHash [1, 3] from rfl)
    simp at this
  · exact winner_invariant_under_permutation insertionSortSlice firstByteHash votesTie
      votesTie.reverse (by decide) (List.reverse_perm _).symm _ rfl (by decide)

theorem admittedVotes_subset (votes : List Vote) (a : Vote) (ha : a ∈ admittedVotes votes) :
    a ∈ votes := by
  unfold admittedVotes at ha
  rcases List.mem_append.1 ha with h | h
  · exact (mem_admitted _ _ _ _ h).1
  · exact (mem_admitted _ _ _ _ h).1

/-- C11, as stated, fails: in `votesWillingToUnwilling` the willing candidate A votes for
B, who is admitted only in the later (unwilling) pass, and `mkCandidates` still sets A's
delegation edge, to B. -/
theorem later_pass_edge_counterexample :
    ∃ c ∈ (mkCandidates votesWillingToUnwilling).1, c.willingCandidate = true ∧
      (∃ u ∈ votesWillingToUnwilling, u.VoterId = c.vote.VoteFor ∧
        u.WillingCandidate = false) ∧
      c.voteFor = some 1 ∧
      (getC (mkCandidates votesWillingToUnwilling).1 1).willingCandidate = false ∧
      (getC (mkCandidates votesWillingToUnwilling).1 1).vote.VoterId = c.vote.VoteFor := by
  decide

/-- C11, amended: the delegation edge of an admitted candidate is left unset exactly
when its `VoteFor` is its own identity or an identity that no input vote carries; a
`VoteFor` that names any other admitted candidate, of either pass, is resolved to the
candidate with that identity. -/
theorem edge_unset_iff_self_or_unknown (votes : List Vote) (i : Nat)
    (hi : i < (mkCandidates votes).1.length) :
    ((getC (mkCandidates votes).1 i).voteFor = none ↔
      ((getC (mkCandidates votes).1 i).vote.VoteFor =
          (getC (mkCandidates votes).1 i).vote.VoterId ∨
        ∀ v ∈ votes, v.VoterId ≠ (getC (mkCandidates votes).1 i).vote.VoteFor)) ∧
    ∀ j, (getC (mkCandidates votes).1 i).voteFor = some j →
      j < (mkCandidates votes).1.length ∧
        (getC (mkCandidates votes).1 j).vote.VoterId =
          (getC (mkCandidates votes).1 i).vote.VoteFor := by
  have hi1 : i < (admittedVotes votes).length := by rw [← mkCandidates_length]; exact hi
  have hv : ∀ j, j < (admittedVotes votes).length →
      (getC (mkCandidates votes).1 j).vote = (admittedVotes votes).getD j default := by
    intro j hj
    rw [mkCandidates_getC votes j hj]
    unfold mkCandidates.resolve
    split <;> rfl
  have he : (getC (mkCandidates votes).1 i).voteFor =
      if ((admittedVotes votes).getD i default).VoteFor =
          ((admittedVotes votes).getD i default).VoterId then none
      else (entries 0 (admittedVotes votes)).reverse.lookup
        ((admittedVotes votes).getD i default).VoteFor := by
    rw [mkCandidates_getC votes i hi1]
    unfold mkCandidates.resolve
    simp only [mkCand]
    split <;> rfl
  rw [hv i hi1, he, mkCandidates_length]
  constructor
  · by_cases hs : ((admittedVotes votes).getD i default).VoteFor =
        ((admittedVotes votes).getD i default).VoterId
    · rw [if_pos hs]
      exact ⟨fun _ => Or.inl hs, fun _ => rfl⟩
    · rw [if_neg hs, lookup_entries_none]
      constructor
      · intro h
        right
        intro v hv1 hid
        obtain ⟨a, ha, hid1⟩ := admittedVotes_covers votes v hv1
        exact h a ha (hid1.trans hid)
      · rintro (h | h)
        · exact absurd h hs
        · intro v hv1
          exact h v (admittedVotes_subset votes v hv1)
  · intro j hj
    by_cases hs : ((admittedVotes votes).getD i default).VoteFor =
        ((admittedVotes votes).getD i default).VoterId
    · rw [if_pos hs] at hj
      cases hj
    · rw [if_neg hs] at hj
      have := (lookup_entries _ (admittedVotes_nodup votes) _ j).1 hj
      exact ⟨this.1, by rw [hv j this.1]; exact this.2⟩

theorem edge_unset_iff_self_or_unknown_witness :
    ((getC (mkCandidates votesWillingToUnwilling).1 0).voteFor = none ↔
      ((getC (mkCandidates votesWillingToUnwilling).1 0).vote.VoteFor =
          (getC (mkCandidates votesWillingToUnwilling).1 0).vote.VoterId ∨
        ∀ v ∈ votesWillingToUnwilling,
          v.VoterId ≠ (getC (mkCandidates votesWillingToUnwilling).1 0).vote.VoteFor)) ∧
    ∀ j, (getC (mkCandidates votesWillingToUnwilling).1 0).voteFor = some j →
      j < (mkCandidates votesWillingToUnwilling).1.length ∧
        (getC (mkCandidates votesWillingToUnwilling).1 j).vote.VoterId =
          (getC (mkCandidates votesWillingToUnwilling).1 0).vote.VoteFor :=
  edge_unset_iff_self_or_unknown votesWillingToUnwilling 0 (by decide)

/-- C12, as stated, fails: in `votesAllForUnwilling` both votes name X, X is not willing,
and `FindWinner` returns the vote of the willing voter A. -/
theorem all_for_unwilling_counterexample :
    (∀ v ∈ votesAllForUnwilling, v.VoteFor = [88]) ∧
    (∀ v ∈ votesAllForUnwilling, v.VoterId = [88] → v.WillingCandidate = false) ∧
    ∃ vc, MkVoteCounter insertionSortSlice votesAllForUnwilling = .ok vc ∧
      vc.FindWinner insertionSortSlice idHash =
        .ok (some { VoterId := [65], VoteFor := [88], NumberOfVotes := 1,
                    WillingCandidate := true }) :=
  ⟨by decide, by decide, _, rfl, rfl⟩

/-- C12, amended: when every vote's `VoteFor` names one and the same identity `x` and no
vote with the identity `x` is willing, `FindWinner` never returns `x`: it returns `none`
exactly when no vote of the list is willing, and otherwise it returns the vote of a
willing voter whose identity is not `x`. -/
theorem unwilling_target_never_wins (S : SortSlice) (hash : List Nat → List Nat)
    (votes : List Vote) (x : List Nat) (hall : ∀ v ∈ votes, v.VoteFor = x)
    (hx : ∀ v ∈ votes, v.VoterId = x → v.WillingCandidate = false) :
    ∃ vc r, MkVoteCounter S votes = .ok vc ∧ vc.FindWinner S hash = .ok r ∧
      (r = none ↔ ∀ v ∈ votes, v.WillingCandidate = false) ∧
      ∀ w, r = some w → w ∈ votes ∧ w.WillingCandidate = true ∧ w.VoteFor = x ∧
        w.VoterId ≠ x := by
  obtain ⟨vc, h1, hc⟩ := MkVoteCounter_spec S votes
  obtain ⟨r, h2, h3, h4⟩ := FindWinner_spec S hash hc
  refine ⟨vc, r, h1, h2, ?_, ?_⟩
  · rw [h3, hc.tw]
    exact admitted_true_eq_nil_iff votes
  · intro w hw
    obtain ⟨i, hi, hv⟩ := h4 w hw
    have hm := mem_admitted _ _ _ _ (willing_prefix_vote hc i hi)
    rw [← hv] at hm
    refine ⟨hm.1, hm.2.1, hall w hm.1, ?_⟩
    intro hid
    have := hx w hm.1 hid
    rw [hm.2.1] at this
    cases this

/-- C12, amended, on `votesAllForUnwilling` with `x` the identity of X. -/
theorem unwilling_target_never_wins_witness :
    (∀ v ∈ votesAllForUnwilling, v.VoteFor = [88]) ∧
    (∀ v ∈ votesAllForUnwilling, v.VoterId = [88] → v.WillingCandidate = false) ∧
    ∃ vc r, MkVoteCounter insertionSortSlice votesAllForUnwilling = .ok vc ∧
      vc.FindWinner insertionSortSlice idHash = .ok r ∧
      (r = none ↔ ∀ v ∈ votesAllForUnwilling, v.WillingCandidate = false) ∧
      ∀ w, r = some w → w ∈ votesAllForUnwilling ∧ w.WillingCandidate = true ∧
        w.VoteFor = [88] ∧ w.VoterId ≠ [88] :=
  ⟨by decide, by decide,
    unwilling_target_never_wins insertionSortSlice idHash votesAllForUnwilling [88]
      (by decide) (by decide)⟩

/-- C13: when the top tier `bestRing` of a counter decomposes into two or more rings,
`FindWinner` makes no patron promotion: its result is `tieBreaker` applied to
`bestOfRing` of the whole top tier (the vote of the candidate it returns), whatever
`getPatron` would return for a single tentative winner. -/
theorem no_patron_with_two_rings (S : SortSlice) (hash : List Nat → List Nat)
    (vc : VoteCounter) (bestRing : List Nat) (ringCount : Nat)
    (hb : getBestCandidates vc.cand vc.best = .ok (bestRing, ringCount))
    (h2 : 2 ≤ ringCount) :
    vc.FindWinner S hash =
      (tieBreaker S hash vc.cand (bestOfRing vc.cand bestRing)).map
        (Option.map (fun w => (getC vc.cand w).vote)) := by
  unfold VoteCounter.FindWinner
  cases hbest : vc.best with
  | none => rw [hbest] at hb; cases hb
  | some b =>
    rw [hbest] at hb
    have hlt : ¬ ringCount < 2 := by omega
    simp only [hb, bind, Except.bind, hlt, if_false, pure, Except.pure]
    cases tieBreaker S hash vc.cand (bestOfRing vc.cand bestRing) with
    | error e => rfl
    | ok w => cases w <;> rfl

/-- C13 on `votesTwoRings`: the top tier X, V, Y has the two rings X and V, Y; `bestOfRing`
yields X alone, `getPatron` would promote its tributary P, and `FindWinner` returns X. -/
theorem no_patron_with_two_rings_witness :
    ∃ vc, MkVoteCounter insertionSortSlice votesTwoRings = .ok vc ∧
      getBestCandidates vc.cand vc.best = .ok ([0, 2, 3], 2) ∧
      bestOfRing vc.cand [0, 2, 3] = [0] ∧
      getPatron vc.cand 0 [0, 2, 3] = .ok (some 1) ∧
      (getC vc.cand 1).willingCandidate = true ∧
      vc.FindWinner insertionSortSlice idHash =
        (tieBreaker insertionSortSlice idHash vc.cand (bestOfRing vc.cand [0, 2, 3])).map
          (Option.map (fun w => (getC vc.cand w).vote)) ∧
      vc.FindWinner insertionSortSlice idHash =
        .ok (some { VoterId := [88], VoteFor := [], NumberOfVotes := 1,
                    WillingCandidate := true }) :=
  ⟨_, rfl, rfl, by decide, rfl, by decide,
    no_patron_with_two_rings insertionSortSlice idHash _ [0, 2, 3] 2 rfl (by decide), rfl⟩

/-- What the climb of `getPatron` returns: the patron it was entered with, or a willing
candidate outside `ring` that beats the mark and from which `W` is reached by one or more
delegation edges. -/
theorem getPatron_loop_patron (H : List candidate) (W : Nat) (ring : List Nat)
    (hvfm : ∀ c p, p ∈ (getC H c).votedForMe → edge H p = some c) :
    ∀ (fuel : Nat) (ru : Option Nat) (pp : Nat) (patron r : Option Nat),
      pp ∉ ring → Relation.TransGen (fun a b => edge H a = some b) pp W →
      getPatron.loop H W ring fuel ru pp patron = .ok r →
      r = patron ∨ ∃ p, r = some p ∧ (getC H p).willingCandidate = true ∧ p ∉ ring ∧
        total H W / 2 < total H p ∧ Relation.TransGen (fun a b => edge H a = some b) p W := by
  intro fuel
  induction fuel with
  | zero => intro ru pp patron r _ _ h; simp [getPatron.loop] at h
  | succ fuel ih =>
    intro ru pp patron r hpp hreach h
    rw [getPatron.loop] at h
    cases hv : isValidPatron H W pp (getPatron.advance H ru pp) with
    | false =>
      rw [hv] at h
      simp only [Bool.not_false, if_true] at h
      cases h
      exact Or.inl rfl
    | true =>
      rw [hv] at h
      simp only [Bool.not_true, Bool.false_eq_true, if_false] at h
      have hok := (isValidPatron_iff H W pp _).1 hv
      cases hn : getPotentialPatron H pp ring with
      | none =>
        rw [hn] at h
        cases h
        exact Or.inr ⟨pp, rfl, hok.1, hpp, hok.2.1, hreach⟩
      | some next =>
        rw [hn] at h
        have hs := getPotentialPatron_some H pp ring next hn
        have he := hvfm pp next hs.1
        rcases ih _ next (some pp) r hs.2 (Relation.TransGen.head he hreach) h with h1 | h1
        · exact Or.inr ⟨pp, h1, hok.1, hpp, hok.2.1, hreach⟩
        · exact Or.inr h1

/-- C14: whenever `getPatron(W, excludeRing)` returns a candidate `P` on a counter built
by `MkVoteCounter` (`FindWinner` passes the top tier as `excludeRing`), `P` is willing,
`P` is not a member of `excludeRing`, `W` is reached from `P` by following one or more
`voteFor` edges, and `P.totalIndirectVotes > W.totalIndirectVotes / 2`. -/
theorem patron_is_strong_willing_tributary (S : SortSlice) (votes : List Vote)
    (vc : VoteCounter) (hmk : MkVoteCounter S votes = .ok vc) (W : Nat)
    (excludeRing : List Nat) (P : Nat)
    (hP : getPatron vc.cand W excludeRing = .ok (some P)) :
    (getC vc.cand P).willingCandidate = true ∧ P ∉ excludeRing ∧
      Relation.TransGen (fun a b => (getC vc.cand a).voteFor = some b) P W ∧
      (getC vc.cand W).totalIndirectVotes / 2 < (getC vc.cand P).totalIndirectVotes := by
  obtain ⟨vc1, h1, hc⟩ := MkVoteCounter_spec S votes
  rw [hmk] at h1
  cases h1
  unfold getPatron at hP
  cases hru : getRunnerUp vc.cand W excludeRing with
  | error e => rw [hru] at hP; cases hP
  | ok ru =>
    rw [hru] at hP
    simp only [bind, Except.bind] at hP
    cases hn : getPotentialPatron vc.cand W excludeRing with
    | none => rw [hn] at hP; cases hP
    | some pp =>
      rw [hn] at hP
      simp only at hP
      have hs := getPotentialPatron_some vc.cand W excludeRing pp hn
      have hvfm : ∀ c p, p ∈ (getC vc.cand c).votedForMe → edge vc.cand p = some c :=
        fun c p hp => ((hc.vfm_mem c p).1 hp).2
      rcases getPatron_loop_patron vc.cand W excludeRing hvfm _ ru pp none (some P) hs.2
        (Relation.TransGen.single (hvfm W pp hs.1)) hP with h | ⟨p, h, h2, h3, h4, h5⟩
      · cases h
      · cases h
        exact ⟨h2, h3, h5, h4⟩

/-- C14 on scenario S3: the tentative winner C (total 7) alone is the top tier, and the
patron returned is B (total 6). -/
theorem patron_is_strong_willing_tributary_witness :
    ∃ vc, MkVoteCounter insertionSortSlice votesPatron = .ok vc ∧
      getBestCandidates vc.cand vc.best = .ok ([1], 1) ∧
      getPatron vc.cand 1 [1] = .ok (some 0) ∧
      (getC vc.cand 1).totalIndirectVotes = 7 ∧ (getC vc.cand 0).totalIndirectVotes = 6 ∧
      (getC vc.cand 0).willingCandidate = true ∧ 0 ∉ [1] ∧
      Relation.TransGen (fun a b => (getC vc.cand a).voteFor = some b) 0 1 ∧
      (getC vc.cand 1).totalIndirectVotes / 2 < (getC vc.cand 0).totalIndirectVotes :=
  ⟨_, rfl, rfl, rfl, by decide, by decide,
    patron_is_strong_willing_tributary insertionSortSlice votesPatron _ rfl 1 [1] 0 rfl⟩

/-- C15: on the counter built by `MkVoteCounter(votes)`, following
`nextByTotalIndirectVotes` from `best` until nil visits a list `L` that holds exactly the
willing candidates, each once, with `totalIndirectVotes` non-increasing along it; no
unwilling candidate is in it, and `best` is nil exactly when no vote is willing. -/
theorem chain_enumerates_willing (S : SortSlice) (votes : List Vote) :
    ∃ vc L, MkVoteCounter S votes = .ok vc ∧ ChainFrom vc.cand vc.best L ∧ L.Nodup ∧
      (∀ i, i ∈ L ↔ i < vc.cand.length ∧ (getC vc.cand i).willingCandidate = true) ∧
      L.Pairwise (fun a b =>
        (getC vc.cand b).totalIndirectVotes ≤ (getC vc.cand a).totalIndirectVotes) ∧
      (vc.best = none ↔ ∀ v ∈ votes, v.WillingCandidate = false) := by
  obtain ⟨vc, h1, hc⟩ := MkVoteCounter_spec S votes
  obtain ⟨L, hL, hch, hsorted⟩ := hc.chain
  refine ⟨vc, L, h1, hch, hL.nodup_iff.2 (List.nodup_range _), ?_, hsorted, ?_⟩
  · intro i
    rw [hL.mem_iff, List.mem_range, hc.willing i]
    have := hc.tw_le
    constructor
    · intro h; exact ⟨by omega, h⟩
    · intro h; exact h.2
  · rw [hc.best_none_iff, hc.tw]
    exact admitted_true_eq_nil_iff votes

theorem removeFromUnorganized_perm (rc : ringComputer) (c : Nat) (hnd : rc.unorganized.Nodup)
    (h : c ∈ rc.unorganized) :
    ∃ rc', rc.removeFromUnorganized c = (rc', true) ∧ rc'.rings = rc.rings ∧
      rc'.unorganized.Nodup ∧ (c :: rc'.unorganized).Perm rc.unorganized := by
  obtain ⟨rc', h1, h2, h3, h4, _⟩ := removeFromUnorganized_nodup rc c hnd h
  refine ⟨rc', h1, h2, h3, ?_⟩
  have hc : c ∉ rc'.unorganized := fun hm => ((h4 c).1 hm).2 rfl
  refine (List.perm_ext_iff_of_nodup (List.nodup_cons.2 ⟨hc, h3⟩) hnd).2 ?_
  intro x
  rw [List.mem_cons, h4 x]
  constructor
  · rintro (rfl | hx)
    · exact h
    · exact hx.1
  · intro hx
    by_cases hxc : x = c
    · exact Or.inl hxc
    · exact Or.inr ⟨hx, hxc⟩

theorem appendToRing_rings (rc : ringComputer) (ringN c : Nat) (pre : List (List Nat))
    (old : List Nat) (post : List (List Nat)) (hr : rc.rings = pre ++ old :: post)
    (hp : pre.length = ringN) :
    rc.appendToRing ringN c =
      .ok { rings := pre ++ (old ++ [c]) :: post, unorganized := rc.unorganized } := by
  unfold ringComputer.appendToRing
  have hlt : ringN < rc.rings.length := by rw [hr, ← hp]; simp
  rw [if_pos hlt]
  congr 2
  rw [hr, ← hp]
  simp [List.getElem_append_right]

/-- What `addToRingReverse` appends to ring `ringN` is what it takes out of the pool. -/
theorem addToRingReverse_rings (H : List candidate) (ringN : Nat) :
    ∀ (fuel c : Nat) (rc rc' : ringComputer) (pre : List (List Nat)) (old : List Nat)
      (post : List (List Nat)), rc.unorganized.Nodup → rc.rings = pre ++ old :: post →
      pre.length = ringN → rc.addToRingReverse H ringN fuel c = .ok rc' →
      ∃ added, rc'.rings = pre ++ (old ++ added) :: post ∧
        (added ++ rc'.unorganized).Perm rc.unorganized := by
  intro fuel
  induction fuel with
  | zero => intro c rc rc' pre old post _ _ _ h; simp [ringComputer.addToRingReverse] at h
  | succ fuel ih =>
    intro c rc rc' pre old post hnd hr hp h
    unfold ringComputer.addToRingReverse at h
    have inner : ∀ (l : List Nat) (rc rc' : ringComputer) (old : List Nat),
        rc.unorganized.Nodup → rc.rings = pre ++ old :: post →
        l.foldlM (fun rc c =>
            match rc.removeFromUnorganized c with
            | (rc1, true) => do
              let rc2 ← rc1.appendToRing ringN c
              ringComputer.addToRingReverse H ringN fuel c rc2
            | (rc1, false) => .ok rc1) rc = .ok rc' →
        ∃ added, rc'.rings = pre ++ (old ++ added) :: post ∧
          (added ++ rc'.unorganized).Perm rc.unorganized := by
      intro l
      induction l with
      | nil =>
        intro rc rc' old _ hr h
        simp only [List.foldlM_nil, pure, Except.pure, Except.ok.injEq] at h
        subst h
        exact ⟨[], by simpa using hr, by simp⟩
      | cons v l ihl =>
        intro rc rc' old hnd hr h
        rw [List.foldlM_cons] at h
        by_cases hv : v ∈ rc.unorganized
        · obtain ⟨rc1, h1, h2, h3, h4⟩ := removeFromUnorganized_perm rc v hnd hv
          have a1 := appendToRing_rings rc1 ringN v pre old post (by rw [h2]; exact hr) hp
          rw [h1] at h
          simp only [bind, Except.bind, a1] at h
          cases hrec : ringComputer.addToRingReverse H ringN fuel v
              { rings := pre ++ (old ++ [v]) :: post, unorganized := rc1.unorganized } with
          | error e => rw [hrec] at h; cases h
          | ok rc3 =>
            rw [hrec] at h
            obtain ⟨ad1, b1, b2⟩ := ih v
              { rings := pre ++ (old ++ [v]) :: post, unorganized := rc1.unorganized } rc3 pre
              (old ++ [v]) post h3 rfl hp hrec
            simp only at b2
            have hnd3 : rc3.unorganized.Nodup :=
              ((b2.nodup_iff).2 h3).of_append_right
            obtain ⟨ad2, c1, c2⟩ := ihl rc3 rc' (old ++ [v] ++ ad1) hnd3 b1 h
            refine ⟨v :: ad1 ++ ad2, by rw [c1]; simp, ?_⟩
            have e1 : (v :: ad1 ++ ad2 ++ rc'.unorganized).Perm
                (v :: (ad1 ++ rc3.unorganized)) := by
              simp only [List.cons_append, List.append_assoc]
              exact List.Perm.cons _ (List.Perm.append_left _ c2)
            exact e1.trans ((List.Perm.cons _ b2).trans h4)
        · rw [removeFromUnorganized_not_mem rc v hv] at h
          exact ihl rc rc' old hnd hr h
    exact inner _ rc rc' old hnd hr h

/-- What `addToRingForward` appends to ring `ringN` is what it takes out of the pool. -/
theorem addToRingForward_rings (H : List candidate) (ringN : Nat) :
    ∀ (fuel : Nat) (p : Option Nat) (rc rc' : ringComputer) (pre : List (List Nat))
      (old : List Nat) (post : List (List Nat)), rc.unorganized.Nodup →
      rc.rings = pre ++ old :: post → pre.length = ringN →
      rc.addToRingForward H ringN fuel p = .ok rc' →
      ∃ added, rc'.rings = pre ++ (old ++ added) :: post ∧
        (added ++ rc'.unorganized).Perm rc.unorganized := by
  intro fuel
  induction fuel with
  | zero =>
    intro p rc rc' pre old post _ hr _ h
    cases p with
    | none =>
      simp only [ringComputer.addToRingForward, Except.ok.injEq] at h
      subst h
      exact ⟨[], by simpa using hr, by simp⟩
    | some c => simp [ringComputer.addToRingForward] at h
  | succ fuel ih =>
    intro p rc rc' pre old post hnd hr hp h
    cases p with
    | none =>
      simp only [ringComputer.addToRingForward, Except.ok.injEq] at h
      subst h
      exact ⟨[], by simpa using hr, by simp⟩
    | some c =>
      unfold ringComputer.addToRingForward at h
      by_cases hc : c ∈ rc.unorganized
      · obtain ⟨rc1, h1, h2, h3, h4⟩ := removeFromUnorganized_perm rc c hnd hc
        rw [h1] at h
        simp only [bind, Except.bind] at h
        cases hrev : ringComputer.addToRingReverse H ringN (fuel + 1) c rc1 with
        | error e => rw [hrev] at h; cases h
        | ok rc2 =>
          rw [hrev] at h
          simp only at h
          obtain ⟨ad1, b1, b2⟩ := addToRingReverse_rings H ringN (fuel + 1) c rc1 rc2 pre old
            post h3 (by rw [h2]; exact hr) hp hrev
          have hnd2 : rc2.unorganized.Nodup := ((b2.nodup_iff).2 h3).of_append_right
          rw [appendToRing_rings rc2 ringN c pre (old ++ ad1) post b1 hp] at h
          simp only at h
          obtain ⟨ad2, c1, c2⟩ := ih (getC H c).voteFor
            { rings := pre ++ (old ++ ad1 ++ [c]) :: post, unorganized := rc2.unorganized } rc'
            pre (old ++ ad1 ++ [c]) post hnd2 rfl hp h
          simp only at c2
          refine ⟨ad1 ++ c :: ad2, by rw [c1]; simp, ?_⟩
          have e1 : (ad1 ++ c :: ad2 ++ rc'.unorganized).Perm
              (c :: (ad1 ++ rc2.unorganized)) := by
            simp only [List.append_assoc, List.cons_append]
            exact (List.perm_middle).trans (List.Perm.cons _ (List.Perm.append_left _ c2))
          exact e1.trans ((List.Perm.cons _ b2).trans h4)
      · rw [removeFromUnorganized_not_mem rc c hc] at h
        simp only [Except.ok.injEq] at h
        subst h
        exact ⟨[], by simpa using hr, by simp⟩

/-- The loop of `computeRingMembers` empties the pool, and the rings it leaves are
non-empty, partition `T`, and each is closed under connection within `T`. -/
theorem computeRingMembers_loop_partition {votes : List Vote} {vc : VoteCounter}
    (hc : Counted votes vc) (T : List Nat) (hT : T.Nodup)
    (hTlt : ∀ x ∈ T, x < vc.cand.length) :
    ∀ (fuel : Nat) (rc : ringComputer), rc.unorganized.length < fuel → rc.unorganized.Nodup →
      (rc.rings.flatten ++ rc.unorganized).Perm T → (∀ R ∈ rc.rings, R ≠ []) →
      (∀ R ∈ rc.rings, ∀ a ∈ R, ∀ b, b ∈ R ↔ ConnIn vc.cand T a b) →
      ∃ rc', computeRingMembers.loop vc.cand fuel rc = .ok rc' ∧
        rc'.rings.flatten.Perm T ∧ (∀ R ∈ rc'.rings, R ≠ []) ∧
        (∀ R ∈ rc'.rings, ∀ a ∈ R, ∀ b, b ∈ R ↔ ConnIn vc.cand T a b) := by
  have hvfm : ∀ c p, p ∈ (getC vc.cand c).votedForMe → edge vc.cand p = some c :=
    fun c p hp => ((hc.vfm_mem c p).1 hp).2
  intro fuel
  induction fuel with
  | zero => intro rc h; simp at h
  | succ fuel ih =>
    intro rc hf hnd hperm hne hconn
    cases hu : rc.unorganized with
    | nil =>
      rw [computeRingMembers_loop_nil _ _ _ hu]
      rw [hu, List.append_nil] at hperm
      exact ⟨rc, rfl, hperm, hne, hconn⟩
    | cons c rest =>
      rw [computeRingMembers_loop_cons vc.cand _ rc c rest hu]
      have hcU : c ∈ rc.unorganized := by rw [hu]; simp
      have hsub : ∀ x ∈ rc.unorganized, x ∈ T :=
        fun x hx => hperm.subset (List.mem_append_right _ hx)
      have hndall : (rc.rings.flatten ++ rc.unorganized).Nodup := hperm.nodup_iff.2 hT
      have hdisj : ∀ x, x ∈ rc.rings.flatten → x ∉ rc.unorganized := fun x h1 h2 =>
        (List.nodup_append.1 hndall).2.2 h1 h2
      obtain ⟨rc2, a1, a2, a3, a4, a5, a6⟩ := addToRingForward_spec vc.cand T c
        rc.rings.length hvfm (rc.unorganized.length + 1) (some c)
        { rings := rc.rings ++ [[]], unorganized := rc.unorganized } hnd (by simp) (by simp)
        hsub (fun c' hc' _ => by cases hc'; exact Relation.ReflTransGen.refl)
      obtain ⟨added, b1, b2⟩ := addToRingForward_rings vc.cand rc.rings.length
        (rc.unorganized.length + 1) (some c)
        { rings := rc.rings ++ [[]], unorganized := rc.unorganized } rc2 rc.rings [] [] hnd
        rfl rfl a1
      simp only [List.nil_append] at b1 b2
      simp only at a4 a5
      rw [a1]
      simp only [Except.bind]
      have hnd2 : (added ++ rc2.unorganized).Nodup := b2.nodup_iff.2 hnd
      have hmem : ∀ x, x ∈ added ↔ x ∈ rc.unorganized ∧ x ∉ rc2.unorganized := by
        intro x
        constructor
        · intro hx
          exact ⟨b2.subset (List.mem_append_left _ hx),
            fun h2 => (List.nodup_append.1 hnd2).2.2 hx h2⟩
        · rintro ⟨h1, h2⟩
          rcases List.mem_append.1 (b2.symm.subset h1) with h | h
          · exact h
          · exact absurd h h2
      have hcadd : c ∈ added := (hmem c).2 ⟨hcU, a6 c rfl⟩
      have hlen : added.length + rc2.unorganized.length = rc.unorganized.length := by
        rw [← List.length_append]; exact b2.length_eq
      have hpos : 0 < added.length := List.length_pos_of_mem hcadd
      -- the new ring is closed under adjacency within `T`
      have hcl : ∀ x ∈ added, ∀ y, Adj vc.cand T x y → y ∈ added := by
        intro x hx y hadj
        have hx1 := (hmem x).1 hx
        obtain ⟨_, hseal⟩ := a5 x hx1.1 hx1.2
        have hy2 : y ∉ rc2.unorganized := by
          rcases hadj.2.2 with he | he
          · exact hseal.2 y he
          · exact hseal.1 y ((hc.vfm_mem x y).2 ⟨hTlt y hadj.2.1, he⟩)
        rcases List.mem_append.1 (hperm.symm.subset hadj.2.1) with h | h
        · exfalso
          obtain ⟨R, hR, hyR⟩ := List.mem_flatten.1 h
          have hxR : x ∈ R := (hconn R hR y hyR x).2
            (Relation.ReflTransGen.single (Adj.comm hadj))
          exact hdisj x (List.mem_flatten.2 ⟨R, hR, hxR⟩) hx1.1
        · exact (hmem y).2 ⟨h, hy2⟩
      apply ih rc2 (by omega) a2
      · rw [b1]
        simp only [List.flatten_append, List.flatten_cons, List.flatten_nil, List.append_nil,
          List.append_assoc]
        exact (List.Perm.append_left _ b2).trans hperm
      · intro R hR
        rw [b1] at hR
        rcases List.mem_append.1 hR with h | h
        · exact hne R h
        · simp only [List.mem_singleton] at h
          subst h
          exact List.ne_nil_of_length_pos hpos
      · intro R hR
        rw [b1] at hR
        rcases List.mem_append.1 hR with h | h
        · exact hconn R h
        · simp only [List.mem_singleton] at h
          subst h
          intro a ha b
          constructor
          · intro hb
            have h1 := (a5 a ((hmem a).1 ha).1 ((hmem a).1 ha).2).1
            have h2 := (a5 b ((hmem b).1 hb).1 ((hmem b).1 hb).2).1
            exact Relation.ReflTransGen.trans (ConnIn.reverse h1) h2
          · intro hab
            induction hab with
            | refl => exact ha
            | tail _ hadj ihy => exact hcl _ ihy _ hadj

/-- The rings that `computeRingMembers` returns for a duplicate-free list `T` of candidates
are the classes of connection within `T`. -/
theorem computeRingMembers_partition {votes : List Vote} {vc : VoteCounter}
    (hc : Counted votes vc) (T : List Nat) (hT : T.Nodup)
    (hTlt : ∀ x ∈ T, x < vc.cand.length) :
    ∃ rings, computeRingMembers vc.cand T = .ok rings ∧ (∀ R ∈ rings, R ≠ []) ∧
      rings.flatten.Perm T ∧
      ∀ a ∈ T, ∀ b ∈ T, ((∃ R ∈ rings, a ∈ R ∧ b ∈ R) ↔ ConnIn vc.cand T a b) := by
  obtain ⟨rc, h1, h2, h3, h4⟩ := computeRingMembers_loop_partition hc T hT hTlt
    (T.length + 1) { rings := [], unorganized := T } (by simp) hT (by simp) (by simp)
    (by simp)
  refine ⟨rc.rings, by simp [computeRingMembers, h1, bind, Except.bind, pure, Except.pure],
    h3, h2, ?_⟩
  intro a ha b _
  constructor
  · rintro ⟨R, hR, haR, hbR⟩
    exact (h4 R hR a haR b).1 hbR
  · intro hab
    obtain ⟨R, hR, haR⟩ := List.mem_flatten.1 (h2.symm.subset ha)
    exact ⟨R, hR, haR, (h4 R hR a haR b).2 hab⟩

/-- The first members of the rings are one representative for each class of connection. -/
theorem rings_transversal (H : List candidate) (T : List Nat) (hT : T.Nodup)
    (rings : List (List Nat)) (hne : ∀ R ∈ rings, R ≠ []) (hperm : rings.flatten.Perm T)
    (hconn : ∀ a ∈ T, ∀ b ∈ T, ((∃ R ∈ rings, a ∈ R ∧ b ∈ R) ↔ ConnIn H T a b)) :
    (∀ r ∈ rings.map (fun R => R.headD 0), r ∈ T) ∧
    (∀ a ∈ T, ∃ r ∈ rings.map (fun R => R.headD 0), ConnIn H T r a) ∧
    (rings.map (fun R => R.headD 0)).Pairwise (fun r s => ¬ ConnIn H T r s) := by
  have hhead : ∀ R ∈ rings, R.headD 0 ∈ R := by
    intro R hR
    cases R with
    | nil => exact absurd rfl (hne _ hR)
    | cons x R => simp
  have hin : ∀ R ∈ rings, ∀ x ∈ R, x ∈ T := fun R hR x hx =>
    hperm.subset (List.mem_flatten.2 ⟨R, hR, hx⟩)
  have hnd : rings.flatten.Nodup := hperm.nodup_iff.2 hT
  rw [List.nodup_flatten] at hnd
  refine ⟨?_, ?_, ?_⟩
  · intro r hr
    obtain ⟨R, hR, rfl⟩ := List.mem_map.1 hr
    exact hin R hR _ (hhead R hR)
  · intro a ha
    obtain ⟨R, hR, haR⟩ := List.mem_flatten.1 (hperm.symm.subset ha)
    exact ⟨R.headD 0, List.mem_map.2 ⟨R, hR, rfl⟩,
      (hconn _ (hin R hR _ (hhead R hR)) a ha).1 ⟨R, hR, hhead R hR, haR⟩⟩
  · rw [List.pairwise_map]
    refine hnd.2.imp_of_mem ?_
    intro R1 R2 h1 h2 hdis hc
    obtain ⟨R, hR, ha, hb⟩ := (hconn _ (hin R1 h1 _ (hhead R1 h1)) _
      (hin R2 h2 _ (hhead R2 h2))).2 hc
    have hsym : Symmetric (List.Disjoint : List Nat → List Nat → Prop) :=
      fun _ _ h => h.symm
    have e1 : R = R1 := by
      by_contra hne1
      exact hnd.2.forall hsym hR h1 hne1 ha (hhead R1 h1)
    have e2 : R = R2 := by
      by_contra hne2
      exact hnd.2.forall hsym hR h2 hne2 hb (hhead R2 h2)
    subst e1
    subst e2
    exact hdis (hhead R hR) (hhead R hR)

/-- C16: on a counter built by `MkVoteCounter` with a willing candidate, the top tier
`T` of `getBestCandidates` is duplicate-free, and `computeRingMembers(T)` returns
non-empty rings that partition `T` (their concatenation is a permutation of `T`); two
members of `T` are in the same ring exactly when an undirected path of delegation edges
through members of `T` connects them; and the ring count that `getBestCandidates` returns
is the number of these classes: the first members of the rings are one representative of
each class. -/
theorem rings_are_connected_components (S : SortSlice) (votes : List Vote) :
    ∃ vc, MkVoteCounter S votes = .ok vc ∧
      ∀ best, vc.best = some best →
        ∃ T rings, getBestCandidates vc.cand vc.best = .ok (T, rings.length) ∧ T.Nodup ∧
          computeRingMembers vc.cand T = .ok rings ∧ (∀ R ∈ rings, R ≠ []) ∧
          rings.flatten.Perm T ∧
          (∀ a ∈ T, ∀ b ∈ T, ((∃ R ∈ rings, a ∈ R ∧ b ∈ R) ↔ ConnIn vc.cand T a b)) ∧
          (rings.map (fun R => R.headD 0)).length = rings.length ∧
          (∀ r ∈ rings.map (fun R => R.headD 0), r ∈ T) ∧
          (∀ a ∈ T, ∃ r ∈ rings.map (fun R => R.headD 0), ConnIn vc.cand T r a) ∧
          (rings.map (fun R => R.headD 0)).Pairwise (fun r s => ¬ ConnIn vc.cand T r s) := by
  obtain ⟨vc, h1, hc⟩ := MkVoteCounter_spec S votes
  refine ⟨vc, h1, ?_⟩
  intro b hb
  obtain ⟨T, E, ht, hloop⟩ := topTier_spec hc b hb
  obtain ⟨rings, r1, r2, r3, r4⟩ := computeRingMembers_partition hc T ht.nodupT
    (fun x hx => ht.mem_lt hc x hx)
  obtain ⟨t1, t2, t3⟩ := rings_transversal vc.cand T ht.nodupT rings r2 r3 r4
  refine ⟨T, rings, ?_, ht.nodupT, r1, r2, r3, r4, by simp, t1, t2, t3⟩
  rw [hb]
  simp only [getBestCandidates, hloop, r1, bind, Except.bind, pure, Except.pure]

theorem score_eq_externalScore (H : List candidate) (ring : List Nat) (c : Nat)
    (hw : (getC H c).vote.NumberOfVotes < u64) :
    bestOfRing.score H ring c = externalScore H ring c := by
  rw [bestOfRing_score_eq]
  unfold externalScore
  have hf : (getC H c).votedForMe.filter (fun v => !ring.contains v) =
      (getC H c).votedForMe.filter (fun v => decide (v ∉ ring)) := by
    apply List.filter_congr
    intro x _
    simp
  rw [hf]
  split
  · rename_i h
    rw [h]
    simp only [List.map_nil, List.sum_nil, Nat.add_zero]
    unfold own
    exact (Nat.mod_eq_of_lt hw).symm
  · rfl

/-- C17: for a non-empty ring `R` of candidates whose own weights are 64-bit values,
`bestOfRing(R)` returns, in ring order, exactly the members of `R` whose external score
(own votes plus the totals of the voters that are not in `R`, in 64-bit arithmetic) is
maximal over `R`; ties are all kept and the result is not empty. -/
theorem bestOfRing_maximal_external_score (cand : List candidate) (ring : List Nat)
    (hne : ring ≠ []) (hw : ∀ c ∈ ring, (getC cand c).vote.NumberOfVotes < u64) :
    bestOfRing cand ring =
      ring.filter (fun c =>
        decide (∀ d ∈ ring, externalScore cand ring d ≤ externalScore cand ring c)) ∧
    bestOfRing cand ring ≠ [] := by
  refine ⟨?_, bestOfRing_ne_nil cand ring hne⟩
  obtain ⟨wc, h1, h2, h3⟩ := bestOfRing_select_inv (bestOfRing.score cand ring) ring [] 0 []
    rfl (by simp) (Or.inl rfl)
  simp only [List.nil_append] at h1 h2 h3
  have hb : bestOfRing cand ring =
      ring.filter (fun c => decide (bestOfRing.score cand ring c = wc)) := h1
  rw [hb]
  apply List.filter_congr
  intro c hc
  rw [Bool.eq_iff_iff, decide_eq_true_iff, decide_eq_true_iff]
  constructor
  · intro heq d hd
    rw [← score_eq_externalScore cand ring d (hw d hd),
      ← score_eq_externalScore cand ring c (hw c hc), heq]
    exact h2 d hd
  · intro hmax
    have hle := h2 c hc
    rcases h3 with h0 | ⟨d, hd, hdw⟩
    · omega
    · have := hmax d hd
      rw [← score_eq_externalScore cand ring d (hw d hd),
        ← score_eq_externalScore cand ring c (hw c hc), hdw] at this
      omega

/-- C17 on scenario S2: A and B vote for each other, both are in the ring, both have the
external score 10, and `bestOfRing` keeps both in ring order. -/
theorem bestOfRing_maximal_external_score_witness :
    ∃ vc, MkVoteCounter insertionSortSlice votesTie = .ok vc ∧
      ([1, 0] : List Nat) ≠ [] ∧
      (∀ c ∈ ([1, 0] : List Nat), (getC vc.cand c).vote.NumberOfVotes < u64) ∧
      externalScore vc.cand [1, 0] 0 = 10 ∧ externalScore vc.cand [1, 0] 1 = 10 ∧
      bestOfRing vc.cand [1, 0] = [1, 0] ∧
      (bestOfRing vc.cand [1, 0] =
        ([1, 0] : List Nat).filter (fun c =>
          decide (∀ d ∈ ([1, 0] : List Nat),
            externalScore vc.cand [1, 0] d ≤ externalScore vc.cand [1, 0] c)) ∧
      bestOfRing vc.cand [1, 0] ≠ []) := by
  refine ⟨_, rfl, ?_⟩
  exact ⟨by decide, by decide, by decide, by decide, by decide,
    bestOfRing_maximal_external_score _ [1, 0] (by decide) (by decide)⟩

/-- The candidates examined by the climb of `getPatron` continue the trail. -/
theorem getPatron_visited_trail (H : List candidate) (W : Nat) (ring : List Nat)
    (hvfm : ∀ c p, p ∈ (getC H c).votedForMe → edge H p = some c) :
    ∀ (fuel : Nat) (ru : Option Nat) (pp : Nat) (t : List Nat), pp ∉ ring →
      edge H pp = some (t.headD W) → Trail (edge H) W t → (∀ x ∈ t, x ∉ ring) →
      Trail (edge H) W ((getPatron.visited H W ring fuel ru pp).reverse ++ t) ∧
        ∀ x ∈ getPatron.visited H W ring fuel ru pp, x ∉ ring := by
  intro fuel
  induction fuel with
  | zero =>
    intro ru pp t _ _ ht _
    simp only [getPatron.visited, List.reverse_nil, List.nil_append]
    exact ⟨ht, by simp⟩
  | succ fuel ih =>
    intro ru pp t hpp he ht hr
    have hbase : Trail (edge H) W (pp :: t) := ⟨he, ht⟩
    rw [getPatron.visited]
    cases hv : isValidPatron H W pp (getPatron.advance H ru pp) with
    | false =>
      simp only [Bool.not_false, if_true, List.reverse_cons, List.reverse_nil,
        List.nil_append, List.singleton_append]
      exact ⟨hbase, by simpa using hpp⟩
    | true =>
      simp only [Bool.not_true, Bool.false_eq_true, if_false]
      cases hn : getPotentialPatron H pp ring with
      | none =>
        simp only [List.reverse_cons, List.reverse_nil, List.nil_append,
          List.singleton_append]
        exact ⟨hbase, by simpa using hpp⟩
      | some next =>
        simp only
        have hs := getPotentialPatron_some H pp ring next hn
        obtain ⟨h1, h2⟩ := ih (getPatron.advance H ru pp) next (pp :: t) hs.2
          (by simpa using hvfm pp next hs.1) hbase
          (by
            intro x hx
            rcases List.mem_cons.1 hx with rfl | hx
            · exact hpp
            · exact hr x hx)
        refine ⟨by simpa using h1, ?_⟩
        intro x hx
        rcases List.mem_cons.1 hx with rfl | hx
        · exact hpp
        · exact h2 x hx

theorem edge_some_lt (H : List candidate) (x y : Nat) (h : edge H x = some y) :
    x < H.length := by
  by_contra hlt
  unfold edge at h
  rw [getC_of_le H x (by omega)] at h
  cases h

/-- The climb of `getPatron` from a tentative winner `W` in `ring` examines no candidate
twice, and fewer candidates than there are, whatever the fuel. -/
theorem getPatron_visited_nodup (H : List candidate) (W : Nat) (ring : List Nat)
    (hvfm : ∀ c p, p ∈ (getC H c).votedForMe → edge H p = some c) (hW : W ∈ ring)
    (hWlt : W < H.length) (pp : Nat) (hpp : getPotentialPatron H W ring = some pp)
    (fuel : Nat) (ru : Option Nat) :
    (getPatron.visited H W ring fuel ru pp).Nodup ∧
      (getPatron.visited H W ring fuel ru pp).length < H.length := by
  have hs := getPotentialPatron_some H W ring pp hpp
  obtain ⟨h1, h2⟩ := getPatron_visited_trail H W ring hvfm fuel ru pp [] hs.2
    (by simpa using hvfm W pp hs.1) trivial (by simp)
  rw [List.append_nil] at h1
  have hnd := Trail.nodup (edge H) W ring hW _ h1 (by simpa using h2)
  rw [List.nodup_reverse] at hnd
  refine ⟨hnd, ?_⟩
  have hall : (W :: getPatron.visited H W ring fuel ru pp).Nodup := by
    rw [List.nodup_cons]
    exact ⟨fun hm => h2 W hm hW, hnd⟩
  have := length_le_of_nodup_lt _ H.length hall (by
    intro x hx
    rcases List.mem_cons.1 hx with rfl | hx
    · exact hWlt
    · obtain ⟨y, hy, _⟩ := Trail.edge_mem (edge H) W _ h1 x (by simpa using hx)
      exact edge_some_lt H x y hy)
  simp only [List.length_cons] at this
  omega

/-- C18: on the counter built from any vote list, the patron climb of `getPatron` started
at a tentative winner `W` in the top tier `T` terminates: `getPatron`, whose loop is given
fuel for `|candidates|` iterations, returns a result, and the candidates that the loop
examines, however long it is let run, are pairwise different and fewer than
`|candidates|`. -/
theorem patron_climb_terminates (S : SortSlice) (votes : List Vote) :
    ∃ vc, MkVoteCounter S votes = .ok vc ∧
      ∀ best, vc.best = some best →
        ∃ T ringCount, getBestCandidates vc.cand vc.best = .ok (T, ringCount) ∧
          ∀ W ∈ T, (∃ r, getPatron vc.cand W T = .ok r) ∧
            ∀ pp, getPotentialPatron vc.cand W T = some pp →
              ∀ (fuel : Nat) (runnerUp : Option Nat),
                (getPatron.visited vc.cand W T fuel runnerUp pp).Nodup ∧
                (getPatron.visited vc.cand W T fuel runnerUp pp).length < vc.cand.length := by
  obtain ⟨vc, h1, hc⟩ := MkVoteCounter_spec S votes
  refine ⟨vc, h1, ?_⟩
  intro b hb
  obtain ⟨T, E, ht, hloop⟩ := topTier_spec hc b hb
  obtain ⟨rings, hr⟩ := computeRingMembers_ok vc.cand T
  refine ⟨T, rings.length, ?_, ?_⟩
  · rw [hb]
    simp only [getBestCandidates, hloop, hr, bind, Except.bind, pure, Except.pure]
  · intro W hW
    have hvfm : ∀ c p, p ∈ (getC vc.cand c).votedForMe → edge vc.cand p = some c :=
      fun c p hp => ((hc.vfm_mem c p).1 hp).2
    obtain ⟨L, hL, hch, _⟩ := hc.chain
    have hWL : W ∈ L := hL.symm.subset (List.mem_range.2 ((ht.memT W).1 hW).1)
    obtain ⟨r, hr1, _⟩ := getPatron_ok hc L hL hch W T hW hWL
    refine ⟨⟨r, hr1⟩, ?_⟩
    intro pp hpp fuel ru
    exact getPatron_visited_nodup vc.cand W T hvfm hW (ht.mem_lt hc W hW) pp hpp fuel ru

/-- C19: after `MkVoteCounter`, the list `votedForMe` of every candidate `C` contains
exactly the candidates `D` whose resolved `voteFor` edge is `C`, each of them once, and
never `C` itself. -/
theorem votedForMe_is_inverse_of_voteFor (S : SortSlice) (votes : List Vote) :
    ∃ vc, MkVoteCounter S votes = .ok vc ∧
      ∀ c, (getC vc.cand c).votedForMe.Nodup ∧
        (∀ d, d ∈ (getC vc.cand c).votedForMe ↔
          d < vc.cand.length ∧ (getC vc.cand d).voteFor = some c) ∧
        c ∉ (getC vc.cand c).votedForMe := by
  obtain ⟨vc, h1, hc⟩ := MkVoteCounter_spec S votes
  refine ⟨vc, h1, ?_⟩
  intro c
  refine ⟨?_, fun d => hc.vfm_mem c d, ?_⟩
  · rw [hc.vfm c]
    exact (List.nodup_range _).filter _
  · intro hm
    exact (hc.edge_lt c c ((hc.vfm_mem c c).1 hm).2).2 rfl

theorem ChainFrom_unique (H : List candidate) (l1 : List Nat) :
    ∀ (l2 : List Nat) (p : Option Nat), ChainFrom H p l1 → ChainFrom H p l2 → l1 = l2 := by
  induction l1 with
  | nil =>
    intro l2 p h1 h2
    cases l2 with
    | nil => rfl
    | cons a l2 =>
      have e1 : p = none := h1
      have e2 : p = some a := h2.1
      rw [e1] at e2; cases e2
  | cons a l1 ih =>
    intro l2 p h1 h2
    cases l2 with
    | nil =>
      have e1 : p = some a := h1.1
      have e2 : p = none := h2
      rw [e1] at e2; cases e2
    | cons b l2 =>
      have e1 : p = some a := h1.1
      have e2 : p = some b := h2.1
      rw [e1] at e2
      cases e2
      rw [ih l2 _ h1.2 h2.2]

theorem Trail.chain (e : Nat → Option Nat) (W : Nat) (t : List Nat) :
    ∀ p, Trail e W (p :: t) → List.Chain (fun a b => e a = some b) p (t ++ [W]) := by
  induction t with
  | nil =>
    intro p h
    exact List.Chain.cons (by simpa using h.1) List.Chain.nil
  | cons q t ih =>
    intro p h
    exact List.Chain.cons (by simpa using h.1) (ih q h.2)

/-- What a climb returns: the patron it was entered with, or a candidate `p` at the head
of a trail to `W` on which every patron was valid when it was promoted. -/
theorem Climb.result {H : List candidate} {tw : Nat} {T : List Nat} {W : Nat}
    (hvfm : ∀ c p, p ∈ (getC H c).votedForMe → edge H p = some c)
    {trail : List Nat} {pp : Nat} {patron r : Option Nat}
    (h : Climb H tw T W trail pp patron r) :
    Trail (edge H) W (pp :: trail) → (∀ x ∈ pp :: trail, x ∉ T) →
    (∀ q t, (q :: t) <:+ trail → PatronOK H tw T t W q) →
    r = patron ∨ ∃ p path, r = some p ∧ Trail (edge H) W (p :: path) ∧
      (∀ x ∈ p :: path, x ∉ T) ∧ ∀ q t, (q :: t) <:+ (p :: path) → PatronOK H tw T t W q := by
  induction h with
  | stop trail pp patron _ => intro _ _ _; exact Or.inl rfl
  | last trail pp patron hok _ =>
    intro ht hx hall
    refine Or.inr ⟨pp, trail, rfl, ht, hx, ?_⟩
    intro q t hs
    rcases List.suffix_cons_iff.1 hs with h1 | h1
    · cases h1; exact hok
    · exact hall q t h1
  | next trail pp patron q r hok hn _ ih =>
    intro ht hx hall
    have hs := getPotentialPatron_some H pp T q hn
    have hall1 : ∀ q t, (q :: t) <:+ (pp :: trail) → PatronOK H tw T t W q := by
      intro q t hs
      rcases List.suffix_cons_iff.1 hs with h1 | h1
      · cases h1; exact hok
      · exact hall q t h1
    rcases ih ⟨by simpa using hvfm pp q hs.1, ht⟩
      (by
        intro x hxm
        rcases List.mem_cons.1 hxm with rfl | hxm
        · exact hs.2
        · exact hx x hxm) hall1 with h1 | h1
    · exact Or.inr ⟨pp, trail, h1, ht, hx, hall1⟩
    · exact Or.inr h1

/-- The patrons promoted by a climb, in the order of their promotion, head the descending
chain `E` of the willing candidates outside the top tier. -/
theorem patrons_head_chain (H : List candidate) (tw : Nat) (T : List Nat) (W : Nat)
    (E : List Nat) (hnd : E.Nodup) (hs : E.Pairwise (fun a b => total H b ≤ total H a))
    (hmem : ∀ x, x ∈ E ↔ x < tw ∧ x ∉ T)
    (hwill : ∀ x, (getC H x).willingCandidate = true → x < tw) :
    ∀ l : List Nat, l.Nodup → (∀ x ∈ l, x ∉ T) →
      (∀ q t, (q :: t) <:+ l → PatronOK H tw T t W q) → ∃ E', E = l.reverse ++ E' := by
  intro l
  induction l with
  | nil => intro _ _ _; exact ⟨E, by simp⟩
  | cons p t ih =>
    intro hl hT hall
    rw [List.nodup_cons] at hl
    obtain ⟨E1, hE1⟩ := ih hl.2 (fun x hx => hT x (List.mem_cons_of_mem _ hx))
      (fun q t' hq => hall q t' (List.suffix_cons_iff.2 (Or.inr hq)))
    have hok := hall p t (List.suffix_refl _)
    have hpE : p ∈ E := (hmem p).2 ⟨hwill p hok.1, hT p (List.mem_cons_self _ _)⟩
    have hpE1 : p ∈ E1 := by
      rw [hE1] at hpE
      rcases List.mem_append.1 hpE with h | h
      · exact absurd (List.mem_reverse.1 h) hl.1
      · exact h
    rw [hE1] at hnd hs
    cases E1 with
    | nil => simp at hpE1
    | cons h E2 =>
      by_cases hhp : h = p
      · subst hhp
        exact ⟨E2, by rw [hE1]; simp⟩
      · exfalso
        have hp2 : p ∈ E2 := by
          rcases List.mem_cons.1 hpE1 with h1 | h1
          · exact absurd h1.symm hhp
          · exact h1
        have hle : total H p ≤ total H h :=
          (List.pairwise_cons.1 (List.pairwise_append.1 hs).2.1).1 p hp2
        have hhE : h ∈ E := by rw [hE1]; simp
        have hht : h ∉ t := fun hm =>
          (List.nodup_append.1 hnd).2.2 (List.mem_reverse.2 hm) (List.mem_cons_self _ _)
        have := hok.2.2 h ((hmem h).1 hhE).1 ((hmem h).1 hhE).2 hht hhp
        omega

/-- C20: when `getPatron` returns the patron `P` for the tentative winner `W` of the top
tier `T` (so that `solveWinner` replaces `W` by `P`), there is a delegation path from `P`
to `W` such that `P.totalIndirectVotes` is strictly greater than the total of every
willing candidate that is outside `T` and not on the path; and the patrons promoted by
the climb, in the order of their promotion, are the first entries of the descending chain
after the top tier. -/
theorem patron_beats_outside_competitors (S : SortSlice) (votes : List Vote)
    (vc : VoteCounter) (hmk : MkVoteCounter S votes = .ok vc) (T : List Nat)
    (ringCount : Nat) (hb : getBestCandidates vc.cand vc.best = .ok (T, ringCount))
    (W : Nat) (hW : W ∈ T) (P : Nat) (hP : getPatron vc.cand W T = .ok (some P)) :
    ∃ path rest,
      List.Chain (fun a b => (getC vc.cand a).voteFor = some b) P (path ++ [W]) ∧
      (∀ x, (getC vc.cand x).willingCandidate = true → x ∉ T → x ∉ P :: path →
        (getC vc.cand x).totalIndirectVotes < (getC vc.cand P).totalIndirectVotes) ∧
      ChainFrom vc.cand vc.best (T ++ ((P :: path).reverse ++ rest)) := by
  obtain ⟨vc1, h1, hc⟩ := MkVoteCounter_spec S votes
  rw [hmk] at h1
  cases h1
  have hvfm : ∀ c p, p ∈ (getC vc.cand c).votedForMe → edge vc.cand p = some c :=
    fun c p hp => ((hc.vfm_mem c p).1 hp).2
  cases hbest : vc.best with
  | none => rw [hbest] at hb; cases hb
  | some b =>
    obtain ⟨T1, E, ht, hloop⟩ := topTier_spec hc b hbest
    obtain ⟨rings, hr⟩ := computeRingMembers_ok vc.cand T1
    rw [hbest] at hb
    simp only [getBestCandidates, hloop, hr, bind, Except.bind, pure, Except.pure,
      Except.ok.injEq, Prod.mk.injEq] at hb
    obtain ⟨hTT, _⟩ := hb
    subst hTT
    obtain ⟨L, hL, hch, hsorted⟩ := hc.chain
    have hlenL : L.length < vc.cand.length + 1 := by
      have := hL.length_eq
      rw [List.length_range] at this
      have := hc.tw_le
      omega
    have hch1 := hch
    rw [hbest] at hch1
    have hspec := getBestCandidates_loop_spec vc.cand (getC vc.cand b).totalIndirectVotes L
      (vc.cand.length + 1) (some b) [] hch1 hlenL
    rw [hloop, List.nil_append] at hspec
    simp only [Except.ok.injEq] at hspec
    have hsplit : T1 ++ L.dropWhile
        (fun a => decide (total vc.cand a = (getC vc.cand b).totalIndirectVotes)) = L := by
      rw [hspec]; exact List.takeWhile_append_dropWhile _ _
    generalize L.dropWhile
        (fun a => decide (total vc.cand a = (getC vc.cand b).totalIndirectVotes)) = E0
      at hsplit
    have hLnd : L.Nodup := hL.nodup_iff.2 (List.nodup_range _)
    have hLmem : ∀ x, x ∈ L ↔ x < vc.totalWillingCandidates := by
      intro x; rw [hL.mem_iff, List.mem_range]
    rw [← hsplit] at hLnd hsorted hLmem
    have hE0mem : ∀ x, x ∈ E0 ↔ x < vc.totalWillingCandidates ∧ x ∉ T1 := by
      intro x
      constructor
      · intro hx
        exact ⟨(hLmem x).1 (List.mem_append_right _ hx),
          fun hxT => (List.nodup_append.1 hLnd).2.2 hxT hx⟩
      · rintro ⟨h1, h2⟩
        rcases List.mem_append.1 ((hLmem x).2 h1) with h | h
        · exact absurd h h2
        · exact h
    rcases getPatron_climb hc ht W hW (some P) hP with ⟨_, h⟩ | ⟨pp, hpp, hclimb⟩
    · cases h
    · have hs := getPotentialPatron_some vc.cand W T1 pp hpp
      rcases Climb.result hvfm hclimb ⟨by simpa using hvfm W pp hs.1, trivial⟩
          (by simpa using hs.2)
          (by intro q t hq; simp at hq) with h | ⟨p, path, h, htrail, hnotT, hall⟩
      · cases h
      · cases h
        have hnd := Trail.nodup (edge vc.cand) W T1 hW _ htrail hnotT
        obtain ⟨rest, hrest⟩ := patrons_head_chain vc.cand vc.totalWillingCandidates T1 W E0
          (List.nodup_append.1 hLnd).2.1 (List.pairwise_append.1 hsorted).2.1 hE0mem
          (fun x hx => (hc.willing x).1 hx) (P :: path) hnd hnotT hall
        refine ⟨path, rest, Trail.chain _ W path P htrail, ?_, ?_⟩
        · intro x hx hxT hxp
          have hok := hall P path (List.suffix_refl _)
          rw [List.mem_cons, not_or] at hxp
          exact hok.2.2 x ((hc.willing x).1 hx) hxT hxp.2 hxp.1
        · rw [← hrest, hsplit]
          exact hch1

/-- C20 on scenario S3: the top tier is C alone, the patron B (total 6) is the head of the
chain after C, and no willing candidate is left outside. -/
theorem patron_beats_outside_competitors_witness :
    ∃ vc, MkVoteCounter insertionSortSlice votesPatron = .ok vc ∧
      getBestCandidates vc.cand vc.best = .ok ([1], 1) ∧ 1 ∈ ([1] : List Nat) ∧
      getPatron vc.cand 1 [1] = .ok (some 0) ∧
      ∃ path rest,
        List.Chain (fun a b => (getC vc.cand a).voteFor = some b) 0 (path ++ [1]) ∧
        (∀ x, (getC vc.cand x).willingCandidate = true → x ∉ ([1] : List Nat) →
          x ∉ 0 :: path →
          (getC vc.cand x).totalIndirectVotes < (getC vc.cand 0).totalIndirectVotes) ∧
        ChainFrom vc.cand vc.best ([1] ++ ((0 :: path).reverse ++ rest)) := by
  refine ⟨_, rfl, rfl, by decide, rfl, ?_⟩
  exact patron_beats_outside_competitors insertionSortSlice votesPatron _ rfl [1] 1 rfl 1
    (by decide) 0 rfl

theorem Mem.Keeps.refl (b : Nat) (m : Mem) : m.Keeps b m :=
  ⟨rfl, rfl, rfl, Nat.le_refl _, fun _ => Nat.le_refl _, fun _ _ => rfl⟩

theorem Mem.Keeps.trans {b : Nat} {m m1 m2 : Mem} (h : m.Keeps b m1) (h1 : m1.Keeps b m2) :
    m.Keeps b m2 :=
  ⟨h1.cand.trans h.cand, h1.tw.trans h.tw, h1.best.trans h.best,
    Nat.le_trans h.size h1.size, fun a => Nat.le_trans (h.grows a) (h1.grows a),
    fun a ha => (h1.old a ha).trans (h.old a ha)⟩

theorem Mem.Keeps.below {b c : Nat} {m m1 : Mem} (h : m.Keeps b m1) (hc : c ≤ b) :
    m.Keeps c m1 :=
  ⟨h.cand, h.tw, h.best, h.size, h.grows, fun a ha => h.old a (by omega)⟩

theorem Mem.Holds.keeps {b c : Nat} {m m1 : Mem} {s : Slice} (hs : m.Holds b s)
    (h : m.Keeps c m1) : m1.Holds b s := by
  refine ⟨hs.1, ?_⟩
  rcases hs.2 with h0 | ⟨h1, h2, h3⟩
  · exact Or.inl h0
  · exact Or.inr ⟨h1, by have := h.size; omega, by have := h.grows s.arr; omega⟩

theorem Mem.Holds.lower {b c : Nat} {m : Mem} {s : Slice} (hs : m.Holds b s) (hc : c ≤ b) :
    m.Holds c s := by
  refine ⟨hs.1, ?_⟩
  rcases hs.2 with h0 | ⟨h1, h2, h3⟩
  · exact Or.inl h0
  · exact Or.inr ⟨by omega, h2, h3⟩

theorem Mem.elems_keeps {b c : Nat} {m m1 : Mem} {s : Slice} (h : m.Keeps b m1)
    (hs : m.Holds c s) (hb : s.cap = 0 ∨ s.arr < b) : m1.elems s = m.elems s := by
  unfold Mem.elems
  rcases hb with h0 | h0
  · have : s.len = 0 := by have := hs.1; omega
    rw [this]; simp
  · rw [h.old _ h0]

theorem Mem.elems_length {b : Nat} {m : Mem} {s : Slice} (hs : m.Holds b s) :
    (m.elems s).length = s.len := by
  unfold Mem.elems
  rw [List.length_take]
  rcases hs.2 with h0 | ⟨_, _, h3⟩
  · have := hs.1; omega
  · have := hs.1; omega

theorem Mem.index_eq (m : Mem) (s : Slice) (i : Nat)
    (hi : i < s.len) : m.index s i = .ok ((m.elems s).getD i 0) := by
  unfold Mem.index Mem.elems
  rw [if_pos hi]
  congr 1
  simp only [List.getD_eq_getElem?_getD, List.getElem?_take, if_pos hi]

theorem Mem.array_set_self (m : Mem) (a : Nat) (x : List Nat) (ha : a < m.arrays.length) :
    ({ m with arrays := m.arrays.set a x } : Mem).array a = x := by
  unfold Mem.array
  simp [List.getD_eq_getElem?_getD, List.getElem?_set, ha]

theorem Mem.array_set_other (m : Mem) (a a1 : Nat) (x : List Nat) (h : a1 ≠ a) :
    ({ m with arrays := m.arrays.set a x } : Mem).array a1 = m.array a1 := by
  unfold Mem.array
  simp [List.getD_eq_getElem?_getD, List.getElem?_set, Ne.symm h]

theorem Mem.array_set_same (m : Mem) (a a1 : Nat) :
    ({ m with arrays := m.arrays.set a (m.array a) } : Mem).array a1 = m.array a1 := by
  by_cases h : a1 = a
  · subst h
    by_cases ha : a1 < m.arrays.length
    · rw [Mem.array_set_self m a1 _ ha]
    · have : m.arrays.set a1 (m.array a1) = m.arrays :=
        List.set_eq_of_length_le (by omega)
      unfold Mem.array at this ⊢
      simp only [this]
  · exact Mem.array_set_other m a a1 _ h

theorem Mem.array_push_old (m : Mem) (x : List Nat) (a : Nat) (ha : a < m.arrays.length) :
    ({ m with arrays := m.arrays ++ [x] } : Mem).array a = m.array a := by
  unfold Mem.array
  simp [List.getD_eq_getElem?_getD, List.getElem?_append_left ha]

theorem Mem.array_push_new (m : Mem) (x : List Nat) :
    ({ m with arrays := m.arrays ++ [x] } : Mem).array m.arrays.length = x := by
  unfold Mem.array
  simp [List.getD_eq_getElem?_getD]

theorem Mem.array_out (m : Mem) (a : Nat) (ha : m.arrays.length ≤ a) : m.array a = [] := by
  unfold Mem.array
  simp [List.getD_eq_getElem?_getD, List.getElem?_eq_none ha]

theorem Mem.elems_cap_zero (m : Mem) (b : Nat) (s : Slice) (hs : m.Holds b s)
    (h0 : s.cap = 0) : m.elems s = [] := by
  unfold Mem.elems
  have : s.len = 0 := by have := hs.1; omega
  rw [this]; simp

/-- What `append(s, vs...)` does to the memory: the arrays below `b` are kept, the result
holds the elements of `s` and the values, and a slice apart from `s` is not touched. -/
theorem Mem.appendAll_spec (grow : Nat → Nat) (m : Mem) (b : Nat) (s : Slice) (vs : List Nat)
    (hb : b ≤ m.arrays.length) (hs : m.Holds b s) :
    ∃ s1 m1, m.appendAll grow s vs = (s1, m1) ∧ m.Keeps b m1 ∧ m1.Holds b s1 ∧
      m1.elems s1 = m.elems s ++ vs ∧
      ∀ c t, m.Holds c t → s.Apart t → m1.elems t = m.elems t ∧ s1.Apart t := by
  unfold Mem.appendAll
  simp only
  by_cases hn : s.len + vs.length ≤ s.cap
  · rw [if_pos hn]
    refine ⟨_, _, rfl, ?_⟩
    by_cases h0 : s.cap = 0
    · have hl : s.len = 0 := by omega
      have hv : vs = [] := List.length_eq_zero.1 (by omega)
      subst hv
      have hw : (m.array s.arr).take s.len ++ [] ++ (m.array s.arr).drop (s.len + 0) =
          m.array s.arr := by
        rw [hl]; simp
      simp only [List.length_nil, Nat.add_zero] at hw ⊢
      rw [List.append_nil] at hw
      simp only [List.append_nil]
      rw [hw]
      have harr : ∀ a, ({ m with arrays := m.arrays.set s.arr (m.array s.arr) } : Mem).array a =
          m.array a := fun a => Mem.array_set_same m s.arr a
      refine ⟨⟨rfl, rfl, rfl, by simp, fun a => by rw [harr a], fun a _ => harr a⟩,
        ⟨by simp [hl], Or.inl h0⟩, ?_, ?_⟩
      · unfold Mem.elems; simp [hl]
      · intro c t _ _
        refine ⟨?_, Or.inl h0⟩
        unfold Mem.elems; rw [harr]
    · rcases hs.2 with h1 | ⟨h1, h2, h3⟩
      · exact absurd h1 h0
      · have hself := Mem.array_set_self m s.arr
          ((m.array s.arr).take s.len ++ vs ++ (m.array s.arr).drop (s.len + vs.length)) h2
        have hother := fun a1 (h : a1 ≠ s.arr) => Mem.array_set_other m s.arr a1
          ((m.array s.arr).take s.len ++ vs ++ (m.array s.arr).drop (s.len + vs.length)) h
        have hlen : ((m.array s.arr).take s.len ++ vs ++
            (m.array s.arr).drop (s.len + vs.length)).length = (m.array s.arr).length := by
          simp only [List.length_append, List.length_take, List.length_drop]
          have := hs.1
          omega
        refine ⟨⟨rfl, rfl, rfl, by simp, ?_, ?_⟩, ⟨hn, Or.inr ⟨h1, by simpa using h2, ?_⟩⟩,
          ?_, ?_⟩
        · intro a
          by_cases ha : a = s.arr
          · subst ha; rw [hself, hlen]
          · rw [hother a ha]
        · intro a ha
          exact hother a (by omega)
        · simp only
          rw [hself, hlen]; exact h3
        · unfold Mem.elems
          simp only
          rw [hself]
          have htl : ((m.array s.arr).take s.len).length = s.len := by
            rw [List.length_take]; have := hs.1; omega
          rw [List.append_assoc, List.take_append_eq_append_take, htl]
          rw [List.take_of_length_le (by rw [htl]; omega)]
          simp
        · intro c t ht hap
          refine ⟨?_, hap⟩
          rcases hap with h | h | h
          · exact absurd h h0
          · rw [Mem.elems_cap_zero _ c t (ht.keeps (Mem.Keeps.refl 0 m)) h]
            unfold Mem.elems
            have : t.len = 0 := by have := ht.1; omega
            rw [this]; simp
          · unfold Mem.elems
            rw [hother t.arr (Ne.symm h)]
  · rw [if_neg hn]
    refine ⟨_, _, rfl, ?_⟩
    have hel := Mem.elems_length hs
    generalize hfr : m.elems s ++ vs ++ List.replicate (grow (s.len + vs.length)) 0 = fresh
    have hfl : fresh.length = s.len + vs.length + grow (s.len + vs.length) := by
      rw [← hfr]; simp only [List.length_append, List.length_replicate, hel]
    have hold := fun a (h : a < m.arrays.length) => Mem.array_push_old m fresh a h
    have hnew := Mem.array_push_new m fresh
    refine ⟨⟨rfl, rfl, rfl, by simp, ?_, ?_⟩, ⟨by simp, Or.inr ⟨hb, by simp, ?_⟩⟩, ?_, ?_⟩
    · intro a
      by_cases ha : a < m.arrays.length
      · rw [hold a ha]
      · rw [Mem.array_out m a (by omega)]; simp
    · intro a ha
      exact hold a (by omega)
    · simp only
      rw [hnew, hfl]
    · rw [Mem.elems]
      simp only
      rw [hnew, ← hfr, List.take_append_eq_append_take,
        List.take_of_length_le (by simp [hel])]
      simp [hel]
    · intro c t ht _
      rcases ht.2 with h | ⟨_, h2, _⟩
      · refine ⟨?_, Or.inr (Or.inl h)⟩
        rw [Mem.elems_cap_zero _ c t ht h]
        rw [Mem.elems]
        have : t.len = 0 := by have := ht.1; omega
        rw [this]; simp
      · refine ⟨?_, Or.inr (Or.inr (by simp only; omega))⟩
        rw [Mem.elems, Mem.elems, hold t.arr h2]

theorem Mem.getC_heap (m : Mem) (p : Nat) : getC m.heap p = m.value (m.getM p) := by
  unfold getC Mem.heap Mem.getM
  simp only [List.getD_eq_getElem?_getD, List.getElem?_map]
  cases m.cand[p]? with
  | none => rfl
  | some c => rfl

theorem Mem.heap_keeps {m0 m : Mem} (hwf : m0.WellFormed) (hk : m0.Keeps m0.arrays.length m) :
    m.heap = m0.heap := by
  unfold Mem.heap
  rw [hk.cand]
  apply List.map_congr_left
  intro c hc
  unfold Mem.value
  have hh := hwf c hc
  have : m.elems c.votedForMe = m0.elems c.votedForMe := by
    apply Mem.elems_keeps hk hh
    rcases hh.2 with h | ⟨_, h, _⟩
    · exact Or.inl h
    · exact Or.inr h
  rw [this]

theorem Mem.getM_keeps {b : Nat} {m0 m : Mem} (hk : m0.Keeps b m) (p : Nat) :
    m.getM p = m0.getM p := by
  unfold Mem.getM
  rw [hk.cand]

theorem Mem.WellFormed.kept {b : Nat} {m0 m : Mem} (hwf : m0.WellFormed) (hk : m0.Keeps b m) :
    m.WellFormed := by
  intro c hc
  rw [hk.cand] at hc
  exact (hwf c hc).keeps hk

/-- The write `s[i] = v` changes the backing array of `s` at `i` and nothing else. -/
theorem Mem.store_spec (m : Mem) (b : Nat) (s : Slice) (i v : Nat) (hs : m.Holds b s)
    (hi : i < s.len) :
    ∃ m1, m.store s i v = .ok m1 ∧ m.Keeps b m1 ∧
      m1.array s.arr = (m.array s.arr).set i v ∧ ∀ a, a ≠ s.arr → m1.array a = m.array a := by
  unfold Mem.store
  rw [if_pos hi]
  refine ⟨_, rfl, ?_⟩
  rcases hs.2 with h0 | ⟨h1, h2, h3⟩
  · have := hs.1; omega
  · have hself := Mem.array_set_self m s.arr ((m.array s.arr).set i v) h2
    have hother := fun a1 (h : a1 ≠ s.arr) =>
      Mem.array_set_other m s.arr a1 ((m.array s.arr).set i v) h
    refine ⟨⟨rfl, rfl, rfl, by simp, ?_, ?_⟩, hself, hother⟩
    · intro a
      by_cases ha : a = s.arr
      · subst ha; rw [hself]; simp
      · rw [hother a ha]
    · intro a ha
      exact hother a (by omega)

/-- The loop of `getBestCandidates` on the memory appends to `bestRing` what the loop of
the value model appends, and keeps the arrays below `b`. -/
theorem getBestCandidatesM_loop_spec (grow : Nat → Nat) (m0 : Mem) (hwf : m0.WellFormed)
    (score b : Nat) (hb : m0.arrays.length ≤ b) :
    ∀ (fuel : Nat) (p : Option Nat) (bestRing : Slice) (m : Mem) (T : List Nat),
      m0.Keeps m0.arrays.length m → b ≤ m.arrays.length → m.Holds b bestRing →
      getBestCandidates.loop m0.heap score fuel p (m.elems bestRing) = .ok T →
      ∃ br m1, getBestCandidatesM.loop grow score fuel p bestRing m = .ok (br, m1) ∧
        m.Keeps b m1 ∧ m1.Holds b br ∧ m1.elems br = T := by
  intro fuel
  induction fuel with
  | zero =>
    intro p bestRing m T hk _ hh h
    cases p with
    | none =>
      simp only [getBestCandidates.loop, Except.ok.injEq] at h
      exact ⟨bestRing, m, rfl, Mem.Keeps.refl _ _, hh, h⟩
    | some c => simp [getBestCandidates.loop] at h
  | succ fuel ih =>
    intro p bestRing m T hk hbm hh h
    cases p with
    | none =>
      simp only [getBestCandidates.loop, Except.ok.injEq] at h
      exact ⟨bestRing, m, rfl, Mem.Keeps.refl _ _, hh, h⟩
    | some c =>
      rw [getBestCandidates.loop] at h
      rw [getBestCandidatesM.loop]
      have hfield : ∀ (m' : Mem), m0.Keeps m0.arrays.length m' → ∀ q,
          (m'.getM q).totalIndirectVotes = (getC m0.heap q).totalIndirectVotes ∧
          (m'.getM q).nextByTotalIndirectVotes =
            (getC m0.heap q).nextByTotalIndirectVotes := by
        intro m' hk' q
        rw [← Mem.heap_keeps hwf hk', Mem.getC_heap]
        exact ⟨rfl, rfl⟩
      rw [(hfield m hk c).1]
      by_cases hsc : (getC m0.heap c).totalIndirectVotes = score
      · rw [if_pos hsc] at h ⊢
        obtain ⟨s1, m1, e1, e2, e3, e4, _⟩ := Mem.appendAll_spec grow m b bestRing [c] hbm hh
        have e1' : m.append grow bestRing c = (s1, m1) := e1
        simp only [e1']
        have hk1 : m0.Keeps m0.arrays.length m1 := hk.trans (e2.below hb)
        rw [(hfield m1 hk1 c).2]
        rw [← e4] at h
        obtain ⟨br, m2, f1, f2, f3, f4⟩ := ih _ s1 m1 T hk1
          (by have := e2.size; omega) e3 h
        exact ⟨br, m2, f1, e2.trans f2, f3, f4⟩
      · rw [if_neg hsc] at h ⊢
        simp only [Except.ok.injEq] at h
        exact ⟨bestRing, m, rfl, Mem.Keeps.refl _ _, hh, h⟩

theorem indexOf?_lt (l : List Nat) (c i : Nat) (h : l.indexOf? c = some i) : i < l.length := by
  unfold List.indexOf? at h
  obtain ⟨hlt, _⟩ := List.findIdx?_eq_some_iff_getElem.1 h
  exact hlt

/-- The method `removeFromUnorganized` on the memory does what it does in the value
model, and writes to the array of the pool only. -/
theorem removeFromUnorganizedM_spec (b : Nat) (m : Mem) (rcM : ringComputerM)
    (rc : ringComputer) (c : Nat) (hmod : rcM.Models b m rc) :
    ∃ rcM1 m1, rcM.removeFromUnorganized c m =
        .ok (rcM1, (rc.removeFromUnorganized c).2, m1) ∧
      m.Keeps b m1 ∧ rcM1.Models b m1 (rc.removeFromUnorganized c).1 ∧
      rcM1.rings.length = rcM.rings.length := by
  unfold ringComputerM.removeFromUnorganized ringComputer.removeFromUnorganized
  rw [hmod.elems]
  cases hi : rc.unorganized.indexOf? c with
  | none =>
    exact ⟨rcM, m, rfl, Mem.Keeps.refl _ _, hmod, rfl⟩
  | some i =>
    have hlen : rc.unorganized.length = rcM.unorganized.len := by
      rw [← hmod.elems]; exact Mem.elems_length hmod.pool
    have hil : i < rcM.unorganized.len := by
      rw [← hlen]; exact indexOf?_lt _ _ _ hi
    have hidx := Mem.index_eq m rcM.unorganized (rcM.unorganized.len - 1) (by omega)
    rw [hmod.elems] at hidx
    obtain ⟨m1, s1, s2, s3, s4⟩ := Mem.store_spec m b rcM.unorganized i
      (rc.unorganized.getD (rcM.unorganized.len - 1) 0) hmod.pool hil
    simp only [hidx, bind, Except.bind, s1, pure, Except.pure]
    refine ⟨_, m1, rfl, s2, ?_, rfl⟩
    refine ⟨?_, ?_, hmod.count, ?_⟩
    · have hp := hmod.pool.keeps s2
      refine ⟨by have := hp.1; simp only; omega, ?_⟩
      rcases hp.2 with h | h
      · exact Or.inl h
      · exact Or.inr h
    · unfold Mem.elems
      simp only
      rw [s3, hlen, List.set_take]
      have : rc.unorganized = (m.array rcM.unorganized.arr).take rcM.unorganized.len :=
        hmod.elems.symm
      conv => rhs; rw [this]
      rw [List.set_take, List.take_take]
      congr 2
      omega
    · intro R hR
      exact ⟨(hmod.rings R hR).1.keeps s2, (hmod.rings R hR).2⟩

/-- The statement `rc.rings[ringN] = append(rc.rings[ringN], cand)` on the memory keeps
the pool. -/
theorem appendToRingM_spec (grow : Nat → Nat) (b : Nat) (m : Mem) (rcM : ringComputerM)
    (rc : ringComputer) (ringN c : Nat) (hb : b ≤ m.arrays.length)
    (hmod : rcM.Models b m rc) (hr : ringN < rc.rings.length) :
    ∃ rc1 rcM1 m1, rc.appendToRing ringN c = .ok rc1 ∧
      rcM.appendToRing grow ringN c m = .ok (rcM1, m1) ∧ m.Keeps b m1 ∧
      rcM1.Models b m1 rc1 ∧ rcM1.rings.length = rcM.rings.length := by
  obtain ⟨rc1, p1, p2, p3⟩ := appendToRing_ok rc ringN c hr
  unfold ringComputerM.appendToRing
  have hrM : ringN < rcM.rings.length := by rw [hmod.count]; exact hr
  rw [if_pos hrM]
  have hmem : rcM.rings.getD ringN Slice.empty ∈ rcM.rings := by
    rw [List.getD_eq_getElem _ _ hrM]; exact List.getElem_mem _
  obtain ⟨hR1, hR2⟩ := hmod.rings _ hmem
  obtain ⟨s1, m1, e1, e2, e3, _, e5⟩ := Mem.appendAll_spec grow m b
    (rcM.rings.getD ringN Slice.empty) [c] hb hR1
  have e1' : m.append grow (rcM.rings.getD ringN Slice.empty) c = (s1, m1) := e1
  obtain ⟨u1, u2⟩ := e5 b rcM.unorganized hmod.pool hR2
  refine ⟨rc1, _, _, p1, by rw [e1'], e2, ?_, by simp⟩
  refine ⟨hmod.pool.keeps e2, by simp only; rw [u1, p2]; exact hmod.elems,
    by simp only [List.length_set]; rw [p3]; exact hmod.count, ?_⟩
  intro R hR
  simp only at hR
  rcases List.mem_or_eq_of_mem_set hR with h | h
  · exact ⟨(hmod.rings R h).1.keeps e2, (hmod.rings R h).2⟩
  · subst h
    exact ⟨e3, u2⟩

theorem Mem.holds_votedForMe (m : Mem) (hwf : m.WellFormed) (p : Nat) :
    m.Holds 0 (m.getM p).votedForMe := by
  unfold Mem.getM
  by_cases hp : p < m.cand.length
  · rw [List.getD_eq_getElem _ _ hp]; exact hwf _ (List.getElem_mem _)
  · rw [List.getD_eq_default _ _ (by omega)]
    exact ⟨Nat.le_refl _, Or.inl rfl⟩

theorem Mem.elems_votedForMe {m0 m : Mem} (hwf : m0.WellFormed)
    (hk : m0.Keeps m0.arrays.length m) (p : Nat) :
    m.elems (m0.getM p).votedForMe = (getC m0.heap p).votedForMe := by
  have hh := Mem.holds_votedForMe m0 hwf p
  rw [Mem.elems_keeps hk hh (by
    rcases hh.2 with h | ⟨_, h, _⟩
    · exact Or.inl h
    · exact Or.inr h), Mem.getC_heap]
  rfl

/-- The method `addToRingReverse` on the memory follows the value model and keeps the
arrays below `b`. -/
theorem addToRingReverseM_spec (grow : Nat → Nat) (m0 : Mem) (hwf : m0.WellFormed)
    (b ringN : Nat) (hb : m0.arrays.length ≤ b) :
    ∀ (fuel c : Nat) (m : Mem) (rcM : ringComputerM) (rc rc' : ringComputer),
      m0.Keeps m0.arrays.length m → b ≤ m.arrays.length → rcM.Models b m rc →
      ringN < rc.rings.length → rc.addToRingReverse m0.heap ringN fuel c = .ok rc' →
      ∃ rcM' m', ringComputerM.addToRingReverse grow ringN fuel c rcM m = .ok (rcM', m') ∧
        m.Keeps b m' ∧ rcM'.Models b m' rc' ∧ rcM'.rings.length = rcM.rings.length := by
  intro fuel
  induction fuel with
  | zero => intro c m rcM rc rc' _ _ _ _ h; simp [ringComputer.addToRingReverse] at h
  | succ fuel ih =>
    intro c m rcM rc rc' hk hbm hmod hr h
    rw [ringComputer.addToRingReverse] at h
    rw [ringComputerM.addToRingReverse, Mem.getM_keeps hk]
    have hlen : ((getC m0.heap c).votedForMe).length = (m0.getM c).votedForMe.len := by
      rw [← Mem.elems_votedForMe hwf (Mem.Keeps.refl _ m0)]
      exact Mem.elems_length (Mem.holds_votedForMe m0 hwf c)
    have inner : ∀ (is : List Nat), (∀ i ∈ is, i < (m0.getM c).votedForMe.len) →
        ∀ (m : Mem) (rcM : ringComputerM) (rc rc' : ringComputer),
        m0.Keeps m0.arrays.length m → b ≤ m.arrays.length → rcM.Models b m rc →
        ringN < rc.rings.length →
        (is.map (fun i => (getC m0.heap c).votedForMe.getD i 0)).foldlM (fun rc c =>
            match rc.removeFromUnorganized c with
            | (rc1, true) => do
              let rc2 ← rc1.appendToRing ringN c
              ringComputer.addToRingReverse m0.heap ringN fuel c rc2
            | (rc1, false) => .ok rc1) rc = .ok rc' →
        ∃ rcM' m', is.foldlM (fun (st : ringComputerM × Mem) i => do
            let c ← st.2.index (m0.getM c).votedForMe i
            let r ← st.1.removeFromUnorganized c st.2
            if r.2.1 then do
              let r2 ← r.1.appendToRing grow ringN c r.2.2
              ringComputerM.addToRingReverse grow ringN fuel c r2.1 r2.2
            else pure (r.1, r.2.2)) (rcM, m) = .ok (rcM', m') ∧
          m.Keeps b m' ∧ rcM'.Models b m' rc' ∧ rcM'.rings.length = rcM.rings.length := by
      intro is
      induction is with
      | nil =>
        intro _ m rcM rc rc' _ _ hmod _ h
        simp only [List.map_nil, List.foldlM_nil, pure, Except.pure, Except.ok.injEq] at h
        subst h
        exact ⟨rcM, m, rfl, Mem.Keeps.refl _ _, hmod, rfl⟩
      | cons i is ihl =>
        intro his m rcM rc rc' hk hbm hmod hr h
        rw [List.map_cons, List.foldlM_cons] at h
        rw [List.foldlM_cons]
        have hidx := Mem.index_eq m (m0.getM c).votedForMe i (his i (List.mem_cons_self _ _))
        rw [Mem.elems_votedForMe hwf hk] at hidx
        generalize (getC m0.heap c).votedForMe.getD i 0 = v at h hidx
        obtain ⟨rcM1, m1, r1, r2, r3, r4⟩ := removeFromUnorganizedM_spec b m rcM rc v hmod
        have hk1 : m0.Keeps m0.arrays.length m1 := hk.trans (r2.below hb)
        have hbm1 : b ≤ m1.arrays.length := by have := r2.size; omega
        have his' : ∀ i ∈ is, i < (m0.getM c).votedForMe.len :=
          fun j hj => his j (List.mem_cons_of_mem _ hj)
        cases hrem : rc.removeFromUnorganized v with
        | mk rc1 found =>
          rw [hrem] at h r1 r3
          simp only at r1 r3
          have hr1 : ringN < rc1.rings.length := by
            rw [← r3.count, r4, hmod.count]; exact hr
          cases found with
          | false =>
            simp only [bind, Except.bind] at h
            obtain ⟨rcM', m', f1, f2, f3, f4⟩ := ihl his' m1 rcM1 rc1 rc' hk1 hbm1 r3 hr1 h
            refine ⟨rcM', m', ?_, r2.trans f2, f3, by rw [f4, r4]⟩
            simp only [hidx, r1, bind, Except.bind, pure, Except.pure, Bool.false_eq_true,
              if_false]
            exact f1
          | true =>
            obtain ⟨rc2, rcM2, m2, a1, a2, a3, a4, a5⟩ := appendToRingM_spec grow b m1 rcM1
              rc1 ringN v hbm1 r3 hr1
            have hk2 : m0.Keeps m0.arrays.length m2 := hk1.trans (a3.below hb)
            have hbm2 : b ≤ m2.arrays.length := by have := a3.size; omega
            have hr2 : ringN < rc2.rings.length := by
              rw [← a4.count, a5, r3.count]; exact hr1
            simp only [bind, Except.bind, a1] at h
            cases hrev : ringComputer.addToRingReverse m0.heap ringN fuel v rc2 with
            | error e => rw [hrev] at h; cases h
            | ok rc3 =>
              rw [hrev] at h
              simp only at h
              obtain ⟨rcM3, m3, g1, g2, g3, g4⟩ := ih v m2 rcM2 rc2 rc3 hk2 hbm2 a4 hr2 hrev
              have hk3 : m0.Keeps m0.arrays.length m3 := hk2.trans (g2.below hb)
              have hbm3 : b ≤ m3.arrays.length := by have := g2.size; omega
              have hr3 : ringN < rc3.rings.length := by
                rw [← g3.count, g4, a4.count]; exact hr2
              obtain ⟨rcM', m', f1, f2, f3, f4⟩ := ihl his' m3 rcM3 rc3 rc' hk3 hbm3 g3 hr3 h
              refine ⟨rcM', m', ?_, ((r2.trans a3).trans g2).trans f2, f3,
                by rw [f4, g4, a5, r4]⟩
              simp only [hidx, r1, a2, g1, bind, Except.bind, pure, Except.pure, if_true]
              exact f1
    have hmap : (List.range (m0.getM c).votedForMe.len).map
        (fun i => (getC m0.heap c).votedForMe.getD i 0) = (getC m0.heap c).votedForMe := by
      rw [← hlen]
      have := map_getD_range (getC m0.heap c).votedForMe 0 id
      simpa using this
    rw [← hmap] at h
    exact inner _ (fun i hi => List.mem_range.1 hi) m rcM rc rc' hk hbm hmod hr h

/-- The method `addToRingForward` on the memory follows the value model and keeps the
arrays below `b`. -/
theorem addToRingForwardM_spec (grow : Nat → Nat) (m0 : Mem) (hwf : m0.WellFormed)
    (b ringN : Nat) (hb : m0.arrays.length ≤ b) :
    ∀ (fuel : Nat) (p : Option Nat) (m : Mem) (rcM : ringComputerM) (rc rc' : ringComputer),
      m0.Keeps m0.arrays.length m → b ≤ m.arrays.length → rcM.Models b m rc →
      ringN < rc.rings.length → rc.addToRingForward m0.heap ringN fuel p = .ok rc' →
      ∃ rcM' m', ringComputerM.addToRingForward grow ringN fuel p rcM m = .ok (rcM', m') ∧
        m.Keeps b m' ∧ rcM'.Models b m' rc' ∧ rcM'.rings.length = rcM.rings.length := by
  intro fuel
  induction fuel with
  | zero =>
    intro p m rcM rc rc' _ _ hmod _ h
    cases p with
    | none =>
      simp only [ringComputer.addToRingForward, Except.ok.injEq] at h
      subst h
      exact ⟨rcM, m, rfl, Mem.Keeps.refl _ _, hmod, rfl⟩
    | some c => simp [ringComputer.addToRingForward] at h
  | succ fuel ih =>
    intro p m rcM rc rc' hk hbm hmod hr h
    cases p with
    | none =>
      simp only [ringComputer.addToRingForward, Except.ok.injEq] at h
      subst h
      exact ⟨rcM, m, rfl, Mem.Keeps.refl _ _, hmod, rfl⟩
    | some c =>
      rw [ringComputer.addToRingForward] at h
      rw [ringComputerM.addToRingForward]
      obtain ⟨rcM1, m1, r1, r2, r3, r4⟩ := removeFromUnorganizedM_spec b m rcM rc c hmod
      have hk1 : m0.Keeps m0.arrays.length m1 := hk.trans (r2.below hb)
      have hbm1 : b ≤ m1.arrays.length := by have := r2.size; omega
      cases hrem : rc.removeFromUnorganized c with
      | mk rc1 found =>
        rw [hrem] at h r1 r3
        simp only at r1 r3 h
        have hr1 : ringN < rc1.rings.length := by
          rw [← r3.count, r4, hmod.count]; exact hr
        cases found with
        | false =>
          simp only [Except.ok.injEq] at h
          subst h
          refine ⟨rcM1, m1, ?_, r2, r3, r4⟩
          simp only [r1, bind, Except.bind, pure, Except.pure, Bool.false_eq_true, if_false]
        | true =>
          simp only [bind, Except.bind] at h
          cases hrev : ringComputer.addToRingReverse m0.heap ringN (fuel + 1) c rc1 with
          | error e => rw [hrev] at h; cases h
          | ok rc2 =>
            rw [hrev] at h
            simp only at h
            obtain ⟨rcM2, m2, g1, g2, g3, g4⟩ := addToRingReverseM_spec grow m0 hwf b ringN hb
              (fuel + 1) c m1 rcM1 rc1 rc2 hk1 hbm1 r3 hr1 hrev
            have hk2 : m0.Keeps m0.arrays.length m2 := hk1.trans (g2.below hb)
            have hbm2 : b ≤ m2.arrays.length := by have := g2.size; omega
            have hr2 : ringN < rc2.rings.length := by
              rw [← g3.count, g4, r3.count]; exact hr1
            obtain ⟨rc3, rcM3, m3, a1, a2, a3, a4, a5⟩ := appendToRingM_spec grow b m2 rcM2
              rc2 ringN c hbm2 g3 hr2
            have hk3 : m0.Keeps m0.arrays.length m3 := hk2.trans (a3.below hb)
            have hbm3 : b ≤ m3.arrays.length := by have := a3.size; omega
            have hr3 : ringN < rc3.rings.length := by
              rw [← a4.count, a5, g3.count]; exact hr2
            rw [a1] at h
            simp only at h
            have hvf : (m3.getM c).voteFor = (getC m0.heap c).voteFor := by
              rw [Mem.getM_keeps hk3, Mem.getC_heap]; rfl
            obtain ⟨rcM', m', f1, f2, f3, f4⟩ := ih _ m3 rcM3 rc3 rc' hk3 hbm3 a4 hr3 h
            refine ⟨rcM', m', ?_, ((r2.trans g2).trans a3).trans f2, f3,
              by rw [f4, a5, g4, r4]⟩
            simp only [r1, g1, a2, hvf, bind, Except.bind, pure, Except.pure, if_true]
            exact f1

/-- The loop of `computeRingMembers` on the memory follows the value model and keeps the
arrays below `b`. -/
theorem computeRingMembersM_loop_spec (grow : Nat → Nat) (m0 : Mem) (hwf : m0.WellFormed)
    (b : Nat) (hb : m0.arrays.length ≤ b) :
    ∀ (fuel : Nat) (m : Mem) (rcM : ringComputerM) (rc rc' : ringComputer),
      m0.Keeps m0.arrays.length m → b ≤ m.arrays.length → rcM.Models b m rc →
      computeRingMembers.loop m0.heap fuel rc = .ok rc' →
      ∃ rcM' m', computeRingMembersM.loop grow fuel rcM m = .ok (rcM', m') ∧
        m.Keeps b m' ∧ rcM'.rings.length = rc'.rings.length := by
  intro fuel
  induction fuel with
  | zero =>
    intro m rcM rc rc' _ _ hmod h
    have hlen := Mem.elems_length hmod.pool
    rw [hmod.elems] at hlen
    unfold computeRingMembers.loop at h
    unfold computeRingMembersM.loop
    cases hu : rc.unorganized with
    | nil =>
      rw [hu] at h hlen
      simp only [Except.ok.injEq] at h
      subst h
      rw [if_pos (by simpa using hlen.symm)]
      exact ⟨rcM, m, rfl, Mem.Keeps.refl _ _, hmod.count⟩
    | cons c rest => rw [hu] at h; cases h
  | succ fuel ih =>
    intro m rcM rc rc' hk hbm hmod h
    have hlen := Mem.elems_length hmod.pool
    rw [hmod.elems] at hlen
    cases hu : rc.unorganized with
    | nil =>
      rw [computeRingMembers_loop_nil _ _ _ hu] at h
      simp only [Except.ok.injEq] at h
      subst h
      unfold computeRingMembersM.loop
      rw [hu] at hlen
      rw [if_pos (by simpa using hlen.symm)]
      exact ⟨rcM, m, rfl, Mem.Keeps.refl _ _, hmod.count⟩
    | cons c rest =>
      rw [computeRingMembers_loop_cons m0.heap fuel rc c rest hu] at h
      unfold computeRingMembersM.loop
      have hpos : rcM.unorganized.len ≠ 0 := by rw [hu] at hlen; simp at hlen; omega
      rw [if_neg hpos]
      simp only
      have hidx := Mem.index_eq m rcM.unorganized 0 (by omega)
      rw [hmod.elems, hu] at hidx
      simp only [List.getD_cons_zero] at hidx
      have hmod1 : ringComputerM.Models b m
          { rings := rcM.rings ++ [Slice.empty], unorganized := rcM.unorganized }
          { rings := rc.rings ++ [[]], unorganized := rc.unorganized } := by
        refine ⟨hmod.pool, hmod.elems, by simp [hmod.count], ?_⟩
        intro R hR
        simp only at hR
        rcases List.mem_append.1 hR with h1 | h1
        · exact hmod.rings R h1
        · simp only [List.mem_singleton] at h1
          subst h1
          exact ⟨⟨Nat.le_refl _, Or.inl rfl⟩, Or.inl rfl⟩
      cases hfw : ringComputer.addToRingForward m0.heap rc.rings.length
          (rc.unorganized.length + 1) (some c)
          ({ rings := rc.rings ++ [[]], unorganized := rc.unorganized } : ringComputer) with
      | error e => rw [hfw] at h; cases h
      | ok rc2 =>
        rw [hfw] at h
        simp only [Except.bind] at h
        obtain ⟨rcM2, m2, g1, g2, g3, _⟩ := addToRingForwardM_spec grow m0 hwf b
          rc.rings.length hb (rc.unorganized.length + 1) (some c) m _ _ rc2 hk hbm hmod1
          (by simp) hfw
        have hk2 : m0.Keeps m0.arrays.length m2 := hk.trans (g2.below hb)
        have hbm2 : b ≤ m2.arrays.length := by have := g2.size; omega
        obtain ⟨rcM', m', f1, f2, f3⟩ := ih m2 rcM2 rc2 rc' hk2 hbm2 g3 h
        refine ⟨rcM', m', ?_, g2.trans f2, f3⟩
        rw [hmod.count, ← hlen]
        simp only [hidx, g1, bind, Except.bind]
        exact f1

/-- The function `computeRingMembers` on the memory returns as many rings as in the value
model and keeps every array that was allocated before the call. -/
theorem computeRingMembersM_spec (grow : Nat → Nat) (m0 : Mem) (hwf : m0.WellFormed) (m : Mem)
    (hk : m0.Keeps m0.arrays.length m) (c : Nat) (ring : Slice) (hring : m.Holds c ring)
    (rings : List (List Nat)) (h : computeRingMembers m0.heap (m.elems ring) = .ok rings) :
    ∃ ringsM m', computeRingMembersM grow m ring = .ok (ringsM, m') ∧
      m.Keeps m.arrays.length m' ∧ ringsM.length = rings.length := by
  unfold computeRingMembers at h
  unfold computeRingMembersM
  have hempty : m.Holds m.arrays.length Slice.empty := ⟨Nat.le_refl _, Or.inl rfl⟩
  obtain ⟨s1, m1, e1, e2, e3, e4, _⟩ := Mem.appendAll_spec grow m m.arrays.length Slice.empty
    (m.elems ring) (Nat.le_refl _) hempty
  have e4' : m1.elems s1 = m.elems ring := by
    rw [e4]
    have : m.elems Slice.empty = [] := Mem.elems_cap_zero m _ _ hempty rfl
    rw [this, List.nil_append]
  have hlen := Mem.elems_length hring
  cases hl : computeRingMembers.loop m0.heap ((m.elems ring).length + 1)
      { rings := [], unorganized := m.elems ring } with
  | error e => rw [hl] at h; cases h
  | ok rc' =>
    rw [hl] at h
    simp only [bind, Except.bind, pure, Except.pure, Except.ok.injEq] at h
    have hb : m0.arrays.length ≤ m.arrays.length := hk.size
    obtain ⟨rcM', m', f1, f2, f3⟩ := computeRingMembersM_loop_spec grow m0 hwf m.arrays.length
      hb ((m.elems ring).length + 1) m1 { rings := [], unorganized := s1 }
      { rings := [], unorganized := m.elems ring } rc' (hk.trans (e2.below hb))
      (by have := e2.size; omega) ⟨e3, e4', rfl, by simp⟩ hl
    refine ⟨rcM'.rings, m', ?_, e2.trans f2, by rw [f3, h]⟩
    rw [hlen] at f1
    simp only [e1, f1, bind, Except.bind, pure, Except.pure]

theorem Mem.holds_empty (m : Mem) (b : Nat) : m.Holds b Slice.empty :=
  ⟨Nat.le_refl _, Or.inl rfl⟩

theorem Mem.elems_empty (m : Mem) : m.elems Slice.empty = [] :=
  Mem.elems_cap_zero m 0 _ (Mem.holds_empty m 0) rfl

/-- The function `getBestCandidates` on the memory returns the top tier and the ring
count of the value model and keeps every array that was allocated before the call. -/
theorem getBestCandidatesM_spec (grow : Nat → Nat) (m0 : Mem) (hwf : m0.WellFormed) (m : Mem)
    (hk : m0.Keeps m0.arrays.length m) (best : Option Nat) (T : List Nat) (k : Nat)
    (h : getBestCandidates m0.heap best = .ok (T, k)) :
    ∃ br m', getBestCandidatesM grow m best = .ok (br, k, m') ∧
      m.Keeps m.arrays.length m' ∧ m'.Holds m.arrays.length br ∧ m'.elems br = T := by
  unfold getBestCandidates at h
  unfold getBestCandidatesM
  cases best with
  | none => cases h
  | some b =>
    simp only at h ⊢
    have hb : m0.arrays.length ≤ m.arrays.length := hk.size
    have hsc : (m.getM b).totalIndirectVotes = (getC m0.heap b).totalIndirectVotes := by
      rw [Mem.getM_keeps hk, Mem.getC_heap]; rfl
    have hcl : m.cand.length = m0.heap.length := by
      rw [hk.cand]; unfold Mem.heap; simp
    rw [hsc, hcl]
    cases hl : getBestCandidates.loop m0.heap (getC m0.heap b).totalIndirectVotes
        (m0.heap.length + 1) (some b) [] with
    | error e => rw [hl] at h; cases h
    | ok T1 =>
      rw [hl] at h
      simp only [bind, Except.bind] at h
      have hl' := hl
      rw [← Mem.elems_empty m] at hl'
      obtain ⟨br, m1, e1, e2, e3, e4⟩ := getBestCandidatesM_loop_spec grow m0 hwf
        (getC m0.heap b).totalIndirectVotes m.arrays.length hb (m0.heap.length + 1) (some b)
        Slice.empty m T1 hk (Nat.le_refl _) (Mem.holds_empty _ _) hl'
      have hk1 : m0.Keeps m0.arrays.length m1 := hk.trans (e2.below hb)
      cases hr : computeRingMembers m0.heap T1 with
      | error e => rw [hr] at h; cases h
      | ok rings =>
        rw [hr] at h
        simp only [pure, Except.pure, Except.ok.injEq, Prod.mk.injEq] at h
        obtain ⟨hT, hkk⟩ := h
        subst hT
        rw [← e4] at hr
        obtain ⟨ringsM, m2, f1, f2, f3⟩ := computeRingMembersM_spec grow m0 hwf m1 hk1 _ br e3
          rings hr
        refine ⟨br, m2, ?_, e2.trans (f2.below e2.size), e3.keeps f2, ?_⟩
        · simp only [e1, f1, bind, Except.bind, pure, Except.pure, f3, hkk]
        · rw [Mem.elems_keeps f2 e3 (by
            rcases e3.2 with h | ⟨_, h, _⟩
            · exact Or.inl h
            · exact Or.inr h)]
          exact e4

/-- The function `bestOfRing` on the memory returns in `out` the tentative winners of the
value model and keeps every array that was allocated before the call. -/
theorem bestOfRingM_spec (grow : Nat → Nat) (m0 : Mem) (hwf : m0.WellFormed) (m : Mem)
    (hk : m0.Keeps m0.arrays.length m) (ring : Slice) :
    ∃ out m', bestOfRingM grow m ring = (out, m') ∧ m.Keeps m.arrays.length m' ∧
      m'.Holds m.arrays.length out ∧ m'.elems out = bestOfRing m0.heap (m.elems ring) := by
  unfold bestOfRingM bestOfRing bestOfRing.select
  rw [Mem.heap_keeps hwf hk]
  generalize (m.elems ring).map
    (fun c => (c, bestOfRing.score m0.heap (m.elems ring) c)) = scores
  have inner : ∀ (scores : List (Nat × Nat)) (wc : Nat) (out : Slice) (l : List Nat) (m1 : Mem),
      m.Keeps m.arrays.length m1 → m1.Holds m.arrays.length out → m1.elems out = l →
      m.Keeps m.arrays.length (scores.foldl (fun (st : Nat × Slice × Mem) cs =>
          if cs.2 ≥ st.1 then
            let st1 : Nat × Slice := if cs.2 > st.1 then (cs.2, { st.2.1 with len := 0 })
              else (st.1, st.2.1)
            let r := st.2.2.append grow st1.2 cs.1
            (st1.1, r.1, r.2)
          else st) (wc, out, m1)).2.2 ∧
      (scores.foldl (fun (st : Nat × Slice × Mem) cs =>
          if cs.2 ≥ st.1 then
            let st1 : Nat × Slice := if cs.2 > st.1 then (cs.2, { st.2.1 with len := 0 })
              else (st.1, st.2.1)
            let r := st.2.2.append grow st1.2 cs.1
            (st1.1, r.1, r.2)
          else st) (wc, out, m1)).2.2.Holds m.arrays.length
        (scores.foldl (fun (st : Nat × Slice × Mem) cs =>
          if cs.2 ≥ st.1 then
            let st1 : Nat × Slice := if cs.2 > st.1 then (cs.2, { st.2.1 with len := 0 })
              else (st.1, st.2.1)
            let r := st.2.2.append grow st1.2 cs.1
            (st1.1, r.1, r.2)
          else st) (wc, out, m1)).2.1 ∧
      (scores.foldl (fun (st : Nat × Slice × Mem) cs =>
          if cs.2 ≥ st.1 then
            let st1 : Nat × Slice := if cs.2 > st.1 then (cs.2, { st.2.1 with len := 0 })
              else (st.1, st.2.1)
            let r := st.2.2.append grow st1.2 cs.1
            (st1.1, r.1, r.2)
          else st) (wc, out, m1)).2.2.elems
        (scores.foldl (fun (st : Nat × Slice × Mem) cs =>
          if cs.2 ≥ st.1 then
            let st1 : Nat × Slice := if cs.2 > st.1 then (cs.2, { st.2.1 with len := 0 })
              else (st.1, st.2.1)
            let r := st.2.2.append grow st1.2 cs.1
            (st1.1, r.1, r.2)
          else st) (wc, out, m1)).2.1 =
        (scores.foldl (fun (st : Nat × List Nat) cs =>
          if cs.2 ≥ st.1 then
            let st1 := if cs.2 > st.1 then (cs.2, []) else st
            (st1.1, st1.2 ++ [cs.1])
          else st) (wc, l)).2 := by
    intro scores
    induction scores with
    | nil => intro wc out l m1 h1 h2 h3; exact ⟨h1, h2, h3⟩
    | cons cs scores ih =>
      intro wc out l m1 h1 h2 h3
      simp only [List.foldl_cons]
      by_cases hge : cs.2 ≥ wc
      · simp only [if_pos hge]
        by_cases hgt : cs.2 > wc
        · simp only [if_pos hgt]
          have hres : m1.Holds m.arrays.length { out with len := 0 } := by
            refine ⟨Nat.zero_le _, ?_⟩
            rcases h2.2 with h | h
            · exact Or.inl h
            · exact Or.inr h
          have hel : m1.elems { out with len := 0 } = [] := by
            unfold Mem.elems; simp
          obtain ⟨s1, m2, e1, e2, e3, e4, _⟩ := Mem.appendAll_spec grow m1 m.arrays.length
            { out with len := 0 } [cs.1] h1.size hres
          have e1' : m1.append grow { out with len := 0 } cs.1 = (s1, m2) := e1
          rw [e1']
          rw [hel] at e4
          exact ih cs.2 s1 ([] ++ [cs.1]) m2 (h1.trans e2) e3 e4
        · simp only [if_neg hgt]
          obtain ⟨s1, m2, e1, e2, e3, e4, _⟩ := Mem.appendAll_spec grow m1 m.arrays.length
            out [cs.1] h1.size h2
          have e1' : m1.append grow out cs.1 = (s1, m2) := e1
          rw [e1']
          rw [h3] at e4
          exact ih wc s1 (l ++ [cs.1]) m2 (h1.trans e2) e3 e4
      · simp only [if_neg hge]
        exact ih wc out l m1 h1 h2 h3
  obtain ⟨i1, i2, i3⟩ := inner scores 0 Slice.empty [] m (Mem.Keeps.refl _ _)
    (Mem.holds_empty _ _) (Mem.elems_empty m)
  exact ⟨_, _, rfl, i1, i2, i3⟩

/-- The function `solveWinner` on the memory returns the winners of the value model and
keeps every array that was allocated before the call. -/
theorem solveWinnerM_spec (m : Mem) (c : Nat) (tw bestRing : Slice) (hh : m.Holds c tw)
    (B : List Nat) (h : solveWinner m.heap (m.elems tw) (m.elems bestRing) = .ok B) :
    ∃ s m', solveWinnerM m tw bestRing = .ok (s, m') ∧ m.Keeps m.arrays.length m' ∧
      m'.elems s = B := by
  have hlen := Mem.elems_length hh
  unfold solveWinnerM
  by_cases h1 : tw.len = 1
  · rw [if_neg (by simpa using h1)]
    obtain ⟨w, hw⟩ := List.length_eq_one.1 (hlen.trans h1)
    have hidx := Mem.index_eq m tw 0 (by omega)
    rw [hw] at hidx h
    simp only [List.getD_cons_zero] at hidx
    unfold solveWinner at h
    simp only at h
    have key : ∀ q : Nat, ∃ s m',
        (Except.ok (({ arr := m.arrays.length, len := 1, cap := 1 } : Slice),
          ({ m with arrays := m.arrays ++ [[q]] } : Mem)) : Except Fault (Slice × Mem)) =
          .ok (s, m') ∧ m.Keeps m.arrays.length m' ∧ m'.elems s = [q] := by
      intro q
      refine ⟨_, _, rfl, ⟨rfl, rfl, rfl, by simp, ?_, ?_⟩, ?_⟩
      · intro a
        by_cases ha : a < m.arrays.length
        · rw [Mem.array_push_old m [q] a ha]
        · rw [Mem.array_out m a (by omega)]; simp
      · intro a ha
        exact Mem.array_push_old m [q] a ha
      · rw [Mem.elems]
        simp only
        rw [Mem.array_push_new m [q]]
        rfl
    cases hp : getPatron m.heap w (m.elems bestRing) with
    | error e => rw [hp] at h; cases h
    | ok patron =>
      rw [hp] at h
      simp only [bind, Except.bind, hidx, hp, pure, Except.pure]
      cases patron with
      | none =>
        simp only [bind, Except.bind, pure, Except.pure, Except.ok.injEq] at h
        subst h
        exact key w
      | some p =>
        simp only [bind, Except.bind, pure, Except.pure, Except.ok.injEq] at h
        subst h
        exact key p
  · rw [if_pos (by simpa using h1)]
    have hB : B = m.elems tw := by
      rw [solveWinner_of_not_single] at h
      · simp only [Except.ok.injEq] at h; exact h.symm
      · intro w hw
        rw [hw] at hlen
        simp at hlen
        omega
    exact ⟨tw, m, rfl, Mem.Keeps.refl _ _, hB.symm⟩

/-- The method `FindWinner` on a well-formed memory returns the result of the value
model on the counter that the memory holds, and keeps every array of the memory. -/
theorem FindWinnerM_spec (grow : Nat → Nat) (S : SortSlice) (hash : List Nat → List Nat)
    (m : Mem) (hwf : m.WellFormed) (r : Option Vote)
    (h : m.counter.FindWinner S hash = .ok r) :
    ∃ m', FindWinnerM grow S hash m = .ok (r, m') ∧ m.Keeps m.arrays.length m' := by
  unfold VoteCounter.FindWinner at h
  unfold FindWinnerM
  have hbest : m.counter.best = m.best := rfl
  have hcand : m.counter.cand = m.heap := rfl
  rw [hbest, hcand] at h
  cases hb : m.best with
  | none =>
    rw [hb] at h
    simp only [Except.ok.injEq] at h
    subst h
    exact ⟨m, rfl, Mem.Keeps.refl _ _⟩
  | some b =>
    rw [hb] at h
    simp only at h ⊢
    cases hg : getBestCandidates m.heap (some b) with
    | error e => rw [hg] at h; cases h
    | ok res =>
      obtain ⟨T, k⟩ := res
      rw [hg] at h
      simp only [bind, Except.bind] at h
      obtain ⟨br, m1, e1, e2, e3, e4⟩ := getBestCandidatesM_spec grow m hwf m
        (Mem.Keeps.refl _ _) (some b) T k hg
      have hk1 : m.Keeps m.arrays.length m1 := e2
      obtain ⟨out, m2, f1, f2, f3, f4⟩ := bestOfRingM_spec grow m hwf m1 hk1 br
      have hk2 : m.Keeps m.arrays.length m2 := hk1.trans (f2.below hk1.size)
      have hbr2 : m2.elems br = T := by
        rw [Mem.elems_keeps f2 e3 (by
          rcases e3.2 with h | ⟨_, h, _⟩
          · exact Or.inl h
          · exact Or.inr h)]
        exact e4
      rw [e4] at f4
      simp only [e1, f1, bind, Except.bind]
      by_cases hk : k < 2
      · simp only [if_pos hk] at h ⊢
        cases hs : solveWinner m.heap (bestOfRing m.heap T) T with
        | error e => rw [hs] at h; cases h
        | ok B =>
          rw [hs] at h
          simp only at h
          have hs' := hs
          rw [← f4, ← hbr2, ← Mem.heap_keeps hwf hk2] at hs'
          obtain ⟨s, m3, g1, g2', g3⟩ := solveWinnerM_spec m2 _ out br f3 B hs'
          have g2 : m.Keeps m.arrays.length m3 := hk2.trans (g2'.below hk2.size)
          rw [g1]
          simp only
          rw [Mem.heap_keeps hwf g2, g3]
          cases ht : tieBreaker S hash m.heap B with
          | error e => rw [ht] at h; cases h
          | ok w =>
            rw [ht] at h
            simp only
            cases w with
            | none =>
              simp only [pure, Except.pure, Except.ok.injEq] at h
              subst h
              exact ⟨m3, rfl, g2⟩
            | some w =>
              simp only [pure, Except.pure, Except.ok.injEq] at h
              subst h
              refine ⟨m3, ?_, g2⟩
              simp only [pure, Except.pure]
              rw [Mem.getM_keeps g2, Mem.getC_heap]
              rfl
      · simp only [if_neg hk, pure, Except.pure] at h ⊢
        rw [Mem.heap_keeps hwf hk2, f4]
        cases ht : tieBreaker S hash m.heap (bestOfRing m.heap T) with
        | error e => rw [ht] at h; cases h
        | ok w =>
          rw [ht] at h
          simp only
          cases w with
          | none =>
            simp only [pure, Except.pure, Except.ok.injEq] at h
            subst h
            exact ⟨m2, rfl, hk2⟩
          | some w =>
            simp only [pure, Except.pure, Except.ok.injEq] at h
            subst h
            refine ⟨m2, ?_, hk2⟩
            simp only [pure, Except.pure]
            rw [Mem.getM_keeps hk2, Mem.getC_heap]
            rfl

theorem Mem.load_array (vc : VoteCounter) (i : Nat) :
    (Mem.load vc).array i = (getC vc.cand i).votedForMe := by
  unfold Mem.array Mem.load getC
  simp only [List.getD_eq_getElem?_getD, List.getElem?_map]
  cases vc.cand[i]? with
  | none => rfl
  | some c => rfl

theorem Mem.load_wellFormed (vc : VoteCounter) : (Mem.load vc).WellFormed := by
  intro c hc
  have hc' : c ∈ (List.range vc.cand.length).map (fun i =>
      ({ vote := (getC vc.cand i).vote, voteFor := (getC vc.cand i).voteFor,
         totalIndirectVotes := (getC vc.cand i).totalIndirectVotes,
         votedForMe :=
           { arr := i, len := (getC vc.cand i).votedForMe.length,
             cap := (getC vc.cand i).votedForMe.length },
         willingCandidate := (getC vc.cand i).willingCandidate,
         nextByTotalIndirectVotes := (getC vc.cand i).nextByTotalIndirectVotes } :
        candidateM)) := hc
  obtain ⟨i, hi, rfl⟩ := List.mem_map.1 hc'
  rw [List.mem_range] at hi
  refine ⟨Nat.le_refl _, Or.inr ⟨Nat.zero_le _, ?_, ?_⟩⟩
  · simp only [Mem.load, List.length_map]; exact hi
  · simp only
    rw [Mem.load_array]

theorem Mem.load_counter (vc : VoteCounter) : (Mem.load vc).counter = vc := by
  have hheap : (Mem.load vc).heap = vc.cand := by
    apply List.ext_getElem
    · simp [Mem.heap, Mem.load]
    · intro i h1 h2
      have hv : (Mem.load vc).heap[i] = getC (Mem.load vc).heap i := by
        unfold getC; rw [List.getD_eq_getElem _ _ h1]
      have hc : vc.cand[i] = getC vc.cand i := by
        unfold getC; rw [List.getD_eq_getElem _ _ h2]
      rw [hv, hc, Mem.getC_heap]
      have hg : (Mem.load vc).getM i =
          { vote := (getC vc.cand i).vote, voteFor := (getC vc.cand i).voteFor,
            totalIndirectVotes := (getC vc.cand i).totalIndirectVotes,
            votedForMe :=
              { arr := i, len := (getC vc.cand i).votedForMe.length,
                cap := (getC vc.cand i).votedForMe.length },
            willingCandidate := (getC vc.cand i).willingCandidate,
            nextByTotalIndirectVotes := (getC vc.cand i).nextByTotalIndirectVotes } := by
        unfold Mem.getM Mem.load
        simp only
        rw [List.getD_eq_getElem _ _ (by simpa using h2)]
        simp
      rw [hg]
      unfold Mem.value Mem.elems
      simp only
      rw [Mem.load_array, List.take_length]
  unfold Mem.counter
  rw [hheap]
  rfl

/-- C9: `FindWinner` is idempotent. For the counter `vc` built by `MkVoteCounter` and
every well-formed memory `m` that holds it (there is one: `Mem.load vc`), a call of
`FindWinner` returns the result `r` of the value model and leaves a memory `m1` in which
the arena (every field of every candidate, the header of `votedForMe` included), `best`
and `totalWillingCandidates` are as in `m` and every array of `m`, so the contents of
every `votedForMe`, is unchanged: the writes of the call go to arrays that it allocates.
Hence `m1` is well formed and holds `vc`, and a second call returns `r` again. -/
theorem findWinner_idempotent (grow : Nat → Nat) (S : SortSlice) (hash : List Nat → List Nat)
    (votes : List Vote) :
    ∃ vc r, MkVoteCounter S votes = .ok vc ∧ vc.FindWinner S hash = .ok r ∧
      (Mem.load vc).WellFormed ∧ (Mem.load vc).counter = vc ∧
      ∀ m : Mem, m.WellFormed → m.counter = vc →
        ∃ m1, FindWinnerM grow S hash m = .ok (r, m1) ∧
          m1.cand = m.cand ∧ m1.best = m.best ∧
          m1.totalWillingCandidates = m.totalWillingCandidates ∧
          (∀ a, a < m.arrays.length → m1.array a = m.array a) ∧
          (∀ c, m1.elems (m1.getM c).votedForMe = m.elems (m.getM c).votedForMe) ∧
          m1.WellFormed ∧ m1.counter = vc ∧
          ∃ m2, FindWinnerM grow S hash m1 = .ok (r, m2) := by
  obtain ⟨vc, h1, hc⟩ := MkVoteCounter_spec S votes
  obtain ⟨r, h2, _, _⟩ := FindWinner_spec S hash hc
  refine ⟨vc, r, h1, h2, Mem.load_wellFormed vc, Mem.load_counter vc, ?_⟩
  intro m hwf hm
  have h2' : m.counter.FindWinner S hash = .ok r := by rw [hm]; exact h2
  obtain ⟨m1, f1, f2⟩ := FindWinnerM_spec grow S hash m hwf r h2'
  have hwf1 : m1.WellFormed := hwf.kept f2
  have hheap : m1.heap = m.heap := Mem.heap_keeps hwf f2
  have hcount : m1.counter = vc := by
    rw [← hm]
    unfold Mem.counter
    rw [hheap, f2.tw, f2.best]
  have h3 : m1.counter.FindWinner S hash = .ok r := by rw [hcount]; exact h2
  obtain ⟨m2, g1, _⟩ := FindWinnerM_spec grow S hash m1 hwf1 r h3
  refine ⟨m1, f1, f2.cand, f2.best, f2.tw, f2.old, ?_, hwf1, hcount, m2, g1⟩
  intro c
  rw [Mem.getM_keeps f2, Mem.elems_votedForMe hwf f2, Mem.getC_heap]
  rfl

/-- A call of `FindWinner` on the counter of `TestSimple` in the memory `memSimple`, with
a runtime that allocates one spare slot: the call allocates five arrays behind the two
arrays of `votedForMe` (for `bestRing`, `rc.unorganized`, the ring, `out` and the slice
returned by `solveWinner`) and writes into these. -/
theorem findWinnerM_on_simple :
    (MkVoteCounter insertionSortSlice [voteAlice, voteBob]).toOption.map Mem.load =
      some memSimple ∧
    FindWinnerM (fun _ => 1) insertionSortSlice idHash memSimple =
      .ok (some voteBob,
        { memSimple with arrays := [[1], [], [0, 0], [0, 0], [0, 0], [0, 0], [0]] }) :=
  ⟨rfl, rfl⟩

end Electorium
